import Mathlib

/-! doclone: the link protocol and the partition descriptor.

A shallow embedding of `libdoclone/src/Link.cc` and `libdoclone/src/Partition.cc`
(with the constants of `NetNode.h`), followed by theorems about it.

Conventions of the embedding:

* machine integers are natural numbers, reduced modulo `2 ^ w` where a wrap can happen;
* a `uint32_t` / `uint64_t` object is related to the bytes it occupies in memory through the
  host byte order (`Endian`), so that what `sendto` / `transferFrom` put on the wire is the
  list of those bytes;
* a C array is a list with bounds-checked access: an access outside the array is a `fault`
  (`netScanIn` lays the array in a memory in which the compiled code goes on past it);
* a `double` is its 64-bit IEEE-754 pattern, and comparisons are made on the decoded value;
* C++ exceptions are outcomes (`Outcome.threw`), and a `catch` clause matches through `catches`.
-/

namespace Doclone

/-! ## Exceptions -/

/-- Classes of the exception hierarchy that the embedded code names. -/
inductive ExcClass
  | Exception
  | ErrorException
  | WarningException
  | CancelException
  | ConnectionException
  | ReadDataException
  | WriteDataException
  | SendDataException
  | ReceiveDataException
  | NoBlockDeviceException
  | CreateImageException
  | RestoreImageException
  | InvalidImageException
  | MountException
  | UmountException
  | FormatException
  | FileNotFoundException
  deriving DecidableEq, Repr

/-- The class hierarchy: `H c b` tells that class `c` derives (directly or not) from `b`.
Only `MountException.h` is among the sources, so the hierarchy is an input of the model. -/
abbrev Hierarchy := ExcClass → ExcClass → Bool

/-- Whether `catch (const handler &)` catches an exception object of dynamic class `thrown`. -/
def catches (H : Hierarchy) (thrown handler : ExcClass) : Bool :=
  thrown == handler || H thrown handler

/-- Whether one of the `catch` clauses for the classes `handlers` catches `thrown`. -/
def caughtBy (H : Hierarchy) (handlers : List ExcClass) (thrown : ExcClass) : Bool :=
  handlers.any (catches H thrown)

/-- Modelled from the spec: the headers of the exception classes other than
`MountException.h` are missing. `MountException` derives from `WarningException`
(`MountException.h`); `Warning` is a super-category of its own, apart from the error kinds;
every class derives from `Exception`. -/
def specHierarchy : Hierarchy := fun c b =>
  match c, b with
  | .Exception, _ => false
  | _, .Exception => true
  | .MountException, .WarningException => true
  | _, _ => false

/-- How a call ends: it returns a value, it throws an exception of some class, it accesses an
array outside its bounds, or the loop it runs is still running when the fuel is spent. -/
inductive Outcome (α : Type)
  | returned (a : α)
  | threw (c : ExcClass)
  | fault
  | noFuel
  deriving DecidableEq, Repr

/-! ## Byte order -/

/-- Byte order of a host. -/
inductive Endian
  | little
  | big
  deriving DecidableEq, Repr

/-- Value of a list of bytes read most significant byte first. -/
def ofBytesBE (bs : List Nat) : Nat :=
  bs.foldl (fun acc b => acc * 256 + b) 0

/-- The `n` low bytes of `v`, least significant byte first. -/
def bytesLE : Nat → Nat → List Nat
  | 0, _ => []
  | n + 1, v => (v % 256) :: bytesLE n (v / 256)

/-- The `n` low bytes of `v`, most significant byte first. -/
def bytesBE (n v : Nat) : List Nat :=
  (bytesLE n v).reverse

/-- Value of a list of bytes read least significant byte first. -/
def ofBytesLE (bs : List Nat) : Nat :=
  ofBytesBE bs.reverse

/-- The bytes that an `n`-byte unsigned integer object of value `v` occupies in memory. -/
def memBytes (e : Endian) (n v : Nat) : List Nat :=
  match e with
  | .little => bytesLE n v
  | .big => bytesBE n v

/-- The value of the unsigned integer object whose bytes in memory are `bs`. -/
def memLoad (e : Endian) (bs : List Nat) : Nat :=
  match e with
  | .little => ofBytesLE bs
  | .big => ofBytesBE bs

/-- `bswap_32`. -/
def bswap32 (v : Nat) : Nat :=
  ofBytesBE (bytesLE 4 v)

/-- `bswap_64`. -/
def bswap64 (v : Nat) : Nat :=
  ofBytesBE (bytesLE 8 v)

/-- `htonl`: host to network order, the identity on a big-endian host. -/
def htonl (e : Endian) (v : Nat) : Nat :=
  match e with
  | .little => bswap32 v
  | .big => v % 2 ^ 32

/-- `ntohl`. -/
def ntohl (e : Endian) (v : Nat) : Nat :=
  match e with
  | .little => bswap32 v
  | .big => v % 2 ^ 32

/-- `htobe64`. -/
def htobe64 (e : Endian) (v : Nat) : Nat :=
  match e with
  | .little => bswap64 v
  | .big => v % 2 ^ 64

/-- `be64toh`. -/
def be64toh (e : Endian) (v : Nat) : Nat :=
  match e with
  | .little => bswap64 v
  | .big => v % 2 ^ 64

/-- The `in_addr_t` value (`sin_addr.s_addr`) a host holds for the IPv4 address `a.b.c.d`:
the object whose bytes in memory are `a, b, c, d` (network order). -/
def s_addr_of (e : Endian) (a b c d : Nat) : Nat :=
  memLoad e [a, b, c, d]

/-- Conversion of a `uint32_t` to `int` (the return type of `netScan` and `answer`). -/
def toInt32 (v : Nat) : Int :=
  if v % 2 ^ 32 < 2 ^ 31 then ((v % 2 ^ 32 : Nat) : Int) else ((v % 2 ^ 32 : Nat) : Int) - 2 ^ 32

/-- Conversion of an `int` to `uint32_t` (`sin_addr.s_addr = netScan()`). -/
def toUInt32 (r : Int) : Nat :=
  (r % 2 ^ 32).toNat

/-! ## NetNode.h -/

def PORT_PING : Nat := 7772

def PORT_DATA : Nat := 7773

def LINKS_NUM : Nat := 64

def C_LINK_SERVER_OK : Nat := 1 <<< 0

def C_LINK_CLIENT_OK : Nat := 1 <<< 1

def C_NEXT_LINK_IP : Nat := 1 <<< 2

def C_SERVER_OK : Nat := 1 <<< 3

def C_RECEIVER_OK : Nat := 1 <<< 4

/-- `inet_addr (MULTICAST_GROUP)`, the group `225.0.1.2`. -/
def multicastGroup (e : Endian) : Nat :=
  s_addr_of e 225 0 1 2

/-! ## Link::netScan -/

/-- A datagram waiting on the UDP socket when `select` reports it readable: the command byte
that `recvfrom` stores in `response` and the address it stores in `tmpSock.sin_addr.s_addr`. -/
structure Reply where
  response : Nat
  s_addr : Nat
  deriving DecidableEq, Repr

/-- A datagram handed to `sendto`: destination `udp.sin_addr.s_addr` and the bytes sent. -/
structure Sent where
  dest : Nat
  payload : List Nat
  deriving DecidableEq, Repr

/-- What surrounds a call of `netScan`: whether `socket` succeeds, whether the `k`-th call of
`sendto` (counted from 0) succeeds, and the value that the element `k` of the local array
`links`, which is not initialised, holds at the start. -/
structure NetEnv where
  socketOk : Bool
  sendtoOk : Nat → Bool
  indeterminate : Nat → Nat

/-- The write `a[i] = v` into a C array of `a.length` elements. -/
def arrSet (a : List Nat) (i v : Nat) : Option (List Nat) :=
  if i < a.length then some (a.set i v) else none

/-- The read `a[i]` from a C array of `a.length` elements. -/
def arrGet (a : List Nat) (i : Nat) : Option Nat :=
  a[i]?

/-- The `select` loop of `netScan` (Link.cc 185-210). The list holds the datagrams that arrive
in the discovery window, in arrival order; `select` returns a positive value while one is
waiting and 0 (time-out) when none is left. A datagram leaves the socket only when `recvfrom`
reads it. One unit of fuel is one evaluation of the loop condition. -/
def scanLoop (linksNum : Nat) : Nat → List Reply → Nat → List Nat → Outcome (Nat × List Nat)
  | 0, _, _, _ => .noFuel
  | _ + 1, [], i, links => .returned (i, links)
  | fuel + 1, r :: rest, i, links =>
    if i ≤ (linksNum + 2 ^ 32 - 1) % 2 ^ 32 then
      if r.response &&& C_LINK_CLIENT_OK = 0 then
        scanLoop linksNum fuel rest i links
      else
        match arrSet links i r.s_addr with
        | none => .fault
        | some links1 =>
          match arrSet links1 (i + 1) 0 with
          | none => .fault
          | some links2 => scanLoop linksNum fuel rest (i + 1) links2
    else
      scanLoop linksNum fuel (r :: rest) i links

/-- The loop `for (j = 0; j < i; j++)` of `netScan` (Link.cc 217-235), `n = i - j` iterations
left, `k` calls of `sendto` made so far, `tr` the datagrams sent so far. -/
def distribute (e : Endian) (env : NetEnv) (links : List Nat) :
    Nat → Nat → Nat → List Sent → List Sent × Outcome Unit
  | 0, _, _, tr => (tr, .returned ())
  | n + 1, j, k, tr =>
    match arrGet links j, arrGet links (j + 1) with
    | some dst, some nxt =>
      let next_link := htonl e nxt
      if !env.sendtoOk k then (tr, .threw .ConnectionException)
      else
        let tr1 := tr ++ [⟨dst, [C_NEXT_LINK_IP]⟩]
        if !env.sendtoOk (k + 1) then (tr1, .threw .ConnectionException)
        else distribute e env links n (j + 1) (k + 2) (tr1 ++ [⟨dst, memBytes e 4 next_link⟩])
    | _, _ => (tr, .fault)

/-- `Link::netScan` (Link.cc 155-241) on a host of byte order `e`, with `_linksNum = linksNum`.
The result is the list of datagrams sent, in order, and how the call ends; a normal return
carries the `int` returned (`links[0]`). An access outside the array `links` ends the run as
a `fault`; `netScanIn` follows the compiled code past the array. -/
def netScan (e : Endian) (linksNum : Nat) (env : NetEnv) (fuel : Nat) (replies : List Reply) :
    List Sent × Outcome Int :=
  if !env.socketOk then ([], .threw .ConnectionException)
  else if !env.sendtoOk 0 then ([], .threw .ConnectionException)
  else
    let tr0 : List Sent := [⟨multicastGroup e, [C_LINK_SERVER_OK]⟩]
    match scanLoop linksNum fuel replies 0 ((List.range linksNum).map env.indeterminate) with
    | .noFuel => (tr0, .noFuel)
    | .fault => (tr0, .fault)
    | .threw c => (tr0, .threw c)
    | .returned (i, links) =>
      if i = 0 then (tr0, .threw .ConnectionException)
      else
        match distribute e env links i 0 1 tr0 with
        | (tr, .returned ()) =>
          match arrGet links 0 with
          | some first => (tr, .returned (toInt32 first))
          | none => (tr, .fault)
        | (tr, .threw c) => (tr, .threw c)
        | (tr, .fault) => (tr, .fault)
        | (tr, .noFuel) => (tr, .noFuel)

/-- The network in which every call succeeds. -/
def netOk : NetEnv := ⟨true, fun _ => true, fun _ => 0⟩

/-- The successor datagrams the protocol description asks for, for the chain `addrs` in
arrival order: to each link the command `C_NEXT_LINK_IP`, then the 4 bytes that hold
`htonl` of the next address, 0 for the tail. -/
def chainTrace (e : Endian) : List Nat → List Sent
  | [] => []
  | [a] => [⟨a, [C_NEXT_LINK_IP]⟩, ⟨a, memBytes e 4 (htonl e 0)⟩]
  | a :: b :: rest =>
    ⟨a, [C_NEXT_LINK_IP]⟩ :: ⟨a, memBytes e 4 (htonl e b)⟩ :: chainTrace e (b :: rest)

/-- `n` replies that carry `C_LINK_CLIENT_OK`, from the addresses `1, 2, ..., n`. -/
def okReplies (n : Nat) : List Reply :=
  (List.range n).map fun k => ⟨C_LINK_CLIENT_OK, k + 1⟩

/-- The contents of `links` after the `select` loop has stored the addresses `as` from index
`i` on: each address is followed by the terminator 0, which the next one overwrites. -/
def stored : List Nat → Nat → List Nat → List Nat
  | links, _, [] => links
  | links, i, a :: as => stored ((links.set i a).set (i + 1) 0) (i + 1) as

/-! ## IEEE-754 binary64 -/

/-- The value of a `double`. -/
inductive F64
  | nan
  | inf (negative : Bool)
  | finite (q : ℚ)
  deriving DecidableEq

/-- The value of the `double` whose 64-bit pattern is `bits` (sign, 11 bits of exponent, 52
bits of fraction). -/
def f64Decode (bits : Nat) : F64 :=
  let sign : Nat := bits / 2 ^ 63 % 2
  let ex : Nat := bits / 2 ^ 52 % 2 ^ 11
  let frac : Nat := bits % 2 ^ 52
  if ex = 2047 then
    if frac = 0 then .inf (sign = 1) else .nan
  else
    let mag : ℚ :=
      if ex = 0 then (frac : ℚ) / (2 : ℚ) ^ 1074
      else if 1075 ≤ ex then ((2 ^ 52 + frac : Nat) : ℚ) * (2 : ℚ) ^ (ex - 1075)
      else ((2 ^ 52 + frac : Nat) : ℚ) / (2 : ℚ) ^ (1075 - ex)
    .finite (if sign = 1 then -mag else mag)

/-- The comparison `x > 1` of C++ on a `double` given by its pattern: false on a NaN. -/
def f64GtOne (bits : Nat) : Bool :=
  match f64Decode bits with
  | .nan => false
  | .inf negative => !negative
  | .finite q => decide (1 < q)

/-- The `double` of pattern `bits` is a number of the interval `[0, 1]`. -/
def f64IsFraction (bits : Nat) : Prop :=
  match f64Decode bits with
  | .finite q => 0 ≤ q ∧ q ≤ 1
  | _ => False

/-! ## Partition.h, as far as Partition.cc shows it -/

/-- The declarations of `Partition.h` that `Partition.cc` uses and that are not among the
sources: the widths in bits of the integer fields `type` and `flags` of `partInfo`, and the
value of the enumerator `PARTITION_EXTENDED`. They are inputs of the model. -/
structure PartitionDecls where
  typeBits : Nat
  flagBits : Nat
  PARTITION_EXTENDED : Nat

/-- The record `Doclone::partInfo`, the partition descriptor of an image: the fields that
`Partition.cc` reads and writes. `start_pos` and `used_part` are `uint64_t` that hold the
pattern of a `double`; `fsName`, `label` and `uuid` are arrays of 32, 28 and 37 bytes. -/
structure partInfo where
  type : Nat
  fsName : List Nat
  min_size : Nat
  start_pos : Nat
  used_part : Nat
  flags : Nat
  label : List Nat
  uuid : List Nat
  deriving DecidableEq, Repr

/-- The bytes in memory that follow each of the three arrays of a `partInfo` object: what a
string read that finds no NUL inside the array goes on reading. -/
structure Beyond where
  fsName : List Nat
  label : List Nat
  uuid : List Nat

/-- The filesystem driver object `Filesystem` held in `_fs`, as far as `Partition.cc` uses it:
the answers of its getters and the values given to its setters. -/
structure Filesystem where
  docloneName : List Nat
  typeIsNone : Bool
  mountSupport : Bool
  mountExternal : Bool
  mountName : String
  mountOptions : String
  mountPoint : String
  label : List Nat
  uuid : List Nat
  deriving DecidableEq, Repr

/-- The attributes of a `Partition` object. `_startPos` and `_usedPart` are `double`, held as
their 64-bit patterns; `_label` and `_uuid` are the bytes of the `std::string`. -/
structure Partition where
  _path : String
  _partNum : Nat
  _minSize : Nat
  _startPos : Nat
  _usedPart : Nat
  _fs : Filesystem
  _type : Nat
  _flags : Nat
  _label : List Nat
  _uuid : List Nat
  _partition : partInfo
  deriving DecidableEq, Repr

/-- The C string that starts at the first byte of `mem`: the bytes before the first NUL. -/
def cstr (mem : List Nat) : List Nat :=
  mem.takeWhile (fun b => b != 0)

/-- `strncpy (dst, src, n)` into a field of `n` bytes: the bytes of the C string `src`, at
most `n` of them, then NUL bytes up to `n`. -/
def strncpy (src : List Nat) (n : Nat) : List Nat :=
  (cstr src).take n ++ List.replicate (n - (cstr src).length) 0

/-- The bytes of the string literal `"nofs"`. -/
def nofsName : List Nat := [110, 111, 102, 115]

/-- The record all of whose bytes are 0 (`memset (&_partition, 0, sizeof (_partition))`). -/
def partInfo.zero : partInfo :=
  ⟨0, List.replicate 32 0, 0, 0, 0, 0, List.replicate 28 0, List.replicate 37 0⟩

/-- The constructor `Partition::Partition (Doclone::partInfo)` (Partition.cc 78-117).
`createFilesystem` is `FsFactory::createFilesystem`, `mem` the bytes behind the arrays of the
argument. -/
def Partition.ofPartInfo (createFilesystem : List Nat → Except ExcClass Filesystem)
    (mem : Beyond) (partition : partInfo) : Outcome Partition :=
  let made :=
    match createFilesystem (cstr (partition.fsName ++ mem.fsName)) with
    | .error _ => createFilesystem nofsName
    | .ok fs => .ok fs
  match made with
  | .error c => .threw c
  | .ok fs =>
    if f64GtOne partition.start_pos then .threw .InvalidImageException
    else if f64GtOne partition.used_part then .threw .InvalidImageException
    else
      let label := cstr (partition.label ++ mem.label)
      let uuid := cstr (partition.uuid ++ mem.uuid)
      .returned
        { _path := ""
          _partNum := 0
          _minSize := partition.min_size
          _startPos := partition.start_pos
          _usedPart := partition.used_part
          _fs := { fs with label := label, uuid := uuid }
          _type := partition.type
          _flags := partition.flags
          _label := label
          _uuid := uuid
          _partition := partition }

/-- `Partition::createPartInfo` (Partition.cc 639-661): the object with `_partition` rebuilt
from the attributes. -/
def Partition.createPartInfo (D : PartitionDecls) (p : Partition) : Partition :=
  { p with
    _partition :=
      { partInfo.zero with
        type := p._type % 2 ^ D.typeBits
        min_size := p._minSize % 2 ^ 64
        start_pos := p._startPos % 2 ^ 64
        used_part := p._usedPart % 2 ^ 64
        flags := p._flags % 2 ^ D.flagBits
        fsName := strncpy p._fs.docloneName 32
        label := strncpy p._label 28
        uuid := strncpy p._uuid 37 } }

/-- The values of the attributes of a `Partition` lie in the ranges of their C++ types. -/
def Partition.inRange (D : PartitionDecls) (p : Partition) : Prop :=
  p._type < 2 ^ D.typeBits ∧ p._minSize < 2 ^ 64 ∧ p._startPos < 2 ^ 64 ∧ p._usedPart < 2 ^ 64
    ∧ p._flags < 2 ^ D.flagBits

/-- The values of the integer fields of a descriptor lie in the ranges of their C++ types. -/
def partInfo.inRange (D : PartitionDecls) (d : partInfo) : Prop :=
  d.type < 2 ^ D.typeBits ∧ d.min_size < 2 ^ 64 ∧ d.start_pos < 2 ^ 64 ∧ d.used_part < 2 ^ 64
    ∧ d.flags < 2 ^ D.flagBits

instance (D : PartitionDecls) (p : Partition) : Decidable (p.inRange D) := by
  unfold Partition.inRange; infer_instance

instance (D : PartitionDecls) (d : partInfo) : Decidable (d.inRange D) := by
  unfold partInfo.inRange; infer_instance

/-- A driver, for examples. -/
def ext4Driver : Filesystem :=
  ⟨[101, 120, 116, 52], false, true, false, "ext4", "", "", [], []⟩

/-- The driver `nofs`, for examples. -/
def nofsDriver : Filesystem :=
  ⟨nofsName, true, false, false, "", "", "", [], []⟩

/-- A factory that knows `ext4` and `nofs`, for examples. -/
def exampleFactory (name : List Nat) : Except ExcClass Filesystem :=
  if name = [101, 120, 116, 52] then .ok ext4Driver
  else if name = nofsName then .ok nofsDriver
  else .error .Exception

/-- Declarations for examples: `type` of 8 bits, `flags` of 16 bits, enumerators in the
order primary, extended, logical. -/
def exampleDecls : PartitionDecls := ⟨8, 16, 1⟩

/-- Nothing behind the arrays but NUL bytes. -/
def noBeyond : Beyond := ⟨[0], [0], [0]⟩

/-- The partition of scenario S2: primary, `ext4`, start at `2048 / 1048576 = 2 ^ -9`
(pattern `0x3F60000000000000`), length `0.5` (pattern `0x3FE0000000000000`), flags `1`. -/
def examplePartition : Partition :=
  { _path := "/dev/sdb1"
    _partNum := 1
    _minSize := 123456789
    _startPos := 0x3F60000000000000
    _usedPart := 0x3FE0000000000000
    _fs := ext4Driver
    _type := 0
    _flags := 1
    _label := [114, 111, 111, 116]
    _uuid := []
    _partition := partInfo.zero }

/-- A descriptor whose `start_pos` is the pattern of `-1.0` (`0xBFF0000000000000`). -/
def negativeStartInfo : partInfo :=
  { partInfo.zero with fsName := strncpy [101, 120, 116, 52] 32, start_pos := 0xBFF0000000000000 }

/-! ## Partition: mounting, reading and writing (Partition.cc 403-611, 771-860) -/

/-- A line of `/etc/mtab` (`struct mntent`): the device and the directory it is mounted on. -/
structure MntEnt where
  mnt_fsname : String
  mnt_dir : String
  deriving DecidableEq, Repr

/-- The calls whose order the claims on mounting are about. -/
inductive Call
  | doMount
  | doUmount
  | statvfs (dir : String)
  | readDir (rootDir : String)
  | writeDir (rootDir : String)
  deriving DecidableEq, Repr

/-- The part of the system that mounting changes: the lines of `/etc/mtab`, the directories
on which a filesystem is mounted, the scratch directories that exist, and the log of the
calls made so far. -/
structure Machine where
  mtab : List MntEnt
  mounts : List String
  dirs : List String
  calls : List Call
  deriving DecidableEq, Repr

/-- The fields of `struct statvfs` that `usedSpace` reads. -/
structure StatVfs where
  f_blocks : Nat
  f_bfree : Nat
  f_bsize : Nat
  deriving DecidableEq, Repr

/-- How the system answers the calls of `Partition.cc`: whether `setmntent ("/etc/mtab")`
succeeds, `Util::isUUIDRepeated`, `Util::match (·, TMP_PREFIX_REGEXP)`, the directory that
`mkdtemp (TMP_PREFIX)` creates (none when it fails), whether `mount` succeeds, the exit value
of the external mount command, whether `umount2` succeeds, the answer of `statvfs`, and the
exception, if any, with which the driver's `readDir` and `writeDir` end. -/
structure SysEnv where
  setmntent : Bool
  isUUIDRepeated : List Nat → Bool
  matchTmp : String → Bool
  mkdtemp : Option String
  mount : Bool
  spawnExit : Int
  umount2 : Bool
  statvfs : String → Option StatVfs
  readDir : String → Option ExcClass
  writeDir : String → Option ExcClass

/-- The `std::string` with the bytes `bs`. -/
def bytesToString (bs : List Nat) : String :=
  String.mk (bs.map Char.ofNat)

/-- `_fs->setMountPoint (dir)`. -/
def Partition.setMountPoint (p : Partition) (dir : String) : Partition :=
  { p with _fs := { p._fs with mountPoint := dir } }

/-- The entry `call` added to the log. -/
def Machine.log (m : Machine) (call : Call) : Machine :=
  { m with calls := m.calls ++ [call] }

/-- Modelled from the spec: `Util::addMtabEntry` is not among the sources; after mounting it
records the mount in the mount table. -/
def addMtabEntry (m : Machine) (path mountPoint : String) : Machine :=
  { m with mtab := m.mtab ++ [⟨path, mountPoint⟩] }

/-- Modelled from the spec: `Util::updateMtab` is not among the sources; after unmounting it
deletes the entry of the device from the mount table. -/
def updateMtab (m : Machine) (path : String) : Machine :=
  { m with mtab := m.mtab.filter (fun ent => ent.mnt_fsname != path) }

/-- The loop `while ((filesys = getmntent (f)))` of `isMounted` (Partition.cc 592-605): the
directory of the first line that names the device, by its path or by its
`/dev/disk/by-uuid/` alias when the UUID is not repeated. -/
def scanMtab (env : SysEnv) (path : String) (uuid : List Nat) (uuidDevPath : String) :
    List MntEnt → Option String
  | [] => none
  | filesys :: rest =>
    if path = filesys.mnt_fsname then some filesys.mnt_dir
    else if uuidDevPath = filesys.mnt_fsname then
      if !env.isUUIDRepeated uuid then some filesys.mnt_dir
      else scanMtab env path uuid uuidDevPath rest
    else scanMtab env path uuid uuidDevPath rest

/-- `Partition::isMounted` (Partition.cc 576-611). -/
def Partition.isMounted (env : SysEnv) (m : Machine) (p : Partition) :
    Machine × Partition × Outcome Bool :=
  if !env.setmntent then (m, p, .threw .FileNotFoundException)
  else
    let uuidDevPath := "/dev/disk/by-uuid/" ++ bytesToString p._uuid
    match scanMtab env p._path p._uuid uuidDevPath m.mtab with
    | some dir => (m, p.setMountPoint dir, .returned true)
    | none => (m, p, .returned false)

/-- `Partition::externalMount` (Partition.cc 457-491). The command mounts the partition when
its exit value is 0. -/
def Partition.externalMount (env : SysEnv) (m : Machine) (p : Partition) :
    Machine × Partition × Outcome Unit :=
  match env.mkdtemp with
  | none => (m, p, .threw .MountException)
  | some tmpDir =>
    let m1 := { m with dirs := tmpDir :: m.dirs }
    let p1 := p.setMountPoint tmpDir
    let m2 := if env.spawnExit = 0 then { m1 with mounts := tmpDir :: m1.mounts } else m1
    if env.spawnExit < 0 then (m2, p1, .threw .MountException)
    else (m2, p1, .returned ())

/-- `Partition::doMount` (Partition.cc 496-539). -/
def Partition.doMount (env : SysEnv) (m : Machine) (p : Partition) :
    Machine × Partition × Outcome Unit :=
  let m0 := m.log .doMount
  if !p._fs.mountSupport then (m0, p, .threw .MountException)
  else
    match p.isMounted env m0 with
    | (m1, p1, .returned true) => (m1, p1, .returned ())
    | (m1, p1, .returned false) =>
      let mounted :=
        if p1._fs.mountExternal then p1.externalMount env m1
        else
          match env.mkdtemp with
          | none => (m1, p1, .threw .MountException)
          | some tmpDir =>
            let m2 := { m1 with dirs := tmpDir :: m1.dirs }
            let p2 := p1.setMountPoint tmpDir
            if !env.mount then (m2, p2, .threw .MountException)
            else ({ m2 with mounts := tmpDir :: m2.mounts }, p2, .returned ())
      match mounted with
      | (m3, p3, .returned ()) => (addMtabEntry m3 p3._path p3._fs.mountPoint, p3, .returned ())
      | r => r
    | (m1, p1, .threw c) => (m1, p1, .threw c)
    | (m1, p1, .fault) => (m1, p1, .fault)
    | (m1, p1, .noFuel) => (m1, p1, .noFuel)

/-- `Partition::doUmount` (Partition.cc 544-571). A failure of `umount2` is only logged;
`remove` deletes the directory when nothing is mounted on it any more. -/
def Partition.doUmount (env : SysEnv) (m : Machine) (p : Partition) :
    Machine × Partition × Outcome Unit :=
  let m0 := m.log .doUmount
  match p.isMounted env m0 with
  | (m1, p1, .returned mounted) =>
    if !mounted || !env.matchTmp p1._fs.mountPoint then (m1, p1, .returned ())
    else
      let dir := p1._fs.mountPoint
      let m2 := if env.umount2 then { m1 with mounts := m1.mounts.erase dir } else m1
      let m3 := if dir ∈ m2.mounts then m2 else { m2 with dirs := m2.dirs.erase dir }
      (updateMtab m3 p1._path, p1, .returned ())
  | (m1, p1, .threw c) => (m1, p1, .threw c)
  | (m1, p1, .fault) => (m1, p1, .fault)
  | (m1, p1, .noFuel) => (m1, p1, .noFuel)

/-- `Partition::usedSpace` (Partition.cc 403-431): the `try` block holds the call of `statvfs`
and the `throw` of `FileNotFoundException`; its only handler is for `CancelException`. -/
def Partition.usedSpace (H : Hierarchy) (env : SysEnv) (m : Machine) (p : Partition) :
    Machine × Partition × Outcome Nat :=
  match p.doMount env m with
  | (m1, p1, .returned ()) =>
    let mountDir := p1._fs.mountPoint
    let m2 := m1.log (.statvfs mountDir)
    match env.statvfs mountDir with
    | none =>
      if catches H .FileNotFoundException .CancelException then
        match p1.doUmount env m2 with
        | (m3, p3, .returned ()) => (m3, p3, .threw .FileNotFoundException)
        | (m3, p3, .threw c) => (m3, p3, .threw c)
        | (m3, p3, .fault) => (m3, p3, .fault)
        | (m3, p3, .noFuel) => (m3, p3, .noFuel)
      else (m2, p1, .threw .FileNotFoundException)
    | some info =>
      let used_blocks := (info.f_blocks + 2 ^ 64 - info.f_bfree % 2 ^ 64) % 2 ^ 64
      match p1.doUmount env m2 with
      | (m3, p3, .returned ()) => (m3, p3, .returned (used_blocks * info.f_bsize % 2 ^ 64))
      | (m3, p3, .threw c) => (m3, p3, .threw c)
      | (m3, p3, .fault) => (m3, p3, .fault)
      | (m3, p3, .noFuel) => (m3, p3, .noFuel)
  | (m1, p1, .threw c) => (m1, p1, .threw c)
  | (m1, p1, .fault) => (m1, p1, .fault)
  | (m1, p1, .noFuel) => (m1, p1, .noFuel)

/-- The comparison `x == 0` of C++ on a `double` given by its pattern. -/
def f64EqZero (bits : Nat) : Bool :=
  match f64Decode bits with
  | .finite q => decide (q = 0)
  | _ => false

/-- `Partition::isWritable` (Partition.cc 771-789). -/
def Partition.isWritable (D : PartitionDecls) (p : Partition) : Bool :=
  if p._type = D.PARTITION_EXTENDED || p._fs.typeIsNone || !p._fs.mountSupport
      || f64EqZero p._usedPart then false
  else true

/-- The directory handed to the driver: the mount point, with a `/` added at its end when it
has none. -/
def rootDirOf (mountPoint : String) : String :=
  if mountPoint.back = '/' then mountPoint else mountPoint.push '/'

/-- `Partition::read` (Partition.cc 794-824). Reading the last character of an empty mount
point is an access outside the string. -/
def Partition.read (H : Hierarchy) (D : PartitionDecls) (env : SysEnv) (m : Machine)
    (p : Partition) : Machine × Partition × Outcome Unit :=
  if !p.isWritable D then (m, p, .returned ())
  else
    match p.doMount env m with
    | (m1, p1, .returned ()) =>
      if p1._fs.mountPoint.isEmpty then (m1, p1, .fault)
      else
        let rootDir := rootDirOf p1._fs.mountPoint
        let m2 := m1.log (.readDir rootDir)
        match env.readDir rootDir with
        | some c =>
          if caughtBy H [.CancelException, .ReadDataException, .SendDataException] c then
            match p1.doUmount env m2 with
            | (m3, p3, .returned ()) => (m3, p3, .threw c)
            | r => r
          else (m2, p1, .threw c)
        | none => p1.doUmount env m2
    | r => r

/-- `Partition::write` (Partition.cc 829-860). Reading the last character of an empty mount
point is an access outside the string. -/
def Partition.write (H : Hierarchy) (D : PartitionDecls) (env : SysEnv) (m : Machine)
    (p : Partition) : Machine × Partition × Outcome Unit :=
  if !p.isWritable D then (m, p, .returned ())
  else
    match p.doMount env m with
    | (m1, p1, .returned ()) =>
      if p1._fs.mountPoint.isEmpty then (m1, p1, .fault)
      else
        let rootDir := rootDirOf p1._fs.mountPoint
        let m2 := m1.log (.writeDir rootDir)
        match env.writeDir rootDir with
        | some c =>
          if caughtBy H [.CancelException, .WriteDataException, .ReceiveDataException] c then
            match p1.doUmount env m2 with
            | (m3, p3, .returned ()) => (m3, p3, .threw c)
            | r => r
          else (m2, p1, .threw c)
        | none => p1.doUmount env m2
    | r => r

/-- The number of calls of `doUmount` in a log. -/
def umountCalls (calls : List Call) : Nat :=
  calls.count .doUmount

/-- The result `r` of an operation started on the machine `m` ends as `o`, after the calls
`doMount`, `call` and `doUmount` in this order: `doUmount` is called exactly once, after
`call` and before the operation is left. -/
def UnmountedOnce (m : Machine) (r : Machine × Partition × Outcome Unit) (call : Call)
    (o : Outcome Unit) : Prop :=
  r.2.2 = o ∧ r.1.calls = m.calls ++ [.doMount, call, .doUmount]
    ∧ umountCalls r.1.calls = umountCalls m.calls + 1

/-- The result `r` of an operation started on the machine `m` is the exception `c`, thrown
after the calls `doMount` and `call` only: `doUmount` is not called. -/
def LeftMounted (m : Machine) (r : Machine × Partition × Outcome Unit) (call : Call)
    (c : ExcClass) : Prop :=
  r.2.2 = .threw c ∧ r.1.calls = m.calls ++ [.doMount, call]
    ∧ umountCalls r.1.calls = umountCalls m.calls

/-- A system in which nothing is mounted and every call succeeds; `mkdtemp` creates
`/tmp/doclone-x1`, and the scratch directories are those under `/tmp/`. -/
def quietEnv : SysEnv :=
  { setmntent := true
    isUUIDRepeated := fun _ => false
    matchTmp := fun dir => dir.data.take 5 = "/tmp/".data
    mkdtemp := some "/tmp/doclone-x1"
    mount := true
    spawnExit := 0
    umount2 := true
    statvfs := fun _ => some ⟨1000, 400, 4096⟩
    readDir := fun _ => none
    writeDir := fun _ => none }

/-- The quiet system, except that the driver's `readDir` and `writeDir` end with a
`FileNotFoundException`. -/
def fileErrorEnv : SysEnv :=
  { quietEnv with
    readDir := fun _ => some .FileNotFoundException
    writeDir := fun _ => some .FileNotFoundException }

/-- The quiet system, except that the driver's `readDir` is cancelled. -/
def cancelEnv : SysEnv :=
  { quietEnv with readDir := fun _ => some .CancelException }

/-- The quiet system, except that `statvfs` fails. -/
def statvfsFailureEnv : SysEnv :=
  { quietEnv with statvfs := fun _ => none }

/-- The example partition once `doMount` has mounted it on the scratch directory. -/
def mountedPartition : Partition :=
  examplePartition.setMountPoint "/tmp/doclone-x1"

/-- The machine once `doMount` has mounted the example partition on the scratch directory. -/
def mountedMachine : Machine :=
  ⟨[⟨"/dev/sdb1", "/tmp/doclone-x1"⟩], ["/tmp/doclone-x1"], ["/tmp/doclone-x1"], [.doMount]⟩

/-- The machine before anything is mounted. -/
def emptyMachine : Machine := ⟨[], [], [], []⟩

/-! ## Link: sending and receiving (Link.cc 369-679) -/

/-- The calls that `Link::send` and `Link::receive` make, through `sendFromImage`,
`sendFromDevice`, `receiveToImage` and `receiveToDevice`, to code outside `Link.cc` (and to
`linkServer`, `linkClient` and `closeConnection`), each of which may end with an exception. -/
inductive Step
  | getFileSize
  | partedInit
  | linkServer
  | linkClient
  | createFile
  | openFile
  | closeFile
  | transferFrom
  | transferAllFrom
  | transferTo
  | transferAllTo
  | createDiskLabel
  | readPartitionTable
  | createImageHeader
  | writeImageHeader
  | readPartitionsData
  | readImageHeader
  | openImageHeader
  | writePartitionTable
  | writePartitionsData
  | restoreGrub
  | closeConnection
  deriving DecidableEq, Repr

/-- The surroundings of a run of `send` or `receive`: the exception, if any, with which each
outside call ends, the number of bytes a failing transfer still moves, and the data the
outside calls give back. -/
structure LinkEnv where
  raises : Step → Option ExcClass
  movedBeforeFailure : Step → Nat
  deviceEmpty : Bool
  fileSize : Nat
  fileBytes : List Nat
  isBlockDevice : Bool
  canCreateCheck : Bool
  canRestoreCheck : Bool
  imageIsDisk : Bool
  image_size : Nat
  headerBytes : List Nat
  payloadBytes : List Nat

/-- The state of the transfer hub (`DataTransfer`) and of the connection, as the link uses
them: the bytes pushed to the sinks so far, the bytes the source still holds, the bytes
written to the local file or device, the value given to `setTotalSize`, and the number of
calls of `closeConnection`. -/
structure Hub where
  pushed : List Nat
  source : List Nat
  written : List Nat
  totalSize : Option Nat
  closed : Nat
  deriving DecidableEq, Repr

/-- A computation on the hub that returns or throws. -/
abbrev LinkM (α : Type) := Hub → Hub × Outcome α

/-- Sequencing: what follows a call runs only when the call returns. -/
def LinkM.bind {α β : Type} (m : LinkM α) (f : α → LinkM β) : LinkM β := fun h =>
  match m h with
  | (h1, .returned a) => f a h1
  | (h1, .threw c) => (h1, .threw c)
  | (h1, .fault) => (h1, .fault)
  | (h1, .noFuel) => (h1, .noFuel)

instance : Monad LinkM where
  pure a := fun h => (h, .returned a)
  bind := LinkM.bind

/-- The statement `throw ex` for an exception of class `c`. -/
def raise {α : Type} (c : ExcClass) : LinkM α := fun h => (h, .threw c)

/-- An outside call that moves no data. -/
def outside (env : LinkEnv) (s : Step) : LinkM Unit := fun h =>
  match env.raises s with
  | some c => (h, .threw c)
  | none => (h, .returned ())

/-- A call that pushes `bytes` to the sinks of the hub (`transferFrom`, `transferAllFrom`, and
the writers of the image, which go through them). -/
def push (env : LinkEnv) (s : Step) (bytes : List Nat) : LinkM Unit := fun h =>
  match env.raises s with
  | some c => ({ h with pushed := h.pushed ++ bytes.take (env.movedBeforeFailure s) }, .threw c)
  | none => ({ h with pushed := h.pushed ++ bytes }, .returned ())

/-- Modelled from the spec: `DataTransfer::transferTo (buffer, n)` is not among the sources;
it pulls exactly `n` bytes from the source, and a source that ends before is a failure of the
reception. The result is the list of bytes stored in the buffer. -/
def pull (env : LinkEnv) (s : Step) (n : Nat) : LinkM (List Nat) := fun h =>
  match env.raises s with
  | some c => ({ h with source := h.source.drop (env.movedBeforeFailure s) }, .threw c)
  | none =>
    if h.source.length < n then ({ h with source := [] }, .threw .ReceiveDataException)
    else ({ h with source := h.source.drop n }, .returned (h.source.take n))

/-- Modelled from the spec: `DataTransfer::transferAllTo (fd)` and the readers of the image
are not among the sources; they move the next `n` bytes of the source to the local file or
device. -/
def pullTo (env : LinkEnv) (s : Step) (n : Nat) : LinkM Unit := fun h =>
  match env.raises s with
  | some c =>
    ({ h with source := h.source.drop (env.movedBeforeFailure s)
              written := h.written ++ h.source.take (env.movedBeforeFailure s) }, .threw c)
  | none =>
    if h.source.length < n then
      ({ h with source := [], written := h.written ++ h.source }, .threw .ReceiveDataException)
    else ({ h with source := h.source.drop n, written := h.written ++ h.source.take n },
      .returned ())

/-- `DataTransfer::setTotalSize`. -/
def setTotalSize (n : Nat) : LinkM Unit := fun h =>
  ({ h with totalSize := some n }, .returned ())

/-- `Link::closeConnection`. -/
def closeConnection (env : LinkEnv) : LinkM Unit := fun h =>
  match env.raises .closeConnection with
  | some c => ({ h with closed := h.closed + 1 }, .threw c)
  | none => ({ h with closed := h.closed + 1 }, .returned ())

/-- A `try` block followed by `catch` clauses for the classes `handlers`, all with the body
`handler`. -/
def tryCatch {α : Type} (H : Hierarchy) (body : LinkM α) (handlers : List ExcClass)
    (handler : ExcClass → LinkM α) : LinkM α := fun h =>
  match body h with
  | (h1, .threw c) => if caughtBy H handlers c then handler c h1 else (h1, .threw c)
  | r => r

/-- `Link::sendFromImage` (Link.cc 369-413) on a host of byte order `e`. -/
def sendFromImage (e : Endian) (env : LinkEnv) : LinkM Unit := do
  outside env .getFileSize
  let totalSize := env.fileSize % 2 ^ 64
  setTotalSize totalSize
  outside env .linkServer
  outside env .openFile
  let tmpTotalSize := htobe64 e totalSize
  push env .transferFrom (memBytes e 8 tmpTotalSize)
  push env .transferAllFrom env.fileBytes
  outside env .closeFile
  closeConnection env

/-- `Link::sendFromDevice` (Link.cc 421-493) on a host of byte order `e`. The image writes its
header (`writeImageHeader`) and the data of the partitions (`readPartitionsData`) through the
hub. -/
def sendFromDevice (e : Endian) (env : LinkEnv) : LinkM Unit := do
  outside env .partedInit
  outside env .linkServer
  if !env.isBlockDevice then raise .NoBlockDeviceException
  else do
    outside env .createDiskLabel
    outside env .readPartitionTable
    if env.canCreateCheck == false then raise .CreateImageException
    else do
      outside env .createImageHeader
      let tmpTotalSize := htobe64 e (env.image_size % 2 ^ 64)
      push env .transferFrom (memBytes e 8 tmpTotalSize)
      push env .writeImageHeader env.headerBytes
      push env .readPartitionsData env.payloadBytes
      closeConnection env

/-- `Link::send` (Link.cc 498-525). -/
def send (H : Hierarchy) (e : Endian) (env : LinkEnv) : LinkM Unit :=
  tryCatch H
    (if env.deviceEmpty then sendFromImage e env else sendFromDevice e env)
    [.CancelException, .ReadDataException, .SendDataException, .ErrorException]
    (fun c => do closeConnection env; raise c)

/-- `Link::receiveToImage` (Link.cc 533-576) on a host of byte order `e`. -/
def receiveToImage (e : Endian) (env : LinkEnv) : LinkM Unit := do
  outside env .linkClient
  outside env .createFile
  outside env .openFile
  let buffer ← pull env .transferTo 8
  let totalSize := memLoad e buffer
  let tmpTotalSize := be64toh e totalSize
  setTotalSize tmpTotalSize
  pullTo env .transferAllTo tmpTotalSize
  outside env .closeFile
  closeConnection env

/-- `Link::receiveToDevice` (Link.cc 584-647) on a host of byte order `e`. The image reads its
header (`readImageHeader`) and the data of the partitions (`writePartitionsData`) from the
hub; `env.headerBytes` and `env.payloadBytes` give the numbers of bytes they take. -/
def receiveToDevice (e : Endian) (env : LinkEnv) : LinkM Unit := do
  outside env .partedInit
  outside env .linkClient
  if !env.isBlockDevice then raise .NoBlockDeviceException
  else do
    let buffer ← pull env .transferTo 8
    let totalSize := memLoad e buffer
    let tmpTotalSize := be64toh e totalSize
    setTotalSize tmpTotalSize
    pullTo env .readImageHeader env.headerBytes.length
    outside env .openImageHeader
    outside env .createDiskLabel
    if env.canRestoreCheck == false then raise .RestoreImageException
    else do
      outside env .writePartitionTable
      pullTo env .writePartitionsData env.payloadBytes.length
      if env.imageIsDisk then outside env .restoreGrub else pure ()
      closeConnection env

/-- `Link::receive` (Link.cc 652-679). -/
def receive (H : Hierarchy) (e : Endian) (env : LinkEnv) : LinkM Unit :=
  tryCatch H
    (if env.deviceEmpty then receiveToImage e env else receiveToDevice e env)
    [.CancelException, .WriteDataException, .ReceiveDataException, .ErrorException]
    (fun c => do closeConnection env; raise c)

/-- A hub at the start of a run, with the bytes `source` coming from the predecessor. -/
def Hub.start (source : List Nat) : Hub := ⟨[], source, [], none, 0⟩

/-- Surroundings in which every outside call succeeds: a device of image size `size` whose
image has the header `header` and the partition data `payload`. -/
def deviceEnv (size : Nat) (header payload : List Nat) : LinkEnv :=
  { raises := fun _ => none
    movedBeforeFailure := fun _ => 0
    deviceEmpty := false
    fileSize := 0
    fileBytes := []
    isBlockDevice := true
    canCreateCheck := true
    canRestoreCheck := true
    imageIsDisk := true
    image_size := size
    headerBytes := header
    payloadBytes := payload }

/-- Surroundings of a sender whose device cannot be inspected: `readPartitionTable` ends with a
`MountException`. -/
def mountFailureEnv : LinkEnv :=
  { deviceEnv 5 [208, 193] [7, 7, 7] with
    raises := fun s => if s = .readPartitionTable then some .MountException else none }

/-- Surroundings of a receiver whose device cannot be restored: `writePartitionsData` ends with
a `MountException`. -/
def restoreMountFailureEnv : LinkEnv :=
  { deviceEnv 5 [208, 193] [7, 7, 7] with
    raises := fun s => if s = .writePartitionsData then some .MountException else none }

/-- Surroundings of a sender that is cancelled while it reads the partition table. -/
def cancelledEnv : LinkEnv :=
  { deviceEnv 5 [208, 193] [7, 7, 7] with
    raises := fun s => if s = .readPartitionTable then some .CancelException else none }

/-- Surroundings in which every outside call succeeds: an image file with the bytes `file`. -/
def imageEnv (file : List Nat) : LinkEnv :=
  { deviceEnv 0 [] [] with deviceEmpty := true, fileSize := file.length, fileBytes := file }

/-- The computation leaves the value given to `setTotalSize` as it is. -/
def KeepsTotalSize {α : Type} (m : LinkM α) : Prop :=
  ∀ h, (m h).1.totalSize = h.totalSize

/-- The computation does not undo a call of `closeConnection`. -/
def ClosedGrows {α : Type} (m : LinkM α) : Prop :=
  ∀ h, h.closed ≤ (m h).1.closed

/-! ## The partition library (libparted), as far as Partition.cc uses it -/

/-- The flags `PED_PARTITION_*` that `initFlags` and `writeFlags` go through, in the order
of the source. -/
inductive PedPartitionFlag
  | BOOT
  | ROOT
  | SWAP
  | HIDDEN
  | RAID
  | LVM
  | LBA
  | HPSERVICE
  | PALO
  | PREP
  | MSFT_RESERVED
  | BIOS_GRUB
  | APPLE_TV_RECOVERY
  | DIAG
  deriving DecidableEq, Repr

/-- The object `PedPartition` that `ped_disk_get_partition (pDisk, _partNum)` returns:
`geom.start` and `geom.length` in sectors (`PedSector`, a `long long`), the answer of
`ped_partition_get_flag` and of `ped_partition_is_flag_available` for each flag, and the log
of the calls of `ped_partition_set_flag` (flag and `int` state), in order. -/
structure PedPartition where
  geom_start : Int
  geom_length : Int
  flagState : PedPartitionFlag → Bool
  flagAvailable : PedPartitionFlag → Bool
  setCalls : List (PedPartitionFlag × Int)

/-- The call `ped_partition_set_flag (pPart, flag, state)` of the partition library: the flag
is set when `state` is not 0 and cleared when it is 0; the other flags are left as they
are. -/
def ped_partition_set_flag (pPart : PedPartition) (flag : PedPartitionFlag) (state : Int) :
    PedPartition :=
  { pPart with
    flagState := fun f => if f = flag then decide (state ≠ 0) else pPart.flagState f
    setCalls := pPart.setCalls ++ [(flag, state)] }

/-- One statement of `writeFlags`:
`if (ped_partition_is_flag_available (pPart, flag) == 1) ped_partition_set_flag (pPart, flag, f)`,
where `f` is the `dcFlag` value `_flags & F_...`, converted to `int`. -/
def setIfAvailable (pPart : PedPartition) (flag : PedPartitionFlag) (f : Nat) : PedPartition :=
  if pPart.flagAvailable flag then ped_partition_set_flag pPart flag (toInt32 f) else pPart

/-- `Partition::writeFlags` (Partition.cc 690-764) on the partition `pPart` of the library.
`F` gives the constants `F_BOOT`, ..., `F_DIAG` of `Partition.h`, which is not among the
sources. -/
def Partition.writeFlags (F : PedPartitionFlag → Nat) (p : Partition) (pPart : PedPartition) :
    PedPartition :=
  let fBoot := p._flags &&& F .BOOT
  let fRoot := p._flags &&& F .ROOT
  let fSwap := p._flags &&& F .SWAP
  let fHidden := p._flags &&& F .HIDDEN
  let fRaid := p._flags &&& F .RAID
  let fLvm := p._flags &&& F .LVM
  let fLba := p._flags &&& F .LBA
  let fHpservice := p._flags &&& F .HPSERVICE
  let fPalo := p._flags &&& F .PALO
  let fPrep := p._flags &&& F .PREP
  let fMsftReserved := p._flags &&& F .MSFT_RESERVED
  let fBiosGrub := p._flags &&& F .BIOS_GRUB
  let fAppleTvRecovery := p._flags &&& F .APPLE_TV_RECOVERY
  let fDiag := p._flags &&& F .DIAG
  let p1 := setIfAvailable pPart .BOOT fBoot
  let p2 := setIfAvailable p1 .ROOT fRoot
  let p3 := setIfAvailable p2 .SWAP fSwap
  let p4 := setIfAvailable p3 .HIDDEN fHidden
  let p5 := setIfAvailable p4 .RAID fRaid
  let p6 := setIfAvailable p5 .LVM fLvm
  let p7 := setIfAvailable p6 .LBA fLba
  let p8 := setIfAvailable p7 .HPSERVICE fHpservice
  let p9 := setIfAvailable p8 .PALO fPalo
  let p10 := setIfAvailable p9 .PREP fPrep
  let p11 := setIfAvailable p10 .MSFT_RESERVED fMsftReserved
  let p12 := setIfAvailable p11 .BIOS_GRUB fBiosGrub
  let p13 := setIfAvailable p12 .APPLE_TV_RECOVERY fAppleTvRecovery
  setIfAvailable p13 .DIAG fDiag

/-- The flags in the order in which `writeFlags` goes through them. -/
def flagOrder : List PedPartitionFlag :=
  [.BOOT, .ROOT, .SWAP, .HIDDEN, .RAID, .LVM, .LBA, .HPSERVICE, .PALO, .PREP, .MSFT_RESERVED,
    .BIOS_GRUB, .APPLE_TV_RECOVERY, .DIAG]

/-- The statements of `writeFlags` for the flags `fs`, one after the other. -/
def writeFlagList (F : PedPartitionFlag → Nat) (flags : Nat) :
    List PedPartitionFlag → PedPartition → PedPartition
  | [], pPart => pPart
  | f :: fs, pPart => writeFlagList F flags fs (setIfAvailable pPart f (flags &&& F f))

/-- Constants for examples: the flag number `k` of the source order is the bit `1 <<< k`. -/
def exampleF : PedPartitionFlag → Nat
  | .BOOT => 1 <<< 0
  | .ROOT => 1 <<< 1
  | .SWAP => 1 <<< 2
  | .HIDDEN => 1 <<< 3
  | .RAID => 1 <<< 4
  | .LVM => 1 <<< 5
  | .LBA => 1 <<< 6
  | .HPSERVICE => 1 <<< 7
  | .PALO => 1 <<< 8
  | .PREP => 1 <<< 9
  | .MSFT_RESERVED => 1 <<< 10
  | .BIOS_GRUB => 1 <<< 11
  | .APPLE_TV_RECOVERY => 1 <<< 12
  | .DIAG => 1 <<< 13

/-- A partition of an MBR disk for examples: sectors 2048 to 526335, the flags `boot` and
`hidden` set, and the flags `boot`, `lba` and `lvm` available. -/
def examplePedPartition : PedPartition :=
  { geom_start := 2048
    geom_length := 524288
    flagState := fun f => f = .BOOT || f = .HIDDEN
    flagAvailable := fun f => f = .BOOT || f = .LBA || f = .LVM
    setCalls := [] }

/-! ## Partition: the initialisers of the creating constructor (Partition.cc 245-298) -/

/-- `Partition::initMinSize` (Partition.cc 245-258). -/
def Partition.initMinSize (H : Hierarchy) (D : PartitionDecls) (env : SysEnv) (m : Machine)
    (p : Partition) : Machine × Partition × Outcome Unit :=
  if p._type = D.PARTITION_EXTENDED || p._fs.typeIsNone then
    (m, { p with _minSize := 0 }, .returned ())
  else
    match p.usedSpace H env m with
    | (m1, p1, .returned used) => (m1, { p1 with _minSize := used }, .returned ())
    | (m1, p1, .threw c) => (m1, p1, .threw c)
    | (m1, p1, .fault) => (m1, p1, .fault)
    | (m1, p1, .noFuel) => (m1, p1, .noFuel)

/-- An extended partition, for examples. -/
def extendedPartition : Partition :=
  { examplePartition with _type := 1, _fs := nofsDriver }

/-- A descriptor with a filesystem tag that the example factory does not know (`"zzfs"`) and
with flag bits outside the 14 known flags (`0xC001`). -/
def unknownTagInfo : partInfo :=
  { partInfo.zero with
    fsName := strncpy [122, 122, 102, 115] 32
    min_size := 4096
    start_pos := 0x3F60000000000000
    used_part := 0x3FE0000000000000
    flags := 0xC001 }

/-- The floating-point operations of `initStartPos` and `initUsedPart`: the conversion of a
`long long` to `double` and the division of two `double`, on patterns. -/
structure Fpu where
  ofInt64 : Int → Nat
  div : Nat → Nat → Nat

/-- The pattern `bits` is a finite `double` that is as near to `q` as any finite `double`:
what IEEE-754 rounding to nearest gives for a result `q` within the range of `double`. -/
def f64Nearest (bits : Nat) (q : ℚ) : Prop :=
  ∃ x, f64Decode bits = .finite x ∧ ∀ b y, f64Decode b = .finite y → |x - q| ≤ |y - q|

/-- `Partition::initStartPos` (Partition.cc 263-278):
`_startPos = static_cast<double> (pPart->geom.start) / pDev->length`, where `pPart` is the
partition of the library and `devLength` is `pDev->length`. -/
def Partition.initStartPos (fpu : Fpu) (pPart : PedPartition) (devLength : Int)
    (p : Partition) : Partition :=
  { p with _startPos := fpu.div (fpu.ofInt64 pPart.geom_start) (fpu.ofInt64 devLength) }

/-- `Partition::initUsedPart` (Partition.cc 283-298):
`_usedPart = static_cast<double> (pPart->geom.length) / pDev->length`. -/
def Partition.initUsedPart (fpu : Fpu) (pPart : PedPartition) (devLength : Int)
    (p : Partition) : Partition :=
  { p with _usedPart := fpu.div (fpu.ofInt64 pPart.geom_length) (fpu.ofInt64 devLength) }

/-- The floating-point operations that scenario S2 needs, with their IEEE-754 results
(all exact): `2048.0`, `524288.0`, `1048576.0`, `2048.0 / 1048576.0` and
`524288.0 / 1048576.0`. -/
def exampleFpu : Fpu :=
  { ofInt64 := fun n =>
      if n = 2048 then 0x40A0000000000000
      else if n = 524288 then 0x4120000000000000
      else if n = 1048576 then 0x4130000000000000
      else 0
    div := fun a b =>
      if a = 0x40A0000000000000 ∧ b = 0x4130000000000000 then 0x3F60000000000000
      else if a = 0x4120000000000000 ∧ b = 0x4130000000000000 then 0x3FE0000000000000
      else 0 }

/-- The alias `/dev/disk/by-uuid/<uuid>` that `isMounted` looks for. -/
def uuidDevPathOf (p : Partition) : String :=
  "/dev/disk/by-uuid/" ++ bytesToString p._uuid

/-- The line `ent` of the mount table names the partition `p` for `isMounted`: by its path,
or by its alias when the UUID is not repeated. -/
def namesPartition (env : SysEnv) (p : Partition) (ent : MntEnt) : Bool :=
  p._path = ent.mnt_fsname
    || (uuidDevPathOf p = ent.mnt_fsname && !env.isUUIDRepeated p._uuid)

/-- The machine on which the user has mounted `/dev/sdb1` on `/mnt/data`. -/
def premountedMachine : Machine :=
  ⟨[⟨"/dev/sdb1", "/mnt/data"⟩], ["/mnt/data"], [], []⟩

/-- The example partition with a driver that reports no mount support. -/
def unsupportedPartition : Partition :=
  { examplePartition with _fs := { ext4Driver with mountSupport := false } }

/-- The machine on which `/dev/sdb1` is listed twice in the mount table: first on the scratch
directory `/tmp/doclone-old`, then on `/mnt/data`. -/
def twiceListedMachine : Machine :=
  ⟨[⟨"/dev/sdb1", "/tmp/doclone-old"⟩, ⟨"/dev/sdb1", "/mnt/data"⟩],
    ["/tmp/doclone-old", "/mnt/data"], ["/tmp/doclone-old"], []⟩

/-- The example partition with a label of exactly 28 bytes (28 times `A`) and the UUID
`abcd`. -/
def longLabelPartition : Partition :=
  { examplePartition with _label := List.replicate 28 65, _uuid := [97, 98, 99, 100] }

/-- The bytes behind the arrays of the descriptor `d` when the array `uuid` comes right after
the array `label`, and NUL bytes come after the other arrays. -/
def uuidAfterLabel (d : partInfo) : Beyond :=
  ⟨[0], d.uuid ++ [0], [0]⟩

/-- The five command codes of `NetNode.h`. -/
def commandCodes : List Nat :=
  [C_LINK_SERVER_OK, C_LINK_CLIENT_OK, C_NEXT_LINK_IP, C_SERVER_OK, C_RECEIVER_OK]

/-- The byte obtained by OR-ing the codes of `S`. -/
def orAll (S : List Nat) : Nat :=
  S.foldl (fun acc c => acc ||| c) 0

/-- The number of bits set in the byte `n`. -/
def bitsSet (n : Nat) : Nat :=
  ((List.range 8).filter (fun k => n.testBit k)).length

/-- The addresses of the replies that carry `C_LINK_CLIENT_OK`, in arrival order. -/
def okAddrs (replies : List Reply) : List Nat :=
  (replies.filter (fun r => r.response &&& C_LINK_CLIENT_OK != 0)).map Reply.s_addr

/-- The links to which a `C_NEXT_LINK_IP` datagram has been sent, in order. -/
def successorLinks (tr : List Sent) : List Nat :=
  (tr.filter (fun s => s.payload = [C_NEXT_LINK_IP])).map Sent.dest

/-! ## Link::answer and Link::linkClient (Link.cc 59-145, 280-361) -/

/-- A datagram that arrives on the UDP socket of `answer`: its bytes, and the port and the
address of its sender, which `recvfrom` stores in `udp`. -/
structure Datagram where
  bytes : List Nat
  sin_port : Nat
  s_addr : Nat
  deriving DecidableEq, Repr

/-- The part of a `sockaddr_in` that tells where a datagram goes. -/
structure SockAddr where
  sin_port : Nat
  s_addr : Nat
  deriving DecidableEq, Repr

/-- A datagram handed to `sendto` by `answer`: the destination `udp` and the bytes sent. -/
structure SentTo where
  dest : SockAddr
  payload : List Nat
  deriving DecidableEq, Repr

/-- What surrounds a call of `answer`: whether `socket`, `bind` and `sendto` succeed, and the
value that `next_link`, which is not initialised, holds before the last `recvfrom`. -/
structure AnswerEnv where
  socketOk : Bool
  bindOk : Bool
  sendtoOk : Bool
  indeterminate : Nat

/-- The contents of a buffer that held the bytes `buf` once `recvfrom` has stored the datagram
`d` in it: as many bytes of the datagram as the buffer takes, the rest of the buffer is left
as it was. -/
def recvInto (buf : List Nat) (d : Datagram) : List Nat :=
  d.bytes.take buf.length ++ buf.drop d.bytes.length

/-- The first loop of `answer` (Link.cc 92-105), with the value of `srvRequest` at the start of
the iteration. The list holds what the calls of `recvfrom` give, in order: a datagram, or
`none` for a call that fails. `recvfrom` blocks until a datagram arrives, so that the loop is
still running when the list is spent. The result is the address left in `udp` and the
datagrams that remain. -/
def awaitServer : Nat → List (Option Datagram) → Outcome (SockAddr × List (Option Datagram))
  | _, [] => .noFuel
  | _, none :: _ => .threw .ConnectionException
  | srvRequest, some d :: rest =>
    let srvRequest1 := (recvInto [srvRequest] d).headD 0
    if srvRequest1 &&& C_LINK_SERVER_OK ≠ 0 then .returned (⟨d.sin_port, d.s_addr⟩, rest)
    else awaitServer srvRequest1 rest

/-- The second loop of `answer` (Link.cc 117-129): `srvCommand` is 0 before each call of
`recvfrom`. -/
def awaitNextLink : List (Option Datagram) → Outcome (List (Option Datagram))
  | [] => .noFuel
  | none :: _ => .threw .ConnectionException
  | some d :: rest =>
    let srvCommand := (recvInto [0] d).headD 0
    if srvCommand &&& C_NEXT_LINK_IP ≠ 0 then .returned rest
    else awaitNextLink rest

/-- `Link::answer` (Link.cc 59-145) on a host of byte order `e`. The result is the list of
datagrams sent and how the call ends; a normal return carries the `int` returned, and a call
that is still waiting in `recvfrom` when the datagrams are spent ends as `noFuel`. -/
def answer (e : Endian) (env : AnswerEnv) (incoming : List (Option Datagram)) :
    List SentTo × Outcome Int :=
  if !env.socketOk then ([], .threw .ConnectionException)
  else if !env.bindOk then ([], .threw .ConnectionException)
  else
    match awaitServer 0 incoming with
    | .returned (udp, rest) =>
      if !env.sendtoOk then ([], .threw .ConnectionException)
      else
        let tr : List SentTo := [⟨udp, [C_LINK_CLIENT_OK]⟩]
        match awaitNextLink rest with
        | .returned [] => (tr, .noFuel)
        | .returned (none :: _) => (tr, .threw .ConnectionException)
        | .returned (some d :: _) =>
          let next_link := memLoad e (recvInto (memBytes e 4 env.indeterminate) d)
          (tr, .returned (toInt32 (ntohl e next_link)))
        | .threw c => (tr, .threw c)
        | .fault => (tr, .fault)
        | .noFuel => (tr, .noFuel)
    | .threw c => ([], .threw c)
    | .fault => ([], .fault)
    | .noFuel => ([], .noFuel)

/-- The calls of `linkClient` after `answer`, in the order of the source: those to the
sockets, to the transfer hub (`setFdo`, `setFdd`), to the views and to `sleep`. -/
inductive NetCall
  | socket
  | bind (port s_addr : Nat)
  | listen (backlog : Nat)
  | accept
  | setFdo (fd : Int)
  | triggerEvent
  | sleep (seconds : Nat)
  | connect (port s_addr : Nat)
  | setFdd (fd : Int) (s_addr : Nat)
  deriving DecidableEq, Repr

/-- What surrounds a call of `linkClient`: the values returned by the first call of `socket`,
by `bind`, by `listen`, by `accept`, by the second call of `socket` and by `connect`; a
negative value is a failure. -/
structure ClientEnv where
  sock_sender : Int
  bind : Int
  listen : Int
  fdo : Int
  fdd : Int
  connect : Int

/-- `Link::linkClient` (Link.cc 280-361). `answered` is how the call `this->answer ()` ends.
The result is the list of the calls made after it, a failing one included, and how
`linkClient` ends. `INADDR_ANY` is 0. -/
def linkClient (env : ClientEnv) (answered : Outcome Int) : List NetCall × Outcome Unit :=
  match answered with
  | .threw c => ([], .threw c)
  | .fault => ([], .fault)
  | .noFuel => ([], .noFuel)
  | .returned ip_next_link =>
    let c1 : List NetCall := [.socket]
    if env.sock_sender < 0 then (c1, .threw .ConnectionException)
    else
      let c2 := c1 ++ [.bind PORT_DATA 0]
      if env.bind < 0 then (c2, .threw .ConnectionException)
      else
        let c3 := c2 ++ [.listen 1]
        if env.listen < 0 then (c3, .threw .ConnectionException)
        else
          let c4 := c3 ++ [.accept]
          if env.fdo < 0 then (c4, .threw .ConnectionException)
          else
            let c5 := c4 ++ [.setFdo env.fdo, .triggerEvent]
            let s_addr := toUInt32 ip_next_link
            if s_addr ≠ 0 then
              let c6 := c5 ++ [.socket]
              if env.fdd < 0 then (c6, .threw .ConnectionException)
              else
                let c7 := c6 ++ [.sleep 1, .connect PORT_DATA s_addr]
                if env.connect < 0 then (c7, .threw .ConnectionException)
                else (c7 ++ [.setFdd env.fdd s_addr], .returned ())
            else (c5, .returned ())

/-- A node on which every call of `answer` succeeds. -/
def answerOk : AnswerEnv := ⟨true, true, true, 0⟩

/-- A node on which every call of `linkClient` succeeds: the listening socket is the
descriptor 3, the predecessor is accepted as 4, the socket to the successor is 5. -/
def clientOk : ClientEnv := ⟨3, 0, 0, 4, 5, 0⟩

/-- The datagrams that the head sends, as `recvfrom` gives them to the link: each comes from
the port `port` of the address `head`. -/
def delivered (port head : Nat) (sent : List Sent) : List (Option Datagram) :=
  sent.map fun s => some ⟨s.payload, port, head⟩

/-- The calls of the relay assembly as the protocol describes them, for a node that has
accepted its predecessor as the descriptor `fdo` and whose successor is `s` (0 for the tail):
it listens on the data port and accepts one connection, which becomes the source of the hub;
then, unless it is the tail, it opens a connection to its successor after a delay of 1 s and
registers it as a sink (descriptor `fdd`). -/
def relayAssembly (fdo fdd : Int) (s : Int) : List NetCall :=
  [.socket, .bind PORT_DATA 0, .listen 1, .accept, .setFdo fdo, .triggerEvent]
    ++ (if s = 0 then []
        else [.socket, .sleep 1, .connect PORT_DATA (toUInt32 s), .setFdd fdd (toUInt32 s)])

/-- The quiet system, except that `mount` fails. -/
def mountRefusedEnv : SysEnv :=
  { quietEnv with mount := false }

/-! ## Partition::fitInDevice (Partition.cc 438-452) -/

/-- The floating-point operations of `fitInDevice`, on patterns: the conversion to `double`
of the integer that `getDevSize ()` returns, and the product of two `double`. -/
structure FpuProduct where
  ofUInt64 : Nat → Nat
  mul : Nat → Nat → Nat

/-- The conversion of a `double` to `uint64_t`: the fractional part is discarded. When the
truncated value is not a value of `uint64_t` (and for a NaN or an infinity) the behaviour is
undefined, which is `none`. -/
def f64ToUInt64 (bits : Nat) : Option Nat :=
  match f64Decode bits with
  | .finite q => if -1 < q ∧ q < 2 ^ 64 then some ⌊q⌋₊ else none
  | _ => none

/-- `Partition::fitInDevice` (Partition.cc 438-452), where `getDevSize` is the number that
`pedDev->getDevSize ()` returns:
`uint64_t devSize = (pedDev->getDevSize () * this->_usedPart); retValue = _minSize < devSize`.
An undefined conversion is a `fault`. -/
def Partition.fitInDevice (fpu : FpuProduct) (getDevSize : Nat) (p : Partition) :
    Outcome Bool :=
  match f64ToUInt64 (fpu.mul (fpu.ofUInt64 getDevSize) p._usedPart) with
  | none => .fault
  | some devSize => .returned (decide (p._minSize < devSize))

/-- The floating-point operations that the examples need, with their IEEE-754 results (all
exact): the conversion of `536870912 = 2 ^ 29` (pattern `0x41C0000000000000`), its product
with `0.5`, which is `2 ^ 28` (pattern `0x41B0000000000000`), and its product with `0.0`. -/
def exampleFpuProduct : FpuProduct :=
  { ofUInt64 := fun n => if n = 536870912 then 0x41C0000000000000 else 0
    mul := fun a b =>
      if a = 0x41C0000000000000 ∧ b = 0x3FE0000000000000 then 0x41B0000000000000
      else 0 }

/-- An empty partition, for examples: no byte used, and a length of `0.0`. -/
def emptyPartition : Partition :=
  { examplePartition with _minSize := 0, _usedPart := 0 }

/-! ## Partition::initFlags (Partition.cc 303-360) -/

/-- One statement of `initFlags`:
`if (ped_partition_get_flag (pPart, flag)) _flags |= F_...`, on the value of `_flags`. -/
def orIfSet (pPart : PedPartition) (flag : PedPartitionFlag) (f : Nat) (flags : Nat) : Nat :=
  if pPart.flagState flag then flags ||| f else flags

/-- `Partition::initFlags` (Partition.cc 303-360) on the partition `pPart` of the library.
`F` gives the constants `F_BOOT`, ..., `F_DIAG` of `Partition.h`, which is not among the
sources. -/
def Partition.initFlags (F : PedPartitionFlag → Nat) (pPart : PedPartition) (p : Partition) :
    Partition :=
  let f0 := 0
  let f1 := orIfSet pPart .BOOT (F .BOOT) f0
  let f2 := orIfSet pPart .ROOT (F .ROOT) f1
  let f3 := orIfSet pPart .SWAP (F .SWAP) f2
  let f4 := orIfSet pPart .HIDDEN (F .HIDDEN) f3
  let f5 := orIfSet pPart .RAID (F .RAID) f4
  let f6 := orIfSet pPart .LVM (F .LVM) f5
  let f7 := orIfSet pPart .LBA (F .LBA) f6
  let f8 := orIfSet pPart .HPSERVICE (F .HPSERVICE) f7
  let f9 := orIfSet pPart .PALO (F .PALO) f8
  let f10 := orIfSet pPart .PREP (F .PREP) f9
  let f11 := orIfSet pPart .MSFT_RESERVED (F .MSFT_RESERVED) f10
  let f12 := orIfSet pPart .BIOS_GRUB (F .BIOS_GRUB) f11
  let f13 := orIfSet pPart .APPLE_TV_RECOVERY (F .APPLE_TV_RECOVERY) f12
  let f14 := orIfSet pPart .DIAG (F .DIAG) f13
  { p with _flags := f14 }

/-- The statements of `initFlags` for the flags `fs`, one after the other, from the value
`flags`. -/
def orFlagList (F : PedPartitionFlag → Nat) (pPart : PedPartition) :
    List PedPartitionFlag → Nat → Nat
  | [], flags => flags
  | f :: fs, flags => orFlagList F pPart fs (orIfSet pPart f (F f) flags)

/-- The position of the bit of each flag in the constants for examples. -/
def exampleBit : PedPartitionFlag → Nat
  | .BOOT => 0
  | .ROOT => 1
  | .SWAP => 2
  | .HIDDEN => 3
  | .RAID => 4
  | .LVM => 5
  | .LBA => 6
  | .HPSERVICE => 7
  | .PALO => 8
  | .PREP => 9
  | .MSFT_RESERVED => 10
  | .BIOS_GRUB => 11
  | .APPLE_TV_RECOVERY => 12
  | .DIAG => 13

/-- The partition of scenario S2 in the library: sectors 2048 to 526335, and the flag `boot`
only. -/
def bootOnlyPedPartition : PedPartition :=
  { examplePedPartition with flagState := fun f => f = .BOOT }

/-! ## Link::netScan in the memory of the compiled code -/

/-- `Link::netScan` (Link.cc 155-241) as the compiled code runs it. `memory` holds the words
of the frame from the start of the array `links` on: the `_linksNum` elements of the array,
then the words that follow it, which hold no other object of `netScan`. The write
`links[i + 1] = 0` and the read `links[j + 1]` with `i + 1 = j + 1 = _linksNum` are outside
the array; the compiled code performs them on the word that follows the array, and the run
goes on. Only an access outside `memory` is a `fault`. With `memory` of `_linksNum` words this
is `netScan`, in which every access outside the array is a `fault`. -/
def netScanIn (e : Endian) (linksNum : Nat) (env : NetEnv) (fuel : Nat) (replies : List Reply)
    (memory : List Nat) : List Sent × Outcome Int :=
  if !env.socketOk then ([], .threw .ConnectionException)
  else if !env.sendtoOk 0 then ([], .threw .ConnectionException)
  else
    let tr0 : List Sent := [⟨multicastGroup e, [C_LINK_SERVER_OK]⟩]
    match scanLoop linksNum fuel replies 0 memory with
    | .noFuel => (tr0, .noFuel)
    | .fault => (tr0, .fault)
    | .threw c => (tr0, .threw c)
    | .returned (i, links) =>
      if i = 0 then (tr0, .threw .ConnectionException)
      else
        match distribute e env links i 0 1 tr0 with
        | (tr, .returned ()) =>
          match arrGet links 0 with
          | some first => (tr, .returned (toInt32 first))
          | none => (tr, .fault)
        | (tr, .threw c) => (tr, .threw c)
        | (tr, .fault) => (tr, .fault)
        | (tr, .noFuel) => (tr, .noFuel)

/-- A driver that is mounted by an external command, for examples. -/
def ntfsDriver : Filesystem :=
  ⟨[110, 116, 102, 115], false, true, true, "ntfs-3g", "", "", [], []⟩

/-- The example partition with the driver mounted by an external command. -/
def externalPartition : Partition :=
  { examplePartition with _fs := ntfsDriver }

/-- The quiet system, except that the external mount command fails with the exit value 32. -/
def helperFailureEnv : SysEnv :=
  { quietEnv with spawnExit := 32 }

/-- A descriptor whose `used_part` is a NaN (pattern `0x7FF8000000000000`). -/
def nanUsedInfo : partInfo :=
  { partInfo.zero with fsName := strncpy [101, 120, 116, 52] 32, used_part := 0x7FF8000000000000 }

/-- The range invariant of the descriptors, in the words of the design: both fractions are
numbers of `[0, 1]`, and their sum is at most 1. -/
def partInfo.fractionsInRange (d : partInfo) : Prop :=
  ∃ x y, f64Decode d.start_pos = .finite x ∧ f64Decode d.used_part = .finite y
    ∧ 0 ≤ x ∧ x ≤ 1 ∧ 0 ≤ y ∧ y ≤ 1 ∧ x + y ≤ 1

/-! # Lemmas and theorems -/

/-! ## Lemmas on the select loop -/

theorem linksNum_bound (L : Nat) (h0 : 0 < L) (h1 : L < 2 ^ 32) :
    (L + 2 ^ 32 - 1) % 2 ^ 32 = L - 1 := by
  omega

theorem stored_length (as : List Nat) : ∀ (links : List Nat) (i : Nat),
    (stored links i as).length = links.length := by
  induction as with
  | nil => intro links i; rfl
  | cons a as ih => intro links i; simp [stored, ih]

theorem stored_below (as : List Nat) : ∀ (links : List Nat) (i j : Nat), j < i →
    (stored links i as)[j]? = links[j]? := by
  induction as with
  | nil => intro links i j _; rfl
  | cons a as ih =>
    intro links i j hj
    simp only [stored]
    rw [ih _ _ _ (by omega)]
    rw [List.getElem?_set_ne (by omega), List.getElem?_set_ne (by omega)]

theorem stored_at (as : List Nat) : ∀ (links : List Nat) (i k : Nat),
    i + as.length < links.length → k < as.length →
    (stored links i as)[i + k]? = as[k]? := by
  induction as with
  | nil => intro links i k _ hk; simp at hk
  | cons a as ih =>
    intro links i k hlen hk
    simp only [stored]
    simp only [List.length_cons] at hlen hk
    cases k with
    | zero =>
      have h := stored_below as ((links.set i a).set (i + 1) 0) (i + 1) i (by omega)
      have h2 : ((links.set i a).set (i + 1) 0)[i]? = some a := by
        rw [List.getElem?_set_ne (by omega), List.getElem?_set_eq_of_lt _ (by omega)]
      simp only [Nat.add_zero, h, h2, List.getElem?_cons_zero]
    | succ k =>
      have h := ih ((links.set i a).set (i + 1) 0) (i + 1) k (by simp; omega) (by omega)
      rw [show i + (k + 1) = i + 1 + k by omega, h]
      simp

theorem stored_end (as : List Nat) : ∀ (links : List Nat) (i : Nat),
    i + as.length < links.length → as ≠ [] →
    (stored links i as)[i + as.length]? = some 0 := by
  induction as with
  | nil => intro links i _ h; exact absurd rfl h
  | cons a as ih =>
    intro links i hlen _
    simp only [stored]
    simp only [List.length_cons] at hlen
    cases as with
    | nil =>
      simp only [stored, List.length_cons, List.length_nil]
      rw [List.getElem?_set_eq_of_lt _ (by simp; omega)]
    | cons b bs =>
      have h := ih ((links.set i a).set (i + 1) 0) (i + 1)
        (by simp only [List.length_set, List.length_cons] at *; omega) (by simp)
      rw [show i + (a :: b :: bs).length = i + 1 + (b :: bs).length by
        simp only [List.length_cons]; omega]
      exact h

/-- While there is room for the address and for its terminator, the loop stores every reply
that carries `C_LINK_CLIENT_OK`. -/
theorem scanLoop_stores (L : Nat) (h0 : 0 < L) (h1 : L < 2 ^ 32) (replies : List Reply)
    (hok : ∀ r ∈ replies, r.response &&& C_LINK_CLIENT_OK ≠ 0) :
    ∀ (fuel i : Nat) (links : List Nat), links.length = L → i + replies.length < L →
      replies.length < fuel →
      scanLoop L fuel replies i links
        = .returned (i + replies.length, stored links i (replies.map Reply.s_addr)) := by
  induction replies with
  | nil =>
    intro fuel i links _ _ hf
    obtain ⟨f, rfl⟩ : ∃ f, fuel = f + 1 := ⟨fuel - 1, by simp at hf; omega⟩
    simp [scanLoop, stored]
  | cons r rest ih =>
    intro fuel i links hl hi hf
    simp only [List.length_cons] at hi hf
    obtain ⟨f, rfl⟩ : ∃ f, fuel = f + 1 := ⟨fuel - 1, by omega⟩
    have hr : r.response &&& C_LINK_CLIENT_OK ≠ 0 := hok r (List.mem_cons_self _ _)
    have hrest : ∀ r ∈ rest, r.response &&& C_LINK_CLIENT_OK ≠ 0 :=
      fun x hx => hok x (List.mem_cons_of_mem _ hx)
    have hi1 : i < links.length := by omega
    have hi2 : i + 1 < (links.set i r.s_addr).length := by simp; omega
    simp only [scanLoop, linksNum_bound L h0 h1, arrSet, hr, hi1, hi2, if_true, if_false]
    rw [if_pos (by omega)]
    simp only [List.map_cons, stored, List.length_cons]
    rw [ih hrest f (i + 1) _ (by simp; omega) (by omega) (by omega)]
    rw [show i + 1 + rest.length = i + (rest.length + 1) by omega]

/-- When the replies that carry `C_LINK_CLIENT_OK` fill the array, the terminator of the last
one is written outside it. -/
theorem scanLoop_overflows (L : Nat) (h0 : 0 < L) (h1 : L < 2 ^ 32) (replies : List Reply)
    (hok : ∀ r ∈ replies, r.response &&& C_LINK_CLIENT_OK ≠ 0) :
    ∀ (fuel i : Nat) (links : List Nat), links.length = L → i + replies.length = L →
      replies ≠ [] → replies.length < fuel →
      scanLoop L fuel replies i links = .fault := by
  induction replies with
  | nil => intro _ _ _ _ _ h; exact absurd rfl h
  | cons r rest ih =>
    intro fuel i links hl hi _ hf
    simp only [List.length_cons] at hi hf
    obtain ⟨f, rfl⟩ : ∃ f, fuel = f + 1 := ⟨fuel - 1, by omega⟩
    have hr : r.response &&& C_LINK_CLIENT_OK ≠ 0 := hok r (List.mem_cons_self _ _)
    have hrest : ∀ r ∈ rest, r.response &&& C_LINK_CLIENT_OK ≠ 0 :=
      fun x hx => hok x (List.mem_cons_of_mem _ hx)
    have hi1 : i < links.length := by omega
    simp only [scanLoop, linksNum_bound L h0 h1, arrSet, hr, hi1, if_true, if_false]
    rw [if_pos (by omega)]
    cases rest with
    | nil =>
      have : ¬ (i + 1 < links.length) := by
        simp only [List.length_nil] at hi; omega
      simp [this]
    | cons r2 rest2 =>
      have hi2 : i + 1 < links.length := by
        simp only [List.length_cons] at hi; omega
      simp only [List.length_set, hi2, if_true]
      exact ih hrest f (i + 1) _ (by simp; omega) (by omega) (by simp) (by omega)

/-- On an array that holds the chain `as` from index `j` on, followed by the terminator 0, and
with every `sendto` succeeding, the successor loop sends exactly `chainTrace e as`. -/
theorem distribute_chain (e : Endian) (env : NetEnv) (hsend : ∀ k, env.sendtoOk k = true)
    (links : List Nat) (as : List Nat) :
    ∀ (j k : Nat) (tr : List Sent), as ≠ [] →
      (∀ m, m < as.length → links[j + m]? = as[m]?) → links[j + as.length]? = some 0 →
      distribute e env links as.length j k tr = (tr ++ chainTrace e as, .returned ()) := by
  induction as with
  | nil => intro _ _ _ h; exact absurd rfl h
  | cons a as ih =>
    intro j k tr _ hget hend
    have ha : links[j]? = some a := by simpa using hget 0 (by simp)
    cases as with
    | nil =>
      have hb : links[j + 1]? = some 0 := by simpa using hend
      simp [distribute, arrGet, ha, hb, hsend, chainTrace]
    | cons b bs =>
      have hb : links[j + 1]? = some b := by simpa using hget 1 (by simp)
      have hrec := ih (j + 1) (k + 2)
        (tr ++ [⟨a, [C_NEXT_LINK_IP]⟩] ++ [⟨a, memBytes e 4 (htonl e b)⟩]) (by simp)
        (fun m hm => by
          have := hget (m + 1) (by simp only [List.length_cons] at hm ⊢; omega)
          rw [show j + 1 + m = j + (m + 1) by omega, this]
          simp)
        (by
          rw [show j + 1 + (b :: bs).length = j + (a :: b :: bs).length by
            simp only [List.length_cons]; omega]
          exact hend)
      rw [show (a :: b :: bs).length = (b :: bs).length + 1 by simp]
      rw [distribute]
      simp only [arrGet, ha, hb, hsend, Bool.not_true, Bool.false_eq_true, if_false]
      rw [hrec]
      simp [chainTrace]

/-- The part of the chain discovery that the code achieves: with `_linksNum = L` and fewer than
`L` replies, all carrying `C_LINK_CLIENT_OK`, `netScan` announces itself to the group, sends
every link its successor in arrival order, 0 to the tail, and returns the first address. -/
theorem netScan_chain_below_capacity (e : Endian) (L : Nat) (h0 : 0 < L) (h1 : L < 2 ^ 32)
    (env : NetEnv) (hsock : env.socketOk = true) (hsend : ∀ k, env.sendtoOk k = true)
    (r : Reply) (rest : List Reply)
    (hok : ∀ x ∈ r :: rest, x.response &&& C_LINK_CLIENT_OK ≠ 0)
    (hN : (r :: rest).length < L) (fuel : Nat) (hfuel : (r :: rest).length < fuel) :
    netScan e L env fuel (r :: rest)
      = (⟨multicastGroup e, [C_LINK_SERVER_OK]⟩ :: chainTrace e ((r :: rest).map Reply.s_addr),
         .returned (toInt32 r.s_addr)) := by
  have hscan := scanLoop_stores L h0 h1 (r :: rest) hok fuel 0
    ((List.range L).map env.indeterminate) (by simp) (by omega) hfuel
  have hlen : 0 + ((r :: rest).map Reply.s_addr).length
      < ((List.range L).map env.indeterminate).length := by
    simp only [List.length_map, List.length_range]; omega
  have hdist := distribute_chain e env hsend
    (stored ((List.range L).map env.indeterminate) 0 ((r :: rest).map Reply.s_addr))
    ((r :: rest).map Reply.s_addr) 0 1 [⟨multicastGroup e, [C_LINK_SERVER_OK]⟩] (by simp)
    (fun m hm => stored_at _ _ 0 m hlen hm)
    (stored_end _ _ 0 hlen (by simp))
  have hfirst : (stored ((List.range L).map env.indeterminate) 0
      ((r :: rest).map Reply.s_addr))[0]? = some r.s_addr := by
    have := stored_at ((r :: rest).map Reply.s_addr) ((List.range L).map env.indeterminate)
      0 0 hlen (by simp)
    simpa using this
  simp only [List.length_map] at hdist
  simp only [netScan, hsock, hsend, hscan, Bool.not_true, Bool.false_eq_true, if_false,
    Nat.zero_add]
  rw [if_neg (by simp)]
  simp only [hdist, arrGet, hfirst]
  rfl

/-- Replies without the `C_LINK_CLIENT_OK` bit are read and dropped. -/
theorem scanLoop_drops (L : Nat) (replies : List Reply)
    (hno : ∀ r ∈ replies, r.response &&& C_LINK_CLIENT_OK = 0) :
    ∀ (fuel : Nat) (links : List Nat), replies.length < fuel →
      scanLoop L fuel replies 0 links = .returned (0, links) := by
  induction replies with
  | nil =>
    intro fuel links hf
    obtain ⟨f, rfl⟩ : ∃ f, fuel = f + 1 := ⟨fuel - 1, by simp at hf; omega⟩
    rfl
  | cons r rest ih =>
    intro fuel links hf
    simp only [List.length_cons] at hf
    obtain ⟨f, rfl⟩ : ∃ f, fuel = f + 1 := ⟨fuel - 1, by omega⟩
    have hr : r.response &&& C_LINK_CLIENT_OK = 0 := hno r (List.mem_cons_self _ _)
    simp only [scanLoop, Nat.zero_le, hr, if_true]
    exact ih (fun x hx => hno x (List.mem_cons_of_mem _ hx)) f links (by omega)

/-! ## Lemmas on byte order -/

theorem ofBytesLE_cons (b : Nat) (bs : List Nat) :
    ofBytesLE (b :: bs) = b + 256 * ofBytesLE bs := by
  simp only [ofBytesLE, ofBytesBE, List.reverse_cons, List.foldl_append, List.foldl_cons,
    List.foldl_nil]
  omega

theorem bytesLE_length (n : Nat) : ∀ v, (bytesLE n v).length = n := by
  induction n with
  | zero => intro v; rfl
  | succ n ih => intro v; simp [bytesLE, ih]

theorem bytesLE_lt (n : Nat) : ∀ v, ∀ b ∈ bytesLE n v, b < 256 := by
  induction n with
  | zero => intro v b hb; simp [bytesLE] at hb
  | succ n ih =>
    intro v b hb
    simp only [bytesLE, List.mem_cons] at hb
    rcases hb with rfl | hb
    · exact Nat.mod_lt _ (by decide)
    · exact ih _ b hb

/-- Reading back the bytes of `v` gives `v` reduced to `n` bytes. -/
theorem ofBytesLE_bytesLE (n : Nat) : ∀ v, ofBytesLE (bytesLE n v) = v % 256 ^ n := by
  induction n with
  | zero => intro v; simp [bytesLE, ofBytesLE, ofBytesBE, Nat.mod_one]
  | succ n ih =>
    intro v
    rw [bytesLE, ofBytesLE_cons, ih, pow_succ', Nat.mod_mul]

/-- Splitting the value of a list of bytes gives the bytes back. -/
theorem bytesLE_ofBytesLE (bs : List Nat) (h : ∀ b ∈ bs, b < 256) :
    bytesLE bs.length (ofBytesLE bs) = bs := by
  induction bs with
  | nil => rfl
  | cons b bs ih =>
    have hb : b < 256 := h b (List.mem_cons_self _ _)
    have hbs : ∀ x ∈ bs, x < 256 := fun x hx => h x (List.mem_cons_of_mem _ hx)
    rw [List.length_cons, bytesLE, ofBytesLE_cons]
    rw [show (b + 256 * ofBytesLE bs) % 256 = b by omega]
    rw [show (b + 256 * ofBytesLE bs) / 256 = ofBytesLE bs by omega, ih hbs]

theorem ofBytesBE_eq (bs : List Nat) : ofBytesBE bs = ofBytesLE bs.reverse := by
  simp [ofBytesLE]

/-- In the memory of a little-endian host, the byte-swapped value of `v` occupies the bytes of
`v` from the most significant one down. -/
theorem bytesLE_bswap (n v : Nat) : bytesLE n (ofBytesBE (bytesLE n v)) = bytesBE n v := by
  have h := bytesLE_ofBytesLE (bytesBE n v) (by
    intro b hb
    exact bytesLE_lt n v b (by simpa [bytesBE] using hb))
  rw [ofBytesBE_eq]
  simpa [bytesBE, bytesLE_length] using h

/-- Swapping the bytes twice gives the value back, reduced to `n` bytes. -/
theorem ofBytesBE_bswap (n v : Nat) :
    ofBytesBE (bytesLE n (ofBytesBE (bytesLE n v))) = v % 256 ^ n := by
  rw [bytesLE_bswap, ofBytesBE_eq, bytesBE, List.reverse_reverse, ofBytesLE_bytesLE]

/-- What a little-endian head puts on the wire for the successor `a.b.c.d`. -/
theorem successor_bytes_little (a b c d : Nat) (ha : a < 256) (hb : b < 256) (hc : c < 256)
    (hd : d < 256) :
    memBytes .little 4 (htonl .little (s_addr_of .little a b c d)) = [d, c, b, a] := by
  have h := bytesLE_ofBytesLE [a, b, c, d] (by
    intro x hx
    simp only [List.mem_cons, List.mem_singleton, List.not_mem_nil, or_false] at hx
    rcases hx with rfl | rfl | rfl | rfl <;> assumption)
  simp only [List.length_cons, List.length_nil] at h
  simp only [memBytes, htonl, bswap32, s_addr_of, memLoad]
  rw [bytesLE_bswap, bytesBE, h]
  rfl

/-- What a big-endian head puts on the wire for the successor `a.b.c.d`. -/
theorem successor_bytes_big (a b c d : Nat) (ha : a < 256) (hb : b < 256) (hc : c < 256)
    (hd : d < 256) :
    memBytes .big 4 (htonl .big (s_addr_of .big a b c d)) = [a, b, c, d] := by
  have h := bytesLE_ofBytesLE [d, c, b, a] (by
    intro x hx
    simp only [List.mem_cons, List.mem_singleton, List.not_mem_nil, or_false] at hx
    rcases hx with rfl | rfl | rfl | rfl <;> assumption)
  simp only [List.length_cons, List.length_nil] at h
  have hv : s_addr_of .big a b c d = ofBytesLE [d, c, b, a] := by
    simp [s_addr_of, memLoad, ofBytesLE]
  have hlt : ofBytesLE [d, c, b, a] < 2 ^ 32 := by
    have h0 : ofBytesLE [] = 0 := rfl
    simp only [ofBytesLE_cons, h0]
    omega
  simp only [memBytes, htonl, bytesBE]
  rw [hv, Nat.mod_eq_of_lt hlt, h]
  rfl

/-! ## Theorems on Link::netScan -/

/-- C8 (the code departs from the claim on a little-endian host): when two links reply, the
second from `a.b.c.d`, a little-endian head sends the first link a successor datagram of 4
bytes, and these bytes are `d, c, b, a`, the reverse of the big-endian IPv4 address. -/
theorem netScan_successor_datagram_little_endian (a b c d : Nat) (ha : a < 256)
    (hb : b < 256) (hc : c < 256) (hd : d < 256) (first : Nat) :
    (netScan .little LINKS_NUM netOk 3
        [⟨C_LINK_CLIENT_OK, first⟩, ⟨C_LINK_CLIENT_OK, s_addr_of .little a b c d⟩]).1[2]?
      = some ⟨first, [d, c, b, a]⟩ := by
  rw [netScan_chain_below_capacity .little LINKS_NUM (by decide) (by decide) netOk rfl
    (fun _ => rfl) _ _
    (by
      intro x hx
      simp only [List.mem_cons, List.mem_singleton, List.not_mem_nil, or_false] at hx
      rcases hx with rfl | rfl <;> exact (by decide : C_LINK_CLIENT_OK &&& C_LINK_CLIENT_OK ≠ 0))
    (by simp [LINKS_NUM]) 3 (by simp)]
  simp only [List.map_cons, List.map_nil, chainTrace]
  rw [successor_bytes_little a b c d ha hb hc hd]
  rfl

theorem netScan_successor_datagram_little_endian_witness :
    (netScan .little LINKS_NUM netOk 3
        [⟨C_LINK_CLIENT_OK, s_addr_of .little 10 0 0 1⟩,
         ⟨C_LINK_CLIENT_OK, s_addr_of .little 192 168 1 2⟩]).1[2]?
      = some ⟨s_addr_of .little 10 0 0 1, [2, 1, 168, 192]⟩ :=
  netScan_successor_datagram_little_endian 192 168 1 2 (by decide) (by decide) (by decide)
    (by decide) (s_addr_of .little 10 0 0 1)

/-- C9: when no datagram of the discovery window carries the `C_LINK_CLIENT_OK` bit (none
arrives, or every one that arrives has the bit clear), `netScan` ends with
`ConnectionException`, and it has sent no `C_NEXT_LINK_IP` datagram and no successor
datagram: the only datagram it may have sent is the announcement to the multicast group. -/
theorem netScan_no_reply_connection_exception (e : Endian) (L : Nat) (env : NetEnv)
    (replies : List Reply) (hno : ∀ r ∈ replies, r.response &&& C_LINK_CLIENT_OK = 0)
    (fuel : Nat) (hfuel : replies.length < fuel) :
    (netScan e L env fuel replies).2 = .threw .ConnectionException
      ∧ (∀ s ∈ (netScan e L env fuel replies).1,
          s = ⟨multicastGroup e, [C_LINK_SERVER_OK]⟩ ∧ s.payload ≠ [C_NEXT_LINK_IP]
            ∧ s.payload.length ≠ 4) := by
  have hscan := scanLoop_drops L replies hno fuel ((List.range L).map env.indeterminate) hfuel
  unfold netScan
  by_cases hsock : env.socketOk = true
  · by_cases hsend : env.sendtoOk 0 = true
    · simp only [hsock, hsend, hscan, Bool.not_true, Bool.false_eq_true, if_false, if_true]
      refine ⟨trivial, ?_⟩
      intro s hs
      simp only [List.mem_singleton] at hs
      subst hs
      exact ⟨rfl, (by decide : [C_LINK_SERVER_OK] ≠ [C_NEXT_LINK_IP]),
        (by decide : [C_LINK_SERVER_OK].length ≠ 4)⟩
    · simp [hsock, hsend]
  · simp [hsock]

theorem netScan_no_reply_connection_exception_witness :
    (∀ r ∈ [(⟨C_LINK_SERVER_OK, 7⟩ : Reply), ⟨0, 9⟩], r.response &&& C_LINK_CLIENT_OK = 0)
      ∧ (netScan .little LINKS_NUM netOk 3 [⟨C_LINK_SERVER_OK, 7⟩, ⟨0, 9⟩]).2
          = .threw .ConnectionException :=
  ⟨by decide,
    (netScan_no_reply_connection_exception .little LINKS_NUM netOk
      [⟨C_LINK_SERVER_OK, 7⟩, ⟨0, 9⟩] (by decide) 3 (by decide)).1⟩

open Doclone


/-! ## Theorems on the partition descriptor -/

/-- A fraction of `[0, 1]` passes the test `> 1` of the decoding constructor. -/
theorem f64GtOne_of_fraction (bits : Nat) (h : f64IsFraction bits) : f64GtOne bits = false := by
  unfold f64IsFraction at h
  unfold f64GtOne
  cases hd : f64Decode bits with
  | nan => rfl
  | inf negative => rw [hd] at h; exact h.elim
  | finite q =>
    rw [hd] at h
    simp only [decide_eq_false_iff_not, not_lt]
    exact h.2

/-- With a `nofs` driver in the factory, the driver of a decoded partition is always made. -/
theorem ofPartInfo_driver (createFilesystem : List Nat → Except ExcClass Filesystem)
    (hnofs : ∃ fs, createFilesystem nofsName = .ok fs) (name : List Nat) :
    ∃ fs, (match createFilesystem name with
      | .error _ => createFilesystem nofsName
      | .ok fs => .ok fs) = .ok fs := by
  obtain ⟨nofs, hn⟩ := hnofs
  cases h : createFilesystem name with
  | error c => exact ⟨nofs, hn⟩
  | ok fs => exact ⟨fs, rfl⟩

/-- C2: for every partition state in the ranges of its types whose `start_pos` and
`used_part` are fractions of `[0, 1]`, the decoding constructor applied to the record of
`createPartInfo` returns a partition with the same type, `min_size`, `start_pos` pattern,
`used_part` pattern and flags; and re-encoding any decoded descriptor reproduces these five
fields of the descriptor. -/
theorem partInfo_numeric_round_trip (D : PartitionDecls)
    (createFilesystem : List Nat → Except ExcClass Filesystem)
    (hnofs : ∃ fs, createFilesystem nofsName = .ok fs) (mem : Beyond) (p : Partition)
    (hp : p.inRange D) (hs : f64IsFraction p._startPos) (hu : f64IsFraction p._usedPart) :
    (∃ q, Partition.ofPartInfo createFilesystem mem (p.createPartInfo D)._partition = .returned q
        ∧ q._type = p._type ∧ q._minSize = p._minSize ∧ q._startPos = p._startPos
        ∧ q._usedPart = p._usedPart ∧ q._flags = p._flags)
      ∧ (∀ d q, partInfo.inRange D d →
          Partition.ofPartInfo createFilesystem mem d = .returned q →
          (q.createPartInfo D)._partition.type = d.type
            ∧ (q.createPartInfo D)._partition.min_size = d.min_size
            ∧ (q.createPartInfo D)._partition.start_pos = d.start_pos
            ∧ (q.createPartInfo D)._partition.used_part = d.used_part
            ∧ (q.createPartInfo D)._partition.flags = d.flags) := by
  obtain ⟨h1, h2, h3, h4, h5⟩ := hp
  constructor
  · obtain ⟨fs, hfs⟩ := ofPartInfo_driver createFilesystem hnofs
      (cstr ((p.createPartInfo D)._partition.fsName ++ mem.fsName))
    have e3 : p._startPos % 2 ^ 64 = p._startPos := Nat.mod_eq_of_lt h3
    have e4 : p._usedPart % 2 ^ 64 = p._usedPart := Nat.mod_eq_of_lt h4
    have g3 : f64GtOne (p.createPartInfo D)._partition.start_pos = false := by
      simp only [Partition.createPartInfo, e3]; exact f64GtOne_of_fraction _ hs
    have g4 : f64GtOne (p.createPartInfo D)._partition.used_part = false := by
      simp only [Partition.createPartInfo, e4]; exact f64GtOne_of_fraction _ hu
    simp only [Partition.ofPartInfo, hfs, g3, g4, Bool.false_eq_true, if_false]
    refine ⟨_, rfl, ?_, ?_, ?_, ?_, ?_⟩
    · exact Nat.mod_eq_of_lt h1
    · exact Nat.mod_eq_of_lt h2
    · exact e3
    · exact e4
    · exact Nat.mod_eq_of_lt h5
  · intro d q hd hq
    obtain ⟨d1, d2, d3, d4, d5⟩ := hd
    obtain ⟨fs, hfs⟩ := ofPartInfo_driver createFilesystem hnofs
      (cstr (d.fsName ++ mem.fsName))
    simp only [Partition.ofPartInfo, hfs] at hq
    split at hq
    · exact absurd hq (by simp)
    · split at hq
      · exact absurd hq (by simp)
      · injection hq with hq
        subst hq
        exact ⟨Nat.mod_eq_of_lt d1, Nat.mod_eq_of_lt d2, Nat.mod_eq_of_lt d3,
          Nat.mod_eq_of_lt d4, Nat.mod_eq_of_lt d5⟩

theorem partInfo_numeric_round_trip_witness :
    (∃ q, Partition.ofPartInfo exampleFactory noBeyond
          (examplePartition.createPartInfo exampleDecls)._partition = .returned q
        ∧ q._type = 0 ∧ q._minSize = 123456789 ∧ q._startPos = 0x3F60000000000000
        ∧ q._usedPart = 0x3FE0000000000000 ∧ q._flags = 1) :=
  (partInfo_numeric_round_trip exampleDecls exampleFactory ⟨nofsDriver, rfl⟩ noBeyond
    examplePartition (by decide)
    (by norm_num [f64IsFraction, f64Decode, examplePartition])
    (by norm_num [f64IsFraction, f64Decode, examplePartition])).1

/-- On a finite value the test of the constructor is the comparison with 1. -/
theorem f64GtOne_finite (bits : Nat) (x : ℚ) (h : f64Decode bits = .finite x) :
    f64GtOne bits = false ↔ x ≤ 1 := by
  simp [f64GtOne, h]

/-- The constructor accepts a descriptor whose `start_pos` is `-1.0`, a value outside
`[0, 1]`. -/
theorem ofPartInfo_accepts_negative_start_pos :
    (∃ q, Partition.ofPartInfo exampleFactory noBeyond negativeStartInfo = .returned q)
      ∧ f64Decode negativeStartInfo.start_pos = .finite (-1)
      ∧ ¬ f64IsFraction negativeStartInfo.start_pos := by
  have hv : f64Decode negativeStartInfo.start_pos = .finite (-1) := by
    norm_num [f64Decode, negativeStartInfo]
  have g1 : f64GtOne negativeStartInfo.start_pos = false := by
    rw [f64GtOne_finite _ _ hv]; norm_num
  have hz : f64Decode negativeStartInfo.used_part = .finite 0 := by
    simp [f64Decode, negativeStartInfo, partInfo.zero]
  have g2 : f64GtOne negativeStartInfo.used_part = false := by
    rw [f64GtOne_finite _ _ hz]; norm_num
  have hf : exampleFactory (cstr (negativeStartInfo.fsName ++ noBeyond.fsName))
      = .ok ext4Driver := rfl
  refine ⟨?_, hv, ?_⟩
  · simp only [Partition.ofPartInfo, hf, g1, g2, Bool.false_eq_true, if_false]
    exact ⟨_, rfl⟩
  · simp only [f64IsFraction, hv]
    norm_num

/-- What the tests of the decoding constructor achieve: a descriptor it accepts has neither
`start_pos > 1` nor `used_part > 1` (a finite value is at most 1), and the partition holds the
two patterns unchanged; a descriptor with `start_pos > 1` or `used_part > 1` is rejected with
`InvalidImageException`; no other descriptor is rejected for its fractions. -/
theorem ofPartInfo_tests_upper_bound_only
    (createFilesystem : List Nat → Except ExcClass Filesystem)
    (hnofs : ∃ fs, createFilesystem nofsName = .ok fs) (mem : Beyond) (d : partInfo) :
    (∀ q, Partition.ofPartInfo createFilesystem mem d = .returned q →
        f64GtOne d.start_pos = false ∧ f64GtOne d.used_part = false
          ∧ (∀ x, f64Decode d.start_pos = .finite x → x ≤ 1)
          ∧ (∀ x, f64Decode d.used_part = .finite x → x ≤ 1)
          ∧ q._startPos = d.start_pos ∧ q._usedPart = d.used_part)
      ∧ (f64GtOne d.start_pos = true ∨ f64GtOne d.used_part = true →
          Partition.ofPartInfo createFilesystem mem d = .threw .InvalidImageException)
      ∧ (f64GtOne d.start_pos = false → f64GtOne d.used_part = false →
          ∃ q, Partition.ofPartInfo createFilesystem mem d = .returned q) := by
  obtain ⟨fs, hfs⟩ := ofPartInfo_driver createFilesystem hnofs (cstr (d.fsName ++ mem.fsName))
  refine ⟨?_, ?_, ?_⟩
  · intro q hq
    simp only [Partition.ofPartInfo, hfs] at hq
    by_cases g1 : f64GtOne d.start_pos = true
    · simp [g1] at hq
    · by_cases g2 : f64GtOne d.used_part = true
      · simp [g1, g2] at hq
      · simp only [Bool.not_eq_true] at g1 g2
        simp only [g1, g2, Bool.false_eq_true, if_false] at hq
        injection hq with hq
        subst hq
        exact ⟨g1, g2, fun x hx => (f64GtOne_finite _ x hx).1 g1,
          fun x hx => (f64GtOne_finite _ x hx).1 g2, rfl, rfl⟩
  · intro h
    simp only [Partition.ofPartInfo, hfs]
    rcases h with h | h
    · simp [h]
    · by_cases g1 : f64GtOne d.start_pos = true
      · simp [g1]
      · simp [g1, h]
  · intro g1 g2
    simp only [Partition.ofPartInfo, hfs, g1, g2, Bool.false_eq_true, if_false]
    exact ⟨_, rfl⟩

theorem ofPartInfo_tests_upper_bound_only_witness :
    Partition.ofPartInfo exampleFactory noBeyond
        { negativeStartInfo with start_pos := 0x3FF8000000000000 }
      = .threw .InvalidImageException :=
  (ofPartInfo_tests_upper_bound_only exampleFactory ⟨nofsDriver, rfl⟩ noBeyond
    { negativeStartInfo with start_pos := 0x3FF8000000000000 }).2.1
    (Or.inl (by norm_num [f64GtOne, f64Decode]))

/-! ## Theorems on Link::send and Link::receive -/

theorem bind_eq {α β : Type} (m : LinkM α) (f : α → LinkM β) : (m >>= f) = LinkM.bind m f :=
  rfl

/-- The 8 bytes that hold `htobe64 (n)` in memory are the big-endian bytes of `n`, whatever
the byte order of the host. -/
theorem prelude_bytes (e : Endian) (n : Nat) (hn : n < 2 ^ 64) :
    memBytes e 8 (htobe64 e n) = bytesBE 8 n := by
  cases e with
  | little => simp only [memBytes, htobe64, bswap64, bytesLE_bswap]
  | big => simp only [memBytes, htobe64, Nat.mod_eq_of_lt hn]

/-- Loading the big-endian bytes of `n` and applying `be64toh` gives `n`, whatever the byte
order of the host. -/
theorem prelude_value (e : Endian) (n : Nat) (hn : n < 2 ^ 64) :
    be64toh e (memLoad e (bytesBE 8 n)) = n := by
  have h256 : n % 256 ^ 8 = n := Nat.mod_eq_of_lt (by norm_num at hn ⊢; exact hn)
  cases e with
  | little =>
    simp only [be64toh, bswap64, memLoad]
    rw [show ofBytesLE (bytesBE 8 n) = ofBytesBE (bytesLE 8 n) by
      simp [ofBytesLE, bytesBE]]
    rw [ofBytesBE_bswap, h256]
  | big =>
    simp only [be64toh, memLoad]
    rw [ofBytesBE_eq, bytesBE, List.reverse_reverse, ofBytesLE_bytesLE, h256,
      Nat.mod_eq_of_lt hn]

/-- C4 (the claim fails on the code): for a device whose image has the header `[208, 193]`,
the data `[7, 7, 7]` and the size 5, the stream of `sendFromDevice` starts with the 8 bytes of
the size, not with the header: the header comes after the size prelude. -/
theorem sendFromDevice_prelude_before_header :
    (sendFromDevice .little (deviceEnv 5 [208, 193] [7, 7, 7]) (Hub.start [])).1.pushed
        = [0, 0, 0, 0, 0, 0, 0, 5] ++ [208, 193] ++ [7, 7, 7]
      ∧ (sendFromDevice .little (deviceEnv 5 [208, 193] [7, 7, 7]) (Hub.start [])).1.pushed
        ≠ [208, 193] ++ [0, 0, 0, 0, 0, 0, 0, 5] ++ [7, 7, 7] := by
  decide

/-- The runs of `sendFromDevice` and of `sendFromImage` in which every call succeeds. -/
theorem send_streams (e : Endian) (env : LinkEnv)
    (hraises : ∀ s, env.raises s = none) (hblock : env.isBlockDevice = true)
    (hcheck : env.canCreateCheck = true) (h : Hub) :
    sendFromDevice e env h
        = ({ h with
              pushed := h.pushed ++ bytesBE 8 (env.image_size % 2 ^ 64) ++ env.headerBytes
                ++ env.payloadBytes
              closed := h.closed + 1 }, .returned ())
      ∧ sendFromImage e env h
        = ({ h with
              pushed := h.pushed ++ bytesBE 8 (env.fileSize % 2 ^ 64) ++ env.fileBytes
              totalSize := some (env.fileSize % 2 ^ 64)
              closed := h.closed + 1 }, .returned ()) := by
  have p1 := prelude_bytes e (env.image_size % 2 ^ 64) (Nat.mod_lt _ (by norm_num))
  have p2 := prelude_bytes e (env.fileSize % 2 ^ 64) (Nat.mod_lt _ (by norm_num))
  constructor
  · simp [sendFromDevice, bind_eq, LinkM.bind, outside, push, closeConnection, hraises, hblock,
      hcheck]
    simpa using p1
  · simp [sendFromImage, bind_eq, LinkM.bind, outside, push, closeConnection, setTotalSize,
      hraises]
    simpa using p2

/-- C4 (amended): when every call succeeds, the stream that `sendFromDevice` pushes to the hub
is the 8-byte big-endian size prelude first, then the image header, then the partition data,
with nothing in between; and the stream of `sendFromImage` is the size prelude followed by
the bytes of the image file. -/
theorem sendFromDevice_stream_order (e : Endian) (env : LinkEnv)
    (hraises : ∀ s, env.raises s = none) (hblock : env.isBlockDevice = true)
    (hcheck : env.canCreateCheck = true) (h : Hub) :
    (sendFromDevice e env h).2 = .returned ()
      ∧ (sendFromDevice e env h).1.pushed
        = h.pushed ++ bytesBE 8 (env.image_size % 2 ^ 64) ++ env.headerBytes ++ env.payloadBytes
      ∧ (sendFromImage e env h).2 = .returned ()
      ∧ (sendFromImage e env h).1.pushed
        = h.pushed ++ bytesBE 8 (env.fileSize % 2 ^ 64) ++ env.fileBytes := by
  have hs := send_streams e env hraises hblock hcheck h
  rw [hs.1, hs.2]
  exact ⟨rfl, rfl, rfl, rfl⟩

theorem sendFromDevice_stream_order_witness :
    (sendFromDevice .big (deviceEnv 5 [208, 193] [7, 7, 7]) (Hub.start [])).1.pushed
      = [] ++ bytesBE 8 (5 % 2 ^ 64) ++ [208, 193] ++ [7, 7, 7] :=
  (sendFromDevice_stream_order .big (deviceEnv 5 [208, 193] [7, 7, 7]) (fun _ => rfl) rfl rfl
    (Hub.start [])).2.1

theorem keepsTotalSize_bind {α β : Type} (m : LinkM α) (f : α → LinkM β)
    (hm : KeepsTotalSize m) (hf : ∀ a, KeepsTotalSize (f a)) : KeepsTotalSize (m >>= f) := by
  intro h
  have h1 := hm h
  simp only [bind_eq, LinkM.bind]
  split <;> rename_i heq <;> rw [heq] at h1
  · rw [hf, h1]
  all_goals exact h1

theorem keepsTotalSize_outside (env : LinkEnv) (s : Step) : KeepsTotalSize (outside env s) := by
  intro h; unfold outside; split <;> rfl

theorem keepsTotalSize_push (env : LinkEnv) (s : Step) (bs : List Nat) :
    KeepsTotalSize (push env s bs) := by
  intro h; unfold push; split <;> rfl

theorem keepsTotalSize_pullTo (env : LinkEnv) (s : Step) (n : Nat) :
    KeepsTotalSize (pullTo env s n) := by
  intro h; unfold pullTo; split
  · rfl
  · split <;> rfl

theorem keepsTotalSize_closeConnection (env : LinkEnv) : KeepsTotalSize (closeConnection env) := by
  intro h; unfold closeConnection; split <;> rfl

theorem keepsTotalSize_raise {α : Type} (c : ExcClass) : KeepsTotalSize (raise c : LinkM α) := by
  intro h; rfl

theorem keepsTotalSize_pure {α : Type} (a : α) : KeepsTotalSize (pure a : LinkM α) := by
  intro h; rfl

theorem keepsTotalSize_ite {α : Type} (c : Prop) [Decidable c] (m₁ m₂ : LinkM α)
    (h₁ : KeepsTotalSize m₁) (h₂ : KeepsTotalSize m₂) :
    KeepsTotalSize (if c then m₁ else m₂) := by
  split <;> assumption

theorem closedGrows_bind {α β : Type} (m : LinkM α) (f : α → LinkM β)
    (hm : ClosedGrows m) (hf : ∀ a, ClosedGrows (f a)) : ClosedGrows (m >>= f) := by
  intro h
  have h1 := hm h
  simp only [bind_eq, LinkM.bind]
  split <;> rename_i heq <;> rw [heq] at h1
  · exact Nat.le_trans h1 (hf _ _)
  all_goals exact h1

theorem closedGrows_outside (env : LinkEnv) (s : Step) : ClosedGrows (outside env s) := by
  intro h; unfold outside; split <;> exact Nat.le_refl _

theorem closedGrows_push (env : LinkEnv) (s : Step) (bs : List Nat) :
    ClosedGrows (push env s bs) := by
  intro h; unfold push; split <;> exact Nat.le_refl _

theorem closedGrows_pull (env : LinkEnv) (s : Step) (n : Nat) : ClosedGrows (pull env s n) := by
  intro h; unfold pull; split
  · exact Nat.le_refl _
  · split <;> exact Nat.le_refl _

theorem closedGrows_pullTo (env : LinkEnv) (s : Step) (n : Nat) :
    ClosedGrows (pullTo env s n) := by
  intro h; unfold pullTo; split
  · exact Nat.le_refl _
  · split <;> exact Nat.le_refl _

theorem closedGrows_setTotalSize (n : Nat) : ClosedGrows (setTotalSize n) := by
  intro h; exact Nat.le_refl _

theorem closedGrows_closeConnection (env : LinkEnv) : ClosedGrows (closeConnection env) := by
  intro h; unfold closeConnection; split <;> exact Nat.le_succ _

theorem closedGrows_raise {α : Type} (c : ExcClass) : ClosedGrows (raise c : LinkM α) := by
  intro h; exact Nat.le_refl _

theorem closedGrows_pure {α : Type} (a : α) : ClosedGrows (pure a : LinkM α) := by
  intro h; exact Nat.le_refl _

theorem closedGrows_ite {α : Type} (c : Prop) [Decidable c] (m₁ m₂ : LinkM α)
    (h₁ : ClosedGrows m₁) (h₂ : ClosedGrows m₂) : ClosedGrows (if c then m₁ else m₂) := by
  split <;> assumption

/-- A call that returns hands the hub over to what follows. -/
theorem bind_outside {β : Type} (env : LinkEnv) (s : Step) (hs : env.raises s = none)
    (f : Unit → LinkM β) (h : Hub) : (outside env s >>= f) h = f () h := by
  simp [bind_eq, LinkM.bind, outside, hs]

theorem bind_pull {β : Type} (env : LinkEnv) (s : Step) (hs : env.raises s = none) (n : Nat)
    (f : List Nat → LinkM β) (h : Hub) (hlen : ¬ h.source.length < n) :
    (pull env s n >>= f) h = f (h.source.take n) { h with source := h.source.drop n } := by
  simp [bind_eq, LinkM.bind, pull, hs, hlen]

theorem bind_setTotalSize {β : Type} (n : Nat) (f : Unit → LinkM β) (h : Hub) :
    (setTotalSize n >>= f) h = f () { h with totalSize := some n } := by
  simp [bind_eq, LinkM.bind, setTotalSize]

theorem bytesBE_length (n v : Nat) : (bytesBE n v).length = n := by
  simp [bytesBE, bytesLE_length]

/-- C5: for every 64-bit total size `n` and whatever the byte orders of the sending and of the
receiving host, the 8 bytes that `sendFromImage` and `sendFromDevice` push for the prelude are
the big-endian bytes of `n`, and a receiver whose source starts with these bytes gives `n`
to `setTotalSize`, in `receiveToImage` and in `receiveToDevice`, whatever happens afterwards. -/
theorem size_prelude_round_trip (es er : Endian) (n : Nat) (hn : n < 2 ^ 64) :
    memBytes es 8 (htobe64 es n) = bytesBE 8 n
      ∧ (∀ env : LinkEnv, (∀ s, env.raises s = none) → env.isBlockDevice = true →
          env.canCreateCheck = true → env.fileSize = n → env.image_size = n →
          (sendFromImage es env (Hub.start [])).1.pushed.take 8 = bytesBE 8 n
            ∧ (sendFromDevice es env (Hub.start [])).1.pushed.take 8 = bytesBE 8 n)
      ∧ (∀ (env : LinkEnv) (rest : List Nat), env.raises .linkClient = none →
          env.raises .createFile = none → env.raises .openFile = none →
          env.raises .transferTo = none →
          (receiveToImage er env (Hub.start (bytesBE 8 n ++ rest))).1.totalSize = some n)
      ∧ (∀ (env : LinkEnv) (rest : List Nat), env.raises .partedInit = none →
          env.raises .linkClient = none → env.isBlockDevice = true →
          env.raises .transferTo = none →
          (receiveToDevice er env (Hub.start (bytesBE 8 n ++ rest))).1.totalSize = some n) := by
  have hmod : n % 2 ^ 64 = n := Nat.mod_eq_of_lt hn
  have hlen : (bytesBE 8 n).length = 8 := bytesBE_length 8 n
  have htake : ∀ rest : List Nat, List.take 8 (bytesBE 8 n ++ rest) = bytesBE 8 n := by
    intro rest
    rw [List.take_append_of_le_length (by omega), List.take_of_length_le (by omega)]
  have hshort : ∀ rest : List Nat, ¬ ((bytesBE 8 n ++ rest).length < 8) := by
    intro rest
    rw [List.length_append]
    omega
  have hval := prelude_value er n hn
  refine ⟨prelude_bytes es n hn, ?_, ?_, ?_⟩
  · intro env hraises hblock hcheck hfile himage
    have hord := send_streams es env hraises hblock hcheck (Hub.start [])
    rw [hord.1, hord.2]
    simp only [hfile, himage, hmod, Hub.start, List.nil_append, List.append_assoc]
    exact ⟨by rw [List.take_append_of_le_length (by omega), List.take_of_length_le (by omega)],
      by rw [List.take_append_of_le_length (by omega), List.take_of_length_le (by omega)]⟩
  · intro env rest h1 h2 h3 h4
    unfold receiveToImage
    rw [bind_outside env _ h1, bind_outside env _ h2, bind_outside env _ h3,
      bind_pull env _ h4 8 _ _ (hshort rest)]
    simp only [Hub.start, htake rest, hval]
    rw [bind_setTotalSize]
    have keep : KeepsTotalSize (do
        pullTo env .transferAllTo n
        outside env .closeFile
        closeConnection env) := by
      repeat' first
        | exact keepsTotalSize_outside _ _
        | exact keepsTotalSize_pullTo _ _ _
        | exact keepsTotalSize_closeConnection _
        | refine keepsTotalSize_bind _ _ ?_ (fun _ => ?_)
    exact keep _
  · intro env rest h1 h2 h3 h4
    unfold receiveToDevice
    rw [bind_outside env _ h1, bind_outside env _ h2]
    simp only [h3, Bool.not_true, Bool.false_eq_true, if_false]
    rw [bind_pull env _ h4 8 _ _ (hshort rest)]
    simp only [Hub.start, htake rest, hval]
    rw [bind_setTotalSize]
    have keep : KeepsTotalSize (do
        pullTo env .readImageHeader env.headerBytes.length
        outside env .openImageHeader
        outside env .createDiskLabel
        if env.canRestoreCheck == false then raise .RestoreImageException
        else do
          outside env .writePartitionTable
          pullTo env .writePartitionsData env.payloadBytes.length
          if env.imageIsDisk then outside env .restoreGrub else pure ()
          closeConnection env) := by
      repeat' first
        | exact keepsTotalSize_outside _ _
        | exact keepsTotalSize_pullTo _ _ _
        | exact keepsTotalSize_closeConnection _
        | exact keepsTotalSize_raise _
        | exact keepsTotalSize_pure _
        | refine keepsTotalSize_ite _ _ _ ?_ ?_
        | refine keepsTotalSize_bind _ _ ?_ (fun _ => ?_)
    exact keep _

theorem size_prelude_round_trip_witness :
    memBytes .little 8 (htobe64 .little 4096) = bytesBE 8 4096
      ∧ (receiveToImage .big (imageEnv []) (Hub.start (bytesBE 8 4096 ++ [1, 2, 3]))).1.totalSize
          = some 4096 :=
  ⟨(size_prelude_round_trip .little .big 4096 (by norm_num)).1,
    (size_prelude_round_trip .little .big 4096 (by norm_num)).2.2.1 (imageEnv []) [1, 2, 3]
      rfl rfl rfl rfl⟩

theorem closedGrows_sendFromImage (e : Endian) (env : LinkEnv) :
    ClosedGrows (sendFromImage e env) := by
  unfold sendFromImage
  repeat' first
    | exact closedGrows_outside _ _
    | exact closedGrows_push _ _ _
    | exact closedGrows_setTotalSize _
    | exact closedGrows_closeConnection _
    | refine closedGrows_bind _ _ ?_ (fun _ => ?_)

theorem closedGrows_sendFromDevice (e : Endian) (env : LinkEnv) :
    ClosedGrows (sendFromDevice e env) := by
  unfold sendFromDevice
  repeat' first
    | exact closedGrows_outside _ _
    | exact closedGrows_push _ _ _
    | exact closedGrows_raise _
    | exact closedGrows_closeConnection _
    | refine closedGrows_ite _ _ _ ?_ ?_
    | refine closedGrows_bind _ _ ?_ (fun _ => ?_)

theorem closedGrows_receiveToImage (e : Endian) (env : LinkEnv) :
    ClosedGrows (receiveToImage e env) := by
  unfold receiveToImage
  repeat' first
    | exact closedGrows_outside _ _
    | exact closedGrows_pull _ _ _
    | exact closedGrows_pullTo _ _ _
    | exact closedGrows_setTotalSize _
    | exact closedGrows_closeConnection _
    | refine closedGrows_bind _ _ ?_ (fun _ => ?_)

theorem closedGrows_receiveToDevice (e : Endian) (env : LinkEnv) :
    ClosedGrows (receiveToDevice e env) := by
  unfold receiveToDevice
  repeat' first
    | exact closedGrows_outside _ _
    | exact closedGrows_pull _ _ _
    | exact closedGrows_pullTo _ _ _
    | exact closedGrows_setTotalSize _
    | exact closedGrows_raise _
    | exact closedGrows_pure _
    | exact closedGrows_closeConnection _
    | refine closedGrows_ite _ _ _ ?_ ?_
    | refine closedGrows_bind _ _ ?_ (fun _ => ?_)

/-- What a `try` block with handlers that close the connection and throw again does: an
exception of a handled class leaves after one more call of `closeConnection`, any other
exception leaves as the body threw it. -/
theorem tryCatch_close (H : Hierarchy) (env : LinkEnv) (body : LinkM Unit)
    (hbody : ClosedGrows body) (handlers : List ExcClass) (h : Hub) :
    (∀ c, (tryCatch H body handlers (fun c => do closeConnection env; raise c) h).2 = .threw c →
        caughtBy H handlers c = true →
        h.closed + 1 ≤ (tryCatch H body handlers (fun c => do closeConnection env; raise c) h).1.closed)
      ∧ (∀ c, (body h).2 = .threw c → caughtBy H handlers c = false →
          tryCatch H body handlers (fun c => do closeConnection env; raise c) h = body h) := by
  have hg := hbody h
  constructor
  · intro c hc hcaught
    unfold tryCatch at hc ⊢
    cases hb : body h with
    | mk h1 o =>
      rw [hb] at hc hg
      have hg' : h.closed ≤ h1.closed := hg
      cases o with
      | threw c0 =>
        simp only at hc ⊢
        by_cases hc0 : caughtBy H handlers c0 = true
        · simp only [hc0, if_true, bind_eq, LinkM.bind, closeConnection, raise]
          cases env.raises .closeConnection <;> simp only <;> omega
        · simp only [hc0, Bool.false_eq_true, if_false] at hc
          injection hc with hc
          rw [hc] at hc0
          exact absurd hcaught hc0
      | returned a => simp at hc
      | fault => simp at hc
      | noFuel => simp at hc
  · intro c hc hnot
    unfold tryCatch
    cases hb : body h with
    | mk h1 o =>
      rw [hb] at hc
      simp only at hc
      subst hc
      simp [hnot]

/-- C10 (the claim fails on the code): a `MountException` (a `WarningException`) raised while
the device is inspected leaves `send`, and one raised while the device is restored leaves
`receive`, without any call of `closeConnection`. -/
theorem send_receive_mount_exception_without_close :
    send specHierarchy .little mountFailureEnv (Hub.start [])
        = (Hub.start [], .threw .MountException)
      ∧ (send specHierarchy .little mountFailureEnv (Hub.start [])).1.closed = 0
      ∧ (receive specHierarchy .little restoreMountFailureEnv
            (Hub.start ([0, 0, 0, 0, 0, 0, 0, 5] ++ [208, 193] ++ [7, 7, 7]))).2
          = .threw .MountException
      ∧ (receive specHierarchy .little restoreMountFailureEnv
            (Hub.start ([0, 0, 0, 0, 0, 0, 0, 5] ++ [208, 193] ++ [7, 7, 7]))).1.closed = 0 := by
  decide

/-- C10 (amended): an exception that leaves `send` and is of class `CancelException`,
`ReadDataException`, `SendDataException` or `ErrorException` (or derived from one of them),
and an exception that leaves `receive` and is of class `CancelException`,
`WriteDataException`, `ReceiveDataException` or `ErrorException` (or derived), leaves after
`closeConnection` has been called; an exception of any other class thrown by the body leaves
`send` or `receive` as it is, with no call added. -/
theorem send_receive_close_on_handled_classes (H : Hierarchy) (e : Endian) (env : LinkEnv)
    (h : Hub) (c : ExcClass) :
    ((send H e env h).2 = .threw c →
        caughtBy H [.CancelException, .ReadDataException, .SendDataException, .ErrorException] c
          = true →
        h.closed + 1 ≤ (send H e env h).1.closed)
      ∧ ((receive H e env h).2 = .threw c →
        caughtBy H [.CancelException, .WriteDataException, .ReceiveDataException,
          .ErrorException] c = true →
        h.closed + 1 ≤ (receive H e env h).1.closed)
      ∧ (((if env.deviceEmpty then sendFromImage e env else sendFromDevice e env) h).2 = .threw c →
        caughtBy H [.CancelException, .ReadDataException, .SendDataException, .ErrorException] c
          = false →
        send H e env h = (if env.deviceEmpty then sendFromImage e env else sendFromDevice e env) h)
      ∧ (((if env.deviceEmpty then receiveToImage e env else receiveToDevice e env) h).2
          = .threw c →
        caughtBy H [.CancelException, .WriteDataException, .ReceiveDataException,
          .ErrorException] c = false →
        receive H e env h
          = (if env.deviceEmpty then receiveToImage e env else receiveToDevice e env) h) := by
  have hs : ClosedGrows (if env.deviceEmpty then sendFromImage e env else sendFromDevice e env) :=
    closedGrows_ite _ _ _ (closedGrows_sendFromImage e env) (closedGrows_sendFromDevice e env)
  have hr : ClosedGrows
      (if env.deviceEmpty then receiveToImage e env else receiveToDevice e env) :=
    closedGrows_ite _ _ _ (closedGrows_receiveToImage e env) (closedGrows_receiveToDevice e env)
  have ts := tryCatch_close H env _ hs
    [.CancelException, .ReadDataException, .SendDataException, .ErrorException] h
  have tr := tryCatch_close H env _ hr
    [.CancelException, .WriteDataException, .ReceiveDataException, .ErrorException] h
  exact ⟨ts.1 c, tr.1 c, ts.2 c, tr.2 c⟩

theorem send_receive_close_on_handled_classes_witness :
    (send specHierarchy .little cancelledEnv (Hub.start [])).2 = .threw .CancelException
      ∧ (Hub.start []).closed + 1 ≤ (send specHierarchy .little cancelledEnv (Hub.start [])).1.closed :=
  ⟨by decide,
    (send_receive_close_on_handled_classes specHierarchy .little cancelledEnv (Hub.start [])
      .CancelException).1 (by decide) (by decide)⟩

/-! ## Theorems on mounting -/

/-- `isMounted` leaves the machine as it is. -/
theorem isMounted_machine (env : SysEnv) (m : Machine) (p : Partition) :
    (p.isMounted env m).1 = m := by
  unfold Partition.isMounted
  split
  · rfl
  · dsimp only
    split <;> rfl

/-- `isMounted` throws exactly when `/etc/mtab` cannot be opened. -/
theorem isMounted_returns (env : SysEnv) (hmtab : env.setmntent = true) (m : Machine)
    (p : Partition) : ∃ p1 b, p.isMounted env m = (m, p1, .returned b) := by
  unfold Partition.isMounted
  simp only [hmtab, Bool.not_true, Bool.false_eq_true, if_false]
  split
  · exact ⟨_, _, rfl⟩
  · exact ⟨_, _, rfl⟩

theorem isMounted_threw (env : SysEnv) (hmtab : env.setmntent = false) (m : Machine)
    (p : Partition) : p.isMounted env m = (m, p, .threw .FileNotFoundException) := by
  simp [Partition.isMounted, hmtab]

/-- `doMount` adds exactly one entry, `doMount`, to the log of calls. -/
theorem doMount_calls (env : SysEnv) (m : Machine) (p : Partition) :
    (p.doMount env m).1.calls = m.calls ++ [.doMount] := by
  unfold Partition.doMount
  by_cases hs : p._fs.mountSupport = true
  · simp only [hs, Bool.not_true, Bool.false_eq_true, if_false]
    by_cases hmtab : env.setmntent = true
    · obtain ⟨p1, b, hb⟩ := isMounted_returns env hmtab (m.log .doMount) p
      rw [hb]
      cases b with
      | true => rfl
      | false =>
        simp only [Partition.externalMount]
        by_cases hx : p1._fs.mountExternal = true
        · simp only [hx, if_true]
          cases env.mkdtemp with
          | none => rfl
          | some tmpDir =>
            simp only
            by_cases h0 : env.spawnExit < 0
            · simp only [h0, if_true]; split <;> rfl
            · simp only [h0, if_false, addMtabEntry]; split <;> rfl
        · simp only [hx, Bool.false_eq_true, if_false]
          cases env.mkdtemp with
          | none => rfl
          | some tmpDir =>
            simp only
            cases env.mount <;> rfl
    · simp only [Bool.not_eq_true] at hmtab
      rw [isMounted_threw env hmtab]
      rfl
  · simp only [Bool.not_eq_true] at hs
    simp [hs, Machine.log]

/-- A `doMount` that returns has opened `/etc/mtab`. -/
theorem doMount_returned_setmntent (env : SysEnv) (m m1 : Machine) (p p1 : Partition)
    (h : p.doMount env m = (m1, p1, .returned ())) : env.setmntent = true := by
  by_contra hmtab
  simp only [Bool.not_eq_true] at hmtab
  unfold Partition.doMount at h
  dsimp only at h
  rw [isMounted_threw env hmtab] at h
  split at h <;> simp at h

/-- `doUmount` adds exactly one entry, `doUmount`, to the log of calls, and returns when
`/etc/mtab` can be opened. -/
theorem doUmount_calls (env : SysEnv) (hmtab : env.setmntent = true) (m : Machine)
    (p : Partition) :
    ∃ m1 p1, p.doUmount env m = (m1, p1, .returned ()) ∧ m1.calls = m.calls ++ [.doUmount] := by
  unfold Partition.doUmount
  obtain ⟨p1, b, hb⟩ := isMounted_returns env hmtab (m.log .doUmount) p
  dsimp only
  rw [hb]
  dsimp only
  split
  · exact ⟨_, _, rfl, rfl⟩
  · refine ⟨_, _, rfl, ?_⟩
    simp only [updateMtab]
    split <;> split <;> rfl

theorem umountCalls_append (xs ys : List Call) :
    umountCalls (xs ++ ys) = umountCalls xs + umountCalls ys := by
  simp [umountCalls]

/-- What `read` does once `doMount` has returned: a normal end of `readDir`, or an exception
of a handled class, is followed by one call of `doUmount`; an exception of another class
leaves `read` at once. -/
theorem read_after_doMount (H : Hierarchy) (D : PartitionDecls) (env : SysEnv)
    (m m1 : Machine) (p p1 : Partition) (hw : p.isWritable D = true)
    (hm : p.doMount env m = (m1, p1, .returned ()))
    (hne : p1._fs.mountPoint.isEmpty = false) :
    (env.readDir (rootDirOf p1._fs.mountPoint) = none →
        ∃ m3 p3, p.read H D env m = (m3, p3, .returned ())
          ∧ m3.calls = m.calls ++ [.doMount, .readDir (rootDirOf p1._fs.mountPoint), .doUmount])
      ∧ (∀ c, env.readDir (rootDirOf p1._fs.mountPoint) = some c →
          caughtBy H [.CancelException, .ReadDataException, .SendDataException] c = true →
          ∃ m3 p3, p.read H D env m = (m3, p3, .threw c)
            ∧ m3.calls
              = m.calls ++ [.doMount, .readDir (rootDirOf p1._fs.mountPoint), .doUmount])
      ∧ (∀ c, env.readDir (rootDirOf p1._fs.mountPoint) = some c →
          caughtBy H [.CancelException, .ReadDataException, .SendDataException] c = false →
          p.read H D env m
              = (m1.log (.readDir (rootDirOf p1._fs.mountPoint)), p1, .threw c)
            ∧ (m1.log (.readDir (rootDirOf p1._fs.mountPoint))).calls
              = m.calls ++ [.doMount, .readDir (rootDirOf p1._fs.mountPoint)]) := by
  have hmtab := doMount_returned_setmntent env m m1 p p1 hm
  have hc1 : m1.calls = m.calls ++ [.doMount] := by
    have := doMount_calls env m p
    rw [hm] at this
    exact this
  obtain ⟨m3, p3, hu, hc3⟩ := doUmount_calls env hmtab
    (m1.log (.readDir (rootDirOf p1._fs.mountPoint))) p1
  have hc3' : m3.calls
      = m.calls ++ [.doMount, .readDir (rootDirOf p1._fs.mountPoint), .doUmount] := by
    rw [hc3]; simp [Machine.log, hc1]
  refine ⟨?_, ?_, ?_⟩
  · intro hd
    refine ⟨m3, p3, ?_, hc3'⟩
    simp only [Partition.read, hw, hm, hne, hd, hu, Bool.not_true, Bool.false_eq_true, if_false]
  · intro c hd hc
    refine ⟨m3, p3, ?_, hc3'⟩
    simp only [Partition.read, hw, hm, hne, hd, hc, hu, Bool.not_true, Bool.false_eq_true,
      if_false, if_true]
  · intro c hd hc
    refine ⟨?_, by simp [Machine.log, hc1]⟩
    simp only [Partition.read, hw, hm, hne, hd, hc, Bool.not_true, Bool.false_eq_true, if_false]

/-- What `write` does once `doMount` has returned: a normal end of `writeDir`, or an exception
of a handled class, is followed by one call of `doUmount`; an exception of another class
leaves `write` at once. -/
theorem write_after_doMount (H : Hierarchy) (D : PartitionDecls) (env : SysEnv)
    (m m1 : Machine) (p p1 : Partition) (hw : p.isWritable D = true)
    (hm : p.doMount env m = (m1, p1, .returned ()))
    (hne : p1._fs.mountPoint.isEmpty = false) :
    (env.writeDir (rootDirOf p1._fs.mountPoint) = none →
        ∃ m3 p3, p.write H D env m = (m3, p3, .returned ())
          ∧ m3.calls
            = m.calls ++ [.doMount, .writeDir (rootDirOf p1._fs.mountPoint), .doUmount])
      ∧ (∀ c, env.writeDir (rootDirOf p1._fs.mountPoint) = some c →
          caughtBy H [.CancelException, .WriteDataException, .ReceiveDataException] c = true →
          ∃ m3 p3, p.write H D env m = (m3, p3, .threw c)
            ∧ m3.calls
              = m.calls ++ [.doMount, .writeDir (rootDirOf p1._fs.mountPoint), .doUmount])
      ∧ (∀ c, env.writeDir (rootDirOf p1._fs.mountPoint) = some c →
          caughtBy H [.CancelException, .WriteDataException, .ReceiveDataException] c = false →
          p.write H D env m
              = (m1.log (.writeDir (rootDirOf p1._fs.mountPoint)), p1, .threw c)
            ∧ (m1.log (.writeDir (rootDirOf p1._fs.mountPoint))).calls
              = m.calls ++ [.doMount, .writeDir (rootDirOf p1._fs.mountPoint)]) := by
  have hmtab := doMount_returned_setmntent env m m1 p p1 hm
  have hc1 : m1.calls = m.calls ++ [.doMount] := by
    have := doMount_calls env m p
    rw [hm] at this
    exact this
  obtain ⟨m3, p3, hu, hc3⟩ := doUmount_calls env hmtab
    (m1.log (.writeDir (rootDirOf p1._fs.mountPoint))) p1
  have hc3' : m3.calls
      = m.calls ++ [.doMount, .writeDir (rootDirOf p1._fs.mountPoint), .doUmount] := by
    rw [hc3]; simp [Machine.log, hc1]
  refine ⟨?_, ?_, ?_⟩
  · intro hd
    refine ⟨m3, p3, ?_, hc3'⟩
    simp only [Partition.write, hw, hm, hne, hd, hu, Bool.not_true, Bool.false_eq_true, if_false]
  · intro c hd hc
    refine ⟨m3, p3, ?_, hc3'⟩
    simp only [Partition.write, hw, hm, hne, hd, hc, hu, Bool.not_true, Bool.false_eq_true,
      if_false, if_true]
  · intro c hd hc
    refine ⟨?_, by simp [Machine.log, hc1]⟩
    simp only [Partition.write, hw, hm, hne, hd, hc, Bool.not_true, Bool.false_eq_true, if_false]

theorem examplePartition_isWritable : examplePartition.isWritable exampleDecls = true := by
  have hz : f64EqZero examplePartition._usedPart = false := by
    norm_num [f64EqZero, f64Decode, examplePartition]
  simp only [Partition.isWritable, hz]
  decide

theorem unmountedOnce_of_calls (m : Machine) (r : Machine × Partition × Outcome Unit)
    (dir : String) (call : String → Call) (hcall : call dir ≠ .doUmount) (o : Outcome Unit)
    (ho : r.2.2 = o) (hc : r.1.calls = m.calls ++ [.doMount, call dir, .doUmount]) :
    UnmountedOnce m r (call dir) o := by
  refine ⟨ho, hc, ?_⟩
  rw [hc, umountCalls_append]
  simp [umountCalls, List.count_cons, hcall]

theorem leftMounted_of_calls (m : Machine) (r : Machine × Partition × Outcome Unit)
    (dir : String) (call : String → Call) (hcall : call dir ≠ .doUmount) (c : ExcClass)
    (ho : r.2.2 = .threw c) (hc : r.1.calls = m.calls ++ [.doMount, call dir]) :
    LeftMounted m r (call dir) c := by
  refine ⟨ho, hc, ?_⟩
  rw [hc, umountCalls_append]
  simp [umountCalls, List.count_cons, hcall]

/-- The example partition is mounted on the scratch directory by `doMount`, whatever the
driver does afterwards. -/
theorem examplePartition_doMount_fileError :
    examplePartition.doMount fileErrorEnv emptyMachine
      = (mountedMachine, mountedPartition, .returned ()) := by
  decide

/-- C6 (the claim fails on the code): when the driver's `readDir` ends with a
`FileNotFoundException`, `read` throws it on without calling `doUmount`, and the scratch
mount that `doMount` created is still in place; the same holds for `write` and `writeDir`. -/
theorem read_write_unhandled_exception_without_doUmount :
    examplePartition.read specHierarchy exampleDecls fileErrorEnv emptyMachine
        = (mountedMachine.log (.readDir "/tmp/doclone-x1/"), mountedPartition,
            .threw .FileNotFoundException)
      ∧ umountCalls (mountedMachine.log (.readDir "/tmp/doclone-x1/")).calls = 0
      ∧ (mountedMachine.log (.readDir "/tmp/doclone-x1/")).mtab
          = [⟨"/dev/sdb1", "/tmp/doclone-x1"⟩]
      ∧ examplePartition.write specHierarchy exampleDecls fileErrorEnv emptyMachine
        = (mountedMachine.log (.writeDir "/tmp/doclone-x1/"), mountedPartition,
            .threw .FileNotFoundException)
      ∧ umountCalls (mountedMachine.log (.writeDir "/tmp/doclone-x1/")).calls = 0 := by
  have hr := (read_after_doMount specHierarchy exampleDecls fileErrorEnv emptyMachine
    mountedMachine examplePartition mountedPartition examplePartition_isWritable
    examplePartition_doMount_fileError (by decide)).2.2 .FileNotFoundException rfl (by decide)
  have hw := (write_after_doMount specHierarchy exampleDecls fileErrorEnv emptyMachine
    mountedMachine examplePartition mountedPartition examplePartition_isWritable
    examplePartition_doMount_fileError (by decide)).2.2 .FileNotFoundException rfl (by decide)
  exact ⟨hr.1, by decide, by decide, hw.1, by decide⟩

/-- C6 (amended): once `doMount` has returned in `read`, `doUmount` is called exactly once,
after the driver's `readDir` and before `read` is left, when `readDir` returns and when it
ends with an exception of class `CancelException`, `ReadDataException` or
`SendDataException`, which is thrown on after the unmount; an exception of any other class
leaves `read` without a call of `doUmount`. The same holds for `write`, `writeDir` and the
classes `CancelException`, `WriteDataException` and `ReceiveDataException`. -/
theorem read_write_doUmount_once_on_handled_classes (H : Hierarchy) (D : PartitionDecls)
    (env : SysEnv) (m m1 : Machine) (p p1 : Partition) (hw : p.isWritable D = true)
    (hm : p.doMount env m = (m1, p1, .returned ()))
    (hne : p1._fs.mountPoint.isEmpty = false) :
    (env.readDir (rootDirOf p1._fs.mountPoint) = none →
        UnmountedOnce m (p.read H D env m) (.readDir (rootDirOf p1._fs.mountPoint))
          (.returned ()))
      ∧ (∀ c, env.readDir (rootDirOf p1._fs.mountPoint) = some c →
          caughtBy H [.CancelException, .ReadDataException, .SendDataException] c = true →
          UnmountedOnce m (p.read H D env m) (.readDir (rootDirOf p1._fs.mountPoint)) (.threw c))
      ∧ (∀ c, env.readDir (rootDirOf p1._fs.mountPoint) = some c →
          caughtBy H [.CancelException, .ReadDataException, .SendDataException] c = false →
          LeftMounted m (p.read H D env m) (.readDir (rootDirOf p1._fs.mountPoint)) c)
      ∧ (env.writeDir (rootDirOf p1._fs.mountPoint) = none →
        UnmountedOnce m (p.write H D env m) (.writeDir (rootDirOf p1._fs.mountPoint))
          (.returned ()))
      ∧ (∀ c, env.writeDir (rootDirOf p1._fs.mountPoint) = some c →
          caughtBy H [.CancelException, .WriteDataException, .ReceiveDataException] c = true →
          UnmountedOnce m (p.write H D env m) (.writeDir (rootDirOf p1._fs.mountPoint))
            (.threw c))
      ∧ (∀ c, env.writeDir (rootDirOf p1._fs.mountPoint) = some c →
          caughtBy H [.CancelException, .WriteDataException, .ReceiveDataException] c = false →
          LeftMounted m (p.write H D env m) (.writeDir (rootDirOf p1._fs.mountPoint)) c) := by
  obtain ⟨r1, r2, r3⟩ := read_after_doMount H D env m m1 p p1 hw hm hne
  obtain ⟨w1, w2, w3⟩ := write_after_doMount H D env m m1 p p1 hw hm hne
  refine ⟨?_, ?_, ?_, ?_, ?_, ?_⟩
  · intro hd
    obtain ⟨m3, p3, he, hc⟩ := r1 hd
    exact unmountedOnce_of_calls m _ _ .readDir (by simp) _ (by rw [he]) (by rw [he]; exact hc)
  · intro c hd hcaught
    obtain ⟨m3, p3, he, hc⟩ := r2 c hd hcaught
    exact unmountedOnce_of_calls m _ _ .readDir (by simp) _ (by rw [he]) (by rw [he]; exact hc)
  · intro c hd hcaught
    obtain ⟨he, hc⟩ := r3 c hd hcaught
    exact leftMounted_of_calls m _ _ .readDir (by simp) _ (by rw [he]) (by rw [he]; exact hc)
  · intro hd
    obtain ⟨m3, p3, he, hc⟩ := w1 hd
    exact unmountedOnce_of_calls m _ _ .writeDir (by simp) _ (by rw [he]) (by rw [he]; exact hc)
  · intro c hd hcaught
    obtain ⟨m3, p3, he, hc⟩ := w2 c hd hcaught
    exact unmountedOnce_of_calls m _ _ .writeDir (by simp) _ (by rw [he]) (by rw [he]; exact hc)
  · intro c hd hcaught
    obtain ⟨he, hc⟩ := w3 c hd hcaught
    exact leftMounted_of_calls m _ _ .writeDir (by simp) _ (by rw [he]) (by rw [he]; exact hc)

theorem examplePartition_doMount_cancel :
    examplePartition.doMount cancelEnv emptyMachine
      = (mountedMachine, mountedPartition, .returned ()) := by
  decide

theorem read_write_doUmount_once_on_handled_classes_witness :
    UnmountedOnce emptyMachine
      (examplePartition.read specHierarchy exampleDecls cancelEnv emptyMachine)
      (.readDir (rootDirOf mountedPartition._fs.mountPoint)) (.threw .CancelException) :=
  (read_write_doUmount_once_on_handled_classes specHierarchy exampleDecls cancelEnv emptyMachine
    mountedMachine examplePartition mountedPartition examplePartition_isWritable
    examplePartition_doMount_cancel (by decide)).2.1 .CancelException rfl (by decide)

/-- C7 (the code departs from the claim when `statvfs` fails): the `FileNotFoundException`
that `usedSpace` throws inside its `try` block is not a `CancelException`, the only class
the block has a handler for, so it leaves `usedSpace` without a call of `doUmount`: the
machine is the one `doMount` left, with the scratch mount and its entry in the mount table
still there. -/
theorem usedSpace_statvfs_failure_leaves_mount (H : Hierarchy) (env : SysEnv) (m m1 : Machine)
    (p p1 : Partition) (hH : catches H .FileNotFoundException .CancelException = false)
    (hm : p.doMount env m = (m1, p1, .returned ()))
    (hs : env.statvfs p1._fs.mountPoint = none) :
    p.usedSpace H env m
        = (m1.log (.statvfs p1._fs.mountPoint), p1, .threw .FileNotFoundException)
      ∧ (p.usedSpace H env m).1.mtab = m1.mtab
      ∧ (p.usedSpace H env m).1.mounts = m1.mounts
      ∧ umountCalls (p.usedSpace H env m).1.calls = umountCalls m.calls := by
  have hu : p.usedSpace H env m
      = (m1.log (.statvfs p1._fs.mountPoint), p1, .threw .FileNotFoundException) := by
    simp only [Partition.usedSpace, hm, hs, hH, Bool.false_eq_true, if_false]
  have hc1 : m1.calls = m.calls ++ [.doMount] := by
    have := doMount_calls env m p
    rw [hm] at this
    exact this
  refine ⟨hu, by rw [hu]; rfl, by rw [hu]; rfl, ?_⟩
  rw [hu]
  simp [Machine.log, hc1, umountCalls, List.count_cons]

theorem usedSpace_statvfs_failure_leaves_mount_witness :
    (examplePartition.usedSpace specHierarchy statvfsFailureEnv emptyMachine).2.2
        = .threw .FileNotFoundException
      ∧ (examplePartition.usedSpace specHierarchy statvfsFailureEnv emptyMachine).1.mtab
        = [⟨"/dev/sdb1", "/tmp/doclone-x1"⟩]
      ∧ (examplePartition.usedSpace specHierarchy statvfsFailureEnv emptyMachine).1.mounts
        = ["/tmp/doclone-x1"] :=
  have h := usedSpace_statvfs_failure_leaves_mount specHierarchy statvfsFailureEnv emptyMachine
    mountedMachine examplePartition mountedPartition (by decide) (by decide) rfl
  ⟨by rw [h.1], h.2.1, h.2.2.1⟩

/-! ## Theorems on the partition flags -/

theorem toInt32_ne_zero (v : Nat) (hv : v < 2 ^ 32) : toInt32 v ≠ 0 ↔ v ≠ 0 := by
  unfold toInt32
  rw [Nat.mod_eq_of_lt hv]
  split <;> omega

theorem setIfAvailable_flagAvailable (pPart : PedPartition) (flag : PedPartitionFlag)
    (f : Nat) : (setIfAvailable pPart flag f).flagAvailable = pPart.flagAvailable := by
  unfold setIfAvailable ped_partition_set_flag
  split <;> rfl

theorem writeFlagList_flagAvailable (F : PedPartitionFlag → Nat) (flags : Nat)
    (fs : List PedPartitionFlag) : ∀ pPart : PedPartition,
    (writeFlagList F flags fs pPart).flagAvailable = pPart.flagAvailable := by
  induction fs with
  | nil => intro pPart; rfl
  | cons f fs ih =>
    intro pPart
    rw [writeFlagList, ih, setIfAvailable_flagAvailable]

/-- The calls of `ped_partition_set_flag` that the statements make: one for each available
flag, in order, with the masked value of the flags. -/
theorem writeFlagList_setCalls (F : PedPartitionFlag → Nat) (flags : Nat)
    (fs : List PedPartitionFlag) : ∀ pPart : PedPartition,
    (writeFlagList F flags fs pPart).setCalls
      = pPart.setCalls
        ++ (fs.filter pPart.flagAvailable).map (fun f => (f, toInt32 (flags &&& F f))) := by
  induction fs with
  | nil => intro pPart; simp [writeFlagList]
  | cons f fs ih =>
    intro pPart
    rw [writeFlagList, ih, setIfAvailable_flagAvailable]
    by_cases hf : pPart.flagAvailable f = true
    · simp [setIfAvailable, ped_partition_set_flag, hf, List.filter_cons]
    · simp [setIfAvailable, hf, List.filter_cons]

/-- The state of a flag after the statements for a list of flags without repetition. -/
theorem writeFlagList_flagState (F : PedPartitionFlag → Nat) (flags : Nat)
    (g : PedPartitionFlag) (fs : List PedPartitionFlag) (hnd : fs.Nodup) :
    ∀ pPart : PedPartition,
    (writeFlagList F flags fs pPart).flagState g
      = if g ∈ fs ∧ pPart.flagAvailable g = true then decide (toInt32 (flags &&& F g) ≠ 0)
        else pPart.flagState g := by
  induction fs with
  | nil => intro pPart; simp [writeFlagList]
  | cons f fs ih =>
    intro pPart
    have hnf : f ∉ fs := (List.nodup_cons.1 hnd).1
    rw [writeFlagList, ih (List.nodup_cons.1 hnd).2, setIfAvailable_flagAvailable]
    by_cases hgf : g = f
    · subst hgf
      by_cases ha : pPart.flagAvailable g = true
      · simp [hnf, ha, setIfAvailable, ped_partition_set_flag]
      · simp [hnf, ha, setIfAvailable]
    · have hfg : ¬ f = g := fun h => hgf h.symm
      by_cases hmem : g ∈ fs
      · by_cases ha : pPart.flagAvailable g = true
        · simp [hmem, ha]
        · by_cases haf : pPart.flagAvailable f = true
          · simp [hmem, ha, hgf, haf, setIfAvailable, ped_partition_set_flag]
          · simp [hmem, ha, hgf, haf, setIfAvailable]
      · by_cases haf : pPart.flagAvailable f = true
        · simp [hmem, hgf, haf, setIfAvailable, ped_partition_set_flag]
        · simp [hmem, hgf, haf, setIfAvailable]

theorem writeFlags_eq_list (F : PedPartitionFlag → Nat) (p : Partition) (pPart : PedPartition) :
    p.writeFlags F pPart = writeFlagList F p._flags flagOrder pPart :=
  rfl

theorem flagOrder_complete (g : PedPartitionFlag) : g ∈ flagOrder := by
  cases g <;> decide

/-- C12: `writeFlags` leaves out a flag only when the partition library reports it
unavailable. For each flag: when the library reports it available, its state in the library
after `writeFlags` is the bit of the descriptor (`_flags & F_...` not 0: set, 0: cleared);
when the library reports it unavailable, it keeps its state and no call of
`ped_partition_set_flag` names it. The calls made are those for the available flags, in the
order of the source. -/
theorem writeFlags_sets_available_flags (F : PedPartitionFlag → Nat)
    (hF : ∀ f, F f < 2 ^ 32) (p : Partition) (pPart : PedPartition) (flag : PedPartitionFlag) :
    (pPart.flagAvailable flag = true →
        (p.writeFlags F pPart).flagState flag = decide (p._flags &&& F flag ≠ 0))
      ∧ (pPart.flagAvailable flag = false →
        (p.writeFlags F pPart).flagState flag = pPart.flagState flag
          ∧ ∀ call ∈ (p.writeFlags F pPart).setCalls, call ∈ pPart.setCalls ∨ call.1 ≠ flag)
      ∧ (p.writeFlags F pPart).setCalls
        = pPart.setCalls
          ++ (flagOrder.filter pPart.flagAvailable).map
              (fun f => (f, toInt32 (p._flags &&& F f))) := by
  have hstate := writeFlagList_flagState F p._flags flag flagOrder (by decide) pPart
  have hcalls := writeFlagList_setCalls F p._flags flagOrder pPart
  rw [writeFlags_eq_list]
  refine ⟨?_, ?_, hcalls⟩
  · intro ha
    rw [hstate]
    simp only [flagOrder_complete, ha, and_self, if_true]
    have hlt : p._flags &&& F flag < 2 ^ 32 := Nat.lt_of_le_of_lt Nat.and_le_right (hF flag)
    have := toInt32_ne_zero _ hlt
    simp only [decide_eq_decide]
    exact this
  · intro ha
    refine ⟨?_, ?_⟩
    · rw [hstate]
      simp [ha]
    · intro call hcall
      rw [hcalls, List.mem_append] at hcall
      rcases hcall with h | h
      · exact Or.inl h
      · right
        simp only [List.mem_map, List.mem_filter] at h
        obtain ⟨f, ⟨_, hfa⟩, rfl⟩ := h
        intro hff
        simp only at hff
        rw [hff, ha] at hfa
        exact absurd hfa (by simp)

theorem writeFlags_sets_available_flags_witness :
    (∀ f, exampleF f < 2 ^ 32)
      ∧ ({ examplePartition with _flags := 0x60 }.writeFlags exampleF
            examplePedPartition).flagState .BOOT
          = decide (0x60 &&& exampleF .BOOT ≠ 0) :=
  ⟨fun f => by cases f <;> decide,
    (writeFlags_sets_available_flags exampleF (fun f => by cases f <;> decide)
      { examplePartition with _flags := 0x60 } examplePedPartition .BOOT).1 rfl⟩

/-- The attributes of a partition that the decoding constructor returns. -/
theorem ofPartInfo_returned (createFilesystem : List Nat → Except ExcClass Filesystem)
    (mem : Beyond) (d : partInfo) (q : Partition)
    (h : Partition.ofPartInfo createFilesystem mem d = .returned q) :
    q._type = d.type ∧ q._minSize = d.min_size ∧ q._startPos = d.start_pos
      ∧ q._usedPart = d.used_part ∧ q._flags = d.flags
      ∧ q._label = cstr (d.label ++ mem.label) ∧ q._uuid = cstr (d.uuid ++ mem.uuid)
      ∧ q._partition = d
      ∧ f64GtOne d.start_pos = false ∧ f64GtOne d.used_part = false := by
  unfold Partition.ofPartInfo at h
  dsimp only at h
  split at h
  · exact absurd h (by simp)
  · split at h
    · exact absurd h (by simp)
    · split at h
      · exact absurd h (by simp)
      · rename_i g1 g2
        injection h with h
        subst h
        simp only [Bool.not_eq_true] at g1 g2
        exact ⟨rfl, rfl, rfl, rfl, rfl, rfl, rfl, rfl, g1, g2⟩

/-- C11: the flags are kept verbatim. For every bit pattern in the field `flags` of a
descriptor, bits outside the 14 known flags included, the partition that the decoding
constructor builds holds exactly this pattern, and `createPartInfo` writes the bitset of a
partition back unchanged. -/
theorem flags_preserved_verbatim (D : PartitionDecls)
    (createFilesystem : List Nat → Except ExcClass Filesystem) (mem : Beyond) (d : partInfo)
    (hd : d.flags < 2 ^ D.flagBits) :
    (∀ q, Partition.ofPartInfo createFilesystem mem d = .returned q →
        q._flags = d.flags ∧ (q.createPartInfo D)._partition.flags = d.flags)
      ∧ (∀ p : Partition, p._flags < 2 ^ D.flagBits →
          (p.createPartInfo D)._partition.flags = p._flags) := by
  constructor
  · intro q hq
    have hf := (ofPartInfo_returned createFilesystem mem d q hq).2.2.2.2.1
    refine ⟨hf, ?_⟩
    simp only [Partition.createPartInfo, hf]
    exact Nat.mod_eq_of_lt hd
  · intro p hp
    simp only [Partition.createPartInfo]
    exact Nat.mod_eq_of_lt hp

/-- The example factory does not know the tag of `unknownTagInfo`, and the fractions of
the descriptor pass the tests of the constructor. -/
theorem unknownTagInfo_facts :
    exampleFactory (cstr (unknownTagInfo.fsName ++ noBeyond.fsName)) = .error .Exception
      ∧ f64GtOne unknownTagInfo.start_pos = false
      ∧ f64GtOne unknownTagInfo.used_part = false := by
  refine ⟨rfl, ?_, ?_⟩
  · norm_num [f64GtOne, f64Decode, unknownTagInfo]
  · norm_num [f64GtOne, f64Decode, unknownTagInfo]

/-- The partition that the decoding constructor builds from `unknownTagInfo`. -/
theorem unknownTagInfo_decoded :
    ∃ q, Partition.ofPartInfo exampleFactory noBeyond unknownTagInfo = .returned q := by
  obtain ⟨hf, g1, g2⟩ := unknownTagInfo_facts
  have hn : exampleFactory nofsName = .ok nofsDriver := rfl
  simp only [Partition.ofPartInfo, hf, hn, g1, g2, Bool.false_eq_true, if_false]
  exact ⟨_, rfl⟩

theorem flags_preserved_verbatim_witness :
    unknownTagInfo.flags < 2 ^ exampleDecls.flagBits
      ∧ ∃ q, Partition.ofPartInfo exampleFactory noBeyond unknownTagInfo = .returned q
          ∧ q._flags = 0xC001 ∧ (q.createPartInfo exampleDecls)._partition.flags = 0xC001 := by
  refine ⟨by decide, ?_⟩
  obtain ⟨q, hq⟩ := unknownTagInfo_decoded
  have h := (flags_preserved_verbatim exampleDecls exampleFactory noBeyond unknownTagInfo
    (by decide)).1 q hq
  exact ⟨q, hq, h.1, h.2⟩

/-- C20: the fallback to `nofs`. When the factory does not recognise the tag of a descriptor
(and has the driver `nofs`), the decoding constructor does not fail because of the tag: it
goes on with the driver `nofs`, so that it fails only on a fraction above 1, with
`InvalidImageException`, and otherwise returns the partition with the driver `nofs` and all
the other fields decoded. -/
theorem ofPartInfo_nofs_fallback (createFilesystem : List Nat → Except ExcClass Filesystem)
    (nofs : Filesystem) (hnofs : createFilesystem nofsName = .ok nofs) (mem : Beyond)
    (d : partInfo) (c : ExcClass)
    (htag : createFilesystem (cstr (d.fsName ++ mem.fsName)) = .error c) :
    (f64GtOne d.start_pos = false → f64GtOne d.used_part = false →
        ∃ q, Partition.ofPartInfo createFilesystem mem d = .returned q
          ∧ q._fs = { nofs with label := cstr (d.label ++ mem.label),
                                uuid := cstr (d.uuid ++ mem.uuid) }
          ∧ q._type = d.type ∧ q._minSize = d.min_size ∧ q._startPos = d.start_pos
          ∧ q._usedPart = d.used_part ∧ q._flags = d.flags
          ∧ q._label = cstr (d.label ++ mem.label) ∧ q._uuid = cstr (d.uuid ++ mem.uuid))
      ∧ (f64GtOne d.start_pos = true ∨ f64GtOne d.used_part = true →
          Partition.ofPartInfo createFilesystem mem d = .threw .InvalidImageException)
      ∧ Partition.ofPartInfo createFilesystem mem d
          = Partition.ofPartInfo (fun _ => .ok nofs) mem d := by
  refine ⟨?_, ?_, ?_⟩
  · intro g1 g2
    simp only [Partition.ofPartInfo, htag, hnofs, g1, g2, Bool.false_eq_true, if_false]
    exact ⟨_, rfl, rfl, rfl, rfl, rfl, rfl, rfl, rfl, rfl⟩
  · intro h
    simp only [Partition.ofPartInfo, htag, hnofs]
    rcases h with h | h
    · simp [h]
    · by_cases g1 : f64GtOne d.start_pos = true
      · simp [g1]
      · simp [g1, h]
  · simp only [Partition.ofPartInfo, htag, hnofs]

theorem ofPartInfo_nofs_fallback_witness :
    ∃ q, Partition.ofPartInfo exampleFactory noBeyond unknownTagInfo = .returned q
      ∧ q._fs = { nofsDriver with label := cstr (unknownTagInfo.label ++ noBeyond.label),
                                  uuid := cstr (unknownTagInfo.uuid ++ noBeyond.uuid) } := by
  obtain ⟨q, hq, hfs, _⟩ := (ofPartInfo_nofs_fallback exampleFactory nofsDriver rfl noBeyond
    unknownTagInfo .Exception unknownTagInfo_facts.1).1 unknownTagInfo_facts.2.1
    unknownTagInfo_facts.2.2
  exact ⟨q, hq, hfs⟩

/-! ## Theorems on the partitions without data -/

/-- C15: an extended partition, and a partition whose filesystem type is none, has no
payload: `isWritable` is false, and `read` and `write` return at once, leaving the machine
as it was: nothing is mounted, no call of `doMount` and no call of the driver's `readDir` or
`writeDir` is made. -/
theorem extended_or_nofs_no_payload (H : Hierarchy) (D : PartitionDecls) (env : SysEnv)
    (m : Machine) (p : Partition)
    (h : p._type = D.PARTITION_EXTENDED ∨ p._fs.typeIsNone = true) :
    p.isWritable D = false
      ∧ p.read H D env m = (m, p, .returned ())
      ∧ p.write H D env m = (m, p, .returned ()) := by
  have hw : p.isWritable D = false := by
    unfold Partition.isWritable
    rcases h with h | h
    · simp [h]
    · simp [h]
  refine ⟨hw, ?_, ?_⟩
  · simp [Partition.read, hw]
  · simp [Partition.write, hw]

theorem extended_or_nofs_no_payload_witness :
    extendedPartition.isWritable exampleDecls = false
      ∧ extendedPartition.read specHierarchy exampleDecls quietEnv emptyMachine
          = (emptyMachine, extendedPartition, .returned ()) :=
  have h := extended_or_nofs_no_payload specHierarchy exampleDecls quietEnv emptyMachine
    extendedPartition (Or.inl rfl)
  ⟨h.1, h.2.1⟩

/-! ## Theorems on the initialisers -/

theorem examplePartition_doMount_quiet :
    examplePartition.doMount quietEnv emptyMachine
      = (mountedMachine, mountedPartition, .returned ()) := by
  decide

/-- What `usedSpace` returns once `doMount` has returned and `statvfs` has succeeded. -/
theorem usedSpace_returns (H : Hierarchy) (env : SysEnv) (m m1 : Machine) (p p1 : Partition)
    (info : StatVfs) (hm : p.doMount env m = (m1, p1, .returned ()))
    (hs : env.statvfs p1._fs.mountPoint = some info) :
    ∃ m3 p3, p.usedSpace H env m
        = (m3, p3, .returned ((info.f_blocks + 2 ^ 64 - info.f_bfree % 2 ^ 64) % 2 ^ 64
            * info.f_bsize % 2 ^ 64))
      ∧ p1.doUmount env (m1.log (.statvfs p1._fs.mountPoint)) = (m3, p3, .returned ()) := by
  have hmtab := doMount_returned_setmntent env m m1 p p1 hm
  obtain ⟨m3, p3, hu, _⟩ := doUmount_calls env hmtab (m1.log (.statvfs p1._fs.mountPoint)) p1
  refine ⟨m3, p3, ?_, hu⟩
  simp only [Partition.usedSpace, hm, hs, hu]

/-- The arithmetic of `initMinSize`: it sets `_minSize` to 0 and leaves the machine as it was
(nothing is mounted) when the partition is extended or its filesystem type is none;
otherwise, when `doMount` returns and `statvfs` succeeds on the mount point, it sets
`_minSize` to the value of `usedSpace`, the used blocks `f_blocks - f_bfree` times `f_bsize`,
both operations modulo `2 ^ 64`. -/
theorem initMinSize_value (H : Hierarchy) (D : PartitionDecls) (env : SysEnv) (m : Machine)
    (p : Partition) :
    (p._type = D.PARTITION_EXTENDED ∨ p._fs.typeIsNone = true →
        p.initMinSize H D env m = (m, { p with _minSize := 0 }, .returned ()))
      ∧ (∀ (m1 : Machine) (p1 : Partition) (info : StatVfs),
          p._type ≠ D.PARTITION_EXTENDED → p._fs.typeIsNone = false →
          p.doMount env m = (m1, p1, .returned ()) →
          env.statvfs p1._fs.mountPoint = some info →
          ∃ m3 p3, p.initMinSize H D env m = (m3, p3, .returned ())
            ∧ p3._minSize
              = (info.f_blocks + 2 ^ 64 - info.f_bfree % 2 ^ 64) % 2 ^ 64 * info.f_bsize
                % 2 ^ 64
            ∧ (info.f_bfree ≤ info.f_blocks → info.f_blocks < 2 ^ 64 →
                p3._minSize = (info.f_blocks - info.f_bfree) * info.f_bsize % 2 ^ 64)) := by
  constructor
  · intro h
    unfold Partition.initMinSize
    rcases h with h | h
    · simp [h]
    · simp [h]
  · intro m1 p1 info ht hn hm hs
    obtain ⟨m3, p3, hu, _⟩ := usedSpace_returns H env m m1 p p1 info hm hs
    refine ⟨m3, { p3 with _minSize := _ }, ?_, rfl, ?_⟩
    · simp only [Partition.initMinSize, ht, hn, hu, decide_False, Bool.or_self,
        Bool.false_eq_true, if_false]
    · intro hle hlt
      have : (info.f_blocks + 2 ^ 64 - info.f_bfree % 2 ^ 64) % 2 ^ 64
          = info.f_blocks - info.f_bfree := by
        omega
      simp only [this]

theorem initMinSize_value_witness :
    ∃ m3 p3, examplePartition.initMinSize specHierarchy exampleDecls quietEnv emptyMachine
        = (m3, p3, .returned ())
      ∧ p3._minSize = (1000 - 400) * 4096 % 2 ^ 64 := by
  obtain ⟨m3, p3, h, _, hv⟩ := (initMinSize_value specHierarchy exampleDecls quietEnv emptyMachine
    examplePartition).2 mountedMachine mountedPartition ⟨1000, 400, 4096⟩ (by decide) rfl
    examplePartition_doMount_quiet rfl
  exact ⟨m3, p3, h, hv (by decide) (by decide)⟩

/-- A pattern is nearest to its own value. -/
theorem f64Nearest_exact (bits : Nat) (q : ℚ) (h : f64Decode bits = .finite q) :
    f64Nearest bits q :=
  ⟨q, h, fun b y _ => by simp⟩

/-- A pattern nearest to a value that some `double` has, has this value. -/
theorem f64Nearest_representable (bits b : Nat) (q : ℚ) (hn : f64Nearest bits q)
    (hb : f64Decode b = .finite q) : f64Decode bits = .finite q := by
  obtain ⟨x, hx, hmin⟩ := hn
  have h0 := hmin b q hb
  simp only [sub_self, abs_zero] at h0
  have hxq : x = q := by
    have := abs_nonpos_iff.1 h0
    linarith
  rw [hx, hxq]

theorem f64Decode_examples :
    f64Decode 0x40A0000000000000 = .finite 2048
      ∧ f64Decode 0x4120000000000000 = .finite 524288
      ∧ f64Decode 0x4130000000000000 = .finite 1048576
      ∧ f64Decode 0x3F60000000000000 = .finite (1 / 512)
      ∧ f64Decode 0x3FE0000000000000 = .finite (1 / 2) := by
  refine ⟨?_, ?_, ?_, ?_, ?_⟩ <;> norm_num [f64Decode]

/-- C14: the position fractions. `initStartPos` sets `_startPos` to the `double` quotient of
the start sector `s` and the disk length `L`, both converted to `double`, and `initUsedPart`
sets `_usedPart` to that of the length `l` and `L`. With conversions and divisions rounded to
nearest, the value stored is `s / L` (`l / L`) itself whenever `s`, `L` and `s / L` are values
of `double`; for `s = 2048`, `l = 524288`, `L = 1048576` the values stored are exactly
`1 / 512 = 0.001953125` and `1 / 2 = 0.5`. -/
theorem position_fractions (fpu : Fpu) (pPart : PedPartition) (L : Int) (p : Partition)
    (hL : f64Nearest (fpu.ofInt64 L) L)
    (hs : f64Nearest (fpu.ofInt64 pPart.geom_start) pPart.geom_start)
    (hl : f64Nearest (fpu.ofInt64 pPart.geom_length) pPart.geom_length)
    (hds : ∀ x y, f64Decode (fpu.ofInt64 pPart.geom_start) = .finite x →
      f64Decode (fpu.ofInt64 L) = .finite y →
      f64Nearest (fpu.div (fpu.ofInt64 pPart.geom_start) (fpu.ofInt64 L)) (x / y))
    (hdl : ∀ x y, f64Decode (fpu.ofInt64 pPart.geom_length) = .finite x →
      f64Decode (fpu.ofInt64 L) = .finite y →
      f64Nearest (fpu.div (fpu.ofInt64 pPart.geom_length) (fpu.ofInt64 L)) (x / y)) :
    (p.initStartPos fpu pPart L)._startPos
        = fpu.div (fpu.ofInt64 pPart.geom_start) (fpu.ofInt64 L)
      ∧ (p.initUsedPart fpu pPart L)._usedPart
        = fpu.div (fpu.ofInt64 pPart.geom_length) (fpu.ofInt64 L)
      ∧ (∀ bs bL bq, f64Decode bs = .finite pPart.geom_start → f64Decode bL = .finite L →
          f64Decode bq = .finite ((pPart.geom_start : ℚ) / L) →
          f64Decode (p.initStartPos fpu pPart L)._startPos
            = .finite ((pPart.geom_start : ℚ) / L))
      ∧ (∀ bl bL bq, f64Decode bl = .finite pPart.geom_length → f64Decode bL = .finite L →
          f64Decode bq = .finite ((pPart.geom_length : ℚ) / L) →
          f64Decode (p.initUsedPart fpu pPart L)._usedPart
            = .finite ((pPart.geom_length : ℚ) / L))
      ∧ (pPart.geom_start = 2048 → pPart.geom_length = 524288 → L = 1048576 →
          f64Decode (p.initStartPos fpu pPart L)._startPos = .finite (1 / 512)
            ∧ f64Decode (p.initUsedPart fpu pPart L)._usedPart = .finite (1 / 2)) := by
  have exactS : ∀ bs bL bq, f64Decode bs = .finite pPart.geom_start →
      f64Decode bL = .finite L → f64Decode bq = .finite ((pPart.geom_start : ℚ) / L) →
      f64Decode (fpu.div (fpu.ofInt64 pPart.geom_start) (fpu.ofInt64 L))
        = .finite ((pPart.geom_start : ℚ) / L) := by
    intro bs bL bq h1 h2 h3
    have c1 := f64Nearest_representable _ bs _ hs h1
    have c2 := f64Nearest_representable _ bL _ hL h2
    exact f64Nearest_representable _ bq _ (hds _ _ c1 c2) h3
  have exactL : ∀ bl bL bq, f64Decode bl = .finite pPart.geom_length →
      f64Decode bL = .finite L → f64Decode bq = .finite ((pPart.geom_length : ℚ) / L) →
      f64Decode (fpu.div (fpu.ofInt64 pPart.geom_length) (fpu.ofInt64 L))
        = .finite ((pPart.geom_length : ℚ) / L) := by
    intro bl bL bq h1 h2 h3
    have c1 := f64Nearest_representable _ bl _ hl h1
    have c2 := f64Nearest_representable _ bL _ hL h2
    exact f64Nearest_representable _ bq _ (hdl _ _ c1 c2) h3
  refine ⟨rfl, rfl, exactS, exactL, ?_⟩
  intro e1 e2 e3
  obtain ⟨d1, d2, d3, d4, d5⟩ := f64Decode_examples
  constructor
  · have := exactS 0x40A0000000000000 0x4130000000000000 0x3F60000000000000
      (by rw [d1, e1]; norm_num) (by rw [d3, e3]; norm_num)
      (by rw [d4, e1, e3]; norm_num)
    simp only [Partition.initStartPos]
    rw [this, e1, e3]
    norm_num
  · have := exactL 0x4120000000000000 0x4130000000000000 0x3FE0000000000000
      (by rw [d2, e2]; norm_num) (by rw [d3, e3]; norm_num)
      (by rw [d5, e2, e3]; norm_num)
    simp only [Partition.initUsedPart]
    rw [this, e2, e3]
    norm_num

theorem position_fractions_witness :
    f64Decode (examplePartition.initStartPos exampleFpu examplePedPartition 1048576)._startPos
        = .finite (1 / 512)
      ∧ f64Decode (examplePartition.initUsedPart exampleFpu examplePedPartition 1048576)._usedPart
        = .finite (1 / 2) :=
  (position_fractions exampleFpu examplePedPartition 1048576 examplePartition
    (f64Nearest_exact _ _ (by rw [show exampleFpu.ofInt64 1048576 = 0x4130000000000000 from rfl,
      f64Decode_examples.2.2.1]; norm_num))
    (f64Nearest_exact _ _ (by
      rw [show exampleFpu.ofInt64 examplePedPartition.geom_start = 0x40A0000000000000 from rfl,
        f64Decode_examples.1]
      norm_num [examplePedPartition]))
    (f64Nearest_exact _ _ (by
      rw [show exampleFpu.ofInt64 examplePedPartition.geom_length = 0x4120000000000000 from rfl,
        f64Decode_examples.2.1]
      norm_num [examplePedPartition]))
    (fun x y hx hy => by
      rw [show exampleFpu.ofInt64 examplePedPartition.geom_start = 0x40A0000000000000 from rfl,
        f64Decode_examples.1] at hx
      rw [show exampleFpu.ofInt64 1048576 = 0x4130000000000000 from rfl,
        f64Decode_examples.2.2.1] at hy
      injection hx with hx
      injection hy with hy
      subst hx hy
      exact f64Nearest_exact _ _ (by
        rw [show exampleFpu.div (exampleFpu.ofInt64 examplePedPartition.geom_start)
          (exampleFpu.ofInt64 1048576) = 0x3F60000000000000 from rfl,
          f64Decode_examples.2.2.2.1]
        norm_num))
    (fun x y hx hy => by
      rw [show exampleFpu.ofInt64 examplePedPartition.geom_length = 0x4120000000000000 from rfl,
        f64Decode_examples.2.1] at hx
      rw [show exampleFpu.ofInt64 1048576 = 0x4130000000000000 from rfl,
        f64Decode_examples.2.2.1] at hy
      injection hx with hx
      injection hy with hy
      subst hx hy
      exact f64Nearest_exact _ _ (by
        rw [show exampleFpu.div (exampleFpu.ofInt64 examplePedPartition.geom_length)
          (exampleFpu.ofInt64 1048576) = 0x3FE0000000000000 from rfl,
          f64Decode_examples.2.2.2.2]
        norm_num))).2.2.2.2 rfl rfl rfl

/-! ## Theorems on partitions that are already mounted -/

/-- `isMounted` finds the first line of the mount table that names the partition. -/
theorem scanMtab_first (env : SysEnv) (p : Partition) (pre post : List MntEnt) (ent : MntEnt)
    (hpre : ∀ x ∈ pre, namesPartition env p x = false)
    (hent : namesPartition env p ent = true) :
    scanMtab env p._path p._uuid (uuidDevPathOf p) (pre ++ ent :: post) = some ent.mnt_dir := by
  induction pre with
  | nil =>
    simp only [namesPartition, Bool.or_eq_true, Bool.and_eq_true, decide_eq_true_eq,
      Bool.not_eq_true'] at hent
    simp only [List.nil_append, scanMtab]
    rcases hent with h | ⟨h1, h2⟩
    · simp [h]
    · by_cases hp : p._path = ent.mnt_fsname
      · simp [hp]
      · simp [hp, h1, h2]
  | cons x pre ih =>
    have hx := hpre x (List.mem_cons_self _ _)
    simp only [namesPartition, Bool.or_eq_false_iff, Bool.and_eq_false_iff,
      decide_eq_false_iff_not, Bool.not_eq_false'] at hx
    simp only [List.cons_append, scanMtab, hx.1, if_false]
    have hrec := ih (fun y hy => hpre y (List.mem_cons_of_mem _ hy))
    rcases hx.2 with h | h
    · simp only [h, if_false]
      exact hrec
    · by_cases hu : uuidDevPathOf p = x.mnt_fsname
      · simp only [hu, h, if_true, Bool.not_true, Bool.false_eq_true, if_false]
        rw [← hu]
        exact hrec
      · simp only [hu, if_false]
        exact hrec

/-- What `doMount` and a following `doUmount` do when `isMounted` finds the partition on a
directory outside the scratch prefix. -/
theorem doMount_doUmount_premounted (env : SysEnv) (m : Machine) (p : Partition)
    (dir : String) (hmtab : env.setmntent = true) (hsup : p._fs.mountSupport = true)
    (hscan : scanMtab env p._path p._uuid (uuidDevPathOf p) m.mtab = some dir)
    (htmp : env.matchTmp dir = false) :
    p.doMount env m = (m.log .doMount, p.setMountPoint dir, .returned ())
      ∧ (p.setMountPoint dir).doUmount env (m.log .doMount)
        = ((m.log .doMount).log .doUmount, p.setMountPoint dir, .returned ()) := by
  have h1 : p.isMounted env (m.log .doMount)
      = (m.log .doMount, p.setMountPoint dir, .returned true) := by
    have : scanMtab env p._path p._uuid ("/dev/disk/by-uuid/" ++ bytesToString p._uuid)
        (m.log .doMount).mtab = some dir := hscan
    simp only [Partition.isMounted, hmtab, this, Bool.not_true, Bool.false_eq_true, if_false]
  have h2 : (p.setMountPoint dir).isMounted env ((m.log .doMount).log .doUmount)
      = ((m.log .doMount).log .doUmount, p.setMountPoint dir, .returned true) := by
    have : scanMtab env (p.setMountPoint dir)._path (p.setMountPoint dir)._uuid
        ("/dev/disk/by-uuid/" ++ bytesToString (p.setMountPoint dir)._uuid)
        ((m.log .doMount).log .doUmount).mtab = some dir := hscan
    simp only [Partition.isMounted, hmtab, this, Bool.not_true, Bool.false_eq_true, if_false]
    rfl
  constructor
  · simp only [Partition.doMount, hsup, h1, Bool.not_true, Bool.false_eq_true, if_false]
  · have hd : env.matchTmp (p.setMountPoint dir)._fs.mountPoint = false := htmp
    simp only [Partition.doUmount, h2, hd, Bool.not_true, Bool.not_false, Bool.or_true,
      if_true]

/-- C16 (the claim fails on the code): a partition that the mount table lists on
`/mnt/data` but whose driver reports no mount support makes `doMount` throw
`MountException` before the mount table is read, so the mount point of the driver does not
become `/mnt/data`; and when the mount table lists a partition first on a scratch directory
and then on `/mnt/data`, `doMount` takes the scratch directory and the following `doUmount`
unmounts it and deletes the lines of the partition from the mount table. -/
theorem doMount_premounted_counterexamples :
    unsupportedPartition.doMount quietEnv premountedMachine
        = (premountedMachine.log .doMount, unsupportedPartition, .threw .MountException)
      ∧ unsupportedPartition._fs.mountPoint ≠ "/mnt/data"
      ∧ examplePartition.doMount quietEnv twiceListedMachine
        = (twiceListedMachine.log .doMount, examplePartition.setMountPoint "/tmp/doclone-old",
            .returned ())
      ∧ ((examplePartition.setMountPoint "/tmp/doclone-old").doUmount quietEnv
            (twiceListedMachine.log .doMount)).1
        = ⟨[], ["/mnt/data"], [], [.doMount, .doUmount]⟩ := by
  decide

/-- C16 (amended): when the driver reports mount support, `/etc/mtab` can be read, and the
first line of the mount table that names the partition (by its device path, or by its
`/dev/disk/by-uuid/` alias when the UUID is not repeated) has a directory outside the scratch
prefix, then `doMount` performs no mount, creates no scratch directory and adds no line to
the mount table, the mount point of the driver becomes that directory, and a following
`doUmount` performs no unmount, removes no directory and leaves the mount table as it is. -/
theorem doMount_reuses_premounted (env : SysEnv) (m : Machine) (p : Partition)
    (pre post : List MntEnt) (ent : MntEnt) (hmtab : env.setmntent = true)
    (hsup : p._fs.mountSupport = true) (hm : m.mtab = pre ++ ent :: post)
    (hpre : ∀ x ∈ pre, namesPartition env p x = false)
    (hent : namesPartition env p ent = true) (htmp : env.matchTmp ent.mnt_dir = false) :
    p.doMount env m = (m.log .doMount, p.setMountPoint ent.mnt_dir, .returned ())
      ∧ (p.doMount env m).1.mtab = m.mtab ∧ (p.doMount env m).1.mounts = m.mounts
      ∧ (p.doMount env m).1.dirs = m.dirs
      ∧ (p.doMount env m).2.1._fs.mountPoint = ent.mnt_dir
      ∧ (p.doMount env m).2.1.doUmount env (p.doMount env m).1
        = ((m.log .doMount).log .doUmount, p.setMountPoint ent.mnt_dir, .returned ())
      ∧ ((p.doMount env m).2.1.doUmount env (p.doMount env m).1).1.mtab = m.mtab
      ∧ ((p.doMount env m).2.1.doUmount env (p.doMount env m).1).1.mounts = m.mounts
      ∧ ((p.doMount env m).2.1.doUmount env (p.doMount env m).1).1.dirs = m.dirs := by
  have hscan : scanMtab env p._path p._uuid (uuidDevPathOf p) m.mtab = some ent.mnt_dir := by
    rw [hm]
    exact scanMtab_first env p pre post ent hpre hent
  obtain ⟨h1, h2⟩ := doMount_doUmount_premounted env m p ent.mnt_dir hmtab hsup hscan htmp
  rw [h1]
  refine ⟨rfl, rfl, rfl, rfl, rfl, h2, ?_, ?_, ?_⟩
  · show ((p.setMountPoint ent.mnt_dir).doUmount env (m.log .doMount)).1.mtab = m.mtab
    rw [h2]; rfl
  · show ((p.setMountPoint ent.mnt_dir).doUmount env (m.log .doMount)).1.mounts = m.mounts
    rw [h2]; rfl
  · show ((p.setMountPoint ent.mnt_dir).doUmount env (m.log .doMount)).1.dirs = m.dirs
    rw [h2]; rfl

theorem doMount_reuses_premounted_witness :
    examplePartition.doMount quietEnv premountedMachine
      = (premountedMachine.log .doMount, examplePartition.setMountPoint "/mnt/data",
          .returned ()) :=
  (doMount_reuses_premounted quietEnv premountedMachine examplePartition [] []
    ⟨"/dev/sdb1", "/mnt/data"⟩ rfl rfl rfl (by simp) (by decide) (by decide)).1

/-! ## Theorems on the label and the UUID -/

/-- A string without NUL is its own C string. -/
theorem cstr_self_append (s rest : List Nat) (hs : ∀ b ∈ s, b ≠ 0) :
    cstr (s ++ rest) = s ++ cstr rest := by
  induction s with
  | nil => rfl
  | cons b s ih =>
    have hb : b ≠ 0 := hs b (List.mem_cons_self _ _)
    have := ih (fun x hx => hs x (List.mem_cons_of_mem _ hx))
    simp only [cstr] at this ⊢
    simp [List.takeWhile_cons, hb, this]

theorem cstr_self (s : List Nat) (hs : ∀ b ∈ s, b ≠ 0) : cstr s = s := by
  have := cstr_self_append s [] hs
  simpa [cstr] using this

theorem cstr_zero (rest : List Nat) : cstr (0 :: rest) = [] := by
  simp [cstr]

/-- The field that `strncpy` fills from a string without NUL that fits: the string, then
NUL bytes up to the size of the field. -/
theorem strncpy_fits (s : List Nat) (n : Nat) (hs : ∀ b ∈ s, b ≠ 0) (hn : s.length ≤ n) :
    strncpy s n = s ++ List.replicate (n - s.length) 0 ∧ (strncpy s n).length = n := by
  have h : strncpy s n = s ++ List.replicate (n - s.length) 0 := by
    simp only [strncpy, cstr_self s hs]
    rw [List.take_of_length_le hn]
  refine ⟨h, ?_⟩
  rw [h, List.length_append, List.length_replicate]
  omega

/-- A string shorter than its field is read back as it was, whatever follows the field. -/
theorem cstr_strncpy_shorter (s beyond : List Nat) (n : Nat) (hs : ∀ b ∈ s, b ≠ 0)
    (hn : s.length < n) : cstr (strncpy s n ++ beyond) = s := by
  rw [(strncpy_fits s n hs (Nat.le_of_lt hn)).1, List.append_assoc, cstr_self_append s _ hs]
  obtain ⟨k, hk⟩ : ∃ k, n - s.length = k + 1 := ⟨n - s.length - 1, by omega⟩
  rw [hk, List.replicate_succ, List.cons_append, cstr_zero, List.append_nil]

/-- A string that fills its field is read back with what follows the field. -/
theorem cstr_strncpy_filling (s beyond : List Nat) (n : Nat) (hs : ∀ b ∈ s, b ≠ 0)
    (hn : s.length = n) : cstr (strncpy s n ++ beyond) = s ++ cstr beyond := by
  rw [(strncpy_fits s n hs (Nat.le_of_eq hn)).1, hn, Nat.sub_self, List.replicate_zero,
    List.append_nil, cstr_self_append s _ hs]

/-- The part of the claim on the label and the UUID that the code achieves: for a label of at
most 28 bytes and a UUID of at most 37 bytes, `createPartInfo` stores each string at the
start of its field, followed by NUL bytes up to the end of the field; and a label of fewer
than 28 bytes, and a UUID of fewer than 37 bytes, is read back as it was. -/
theorem label_uuid_shorter_round_trip (D : PartitionDecls)
    (createFilesystem : List Nat → Except ExcClass Filesystem) (mem : Beyond) (p q : Partition)
    (hl : ∀ b ∈ p._label, b ≠ 0) (hu : ∀ b ∈ p._uuid, b ≠ 0)
    (hq : Partition.ofPartInfo createFilesystem mem (p.createPartInfo D)._partition
      = .returned q) :
    (p._label.length ≤ 28 →
        (p.createPartInfo D)._partition.label
          = p._label ++ List.replicate (28 - p._label.length) 0)
      ∧ (p._uuid.length ≤ 37 →
        (p.createPartInfo D)._partition.uuid
          = p._uuid ++ List.replicate (37 - p._uuid.length) 0)
      ∧ (p._label.length < 28 → q._label = p._label)
      ∧ (p._uuid.length < 37 → q._uuid = p._uuid) := by
  obtain ⟨_, _, _, _, _, h6, h7, _⟩ := ofPartInfo_returned createFilesystem mem _ q hq
  refine ⟨?_, ?_, ?_, ?_⟩
  · intro h
    exact (strncpy_fits p._label 28 hl h).1
  · intro h
    exact (strncpy_fits p._uuid 37 hu h).1
  · intro h
    rw [h6]
    exact cstr_strncpy_shorter p._label mem.label 28 hl h
  · intro h
    rw [h7]
    exact cstr_strncpy_shorter p._uuid mem.uuid 37 hu h

/-- C17 (the code departs from the claim when a string fills its field): a label of exactly
28 bytes without NUL is stored by `createPartInfo` with no NUL byte after it in the field,
and the decoding constructor, which reads a NUL-terminated string, reads it back followed by
the bytes that come after the array, up to the first NUL; the label read back differs from
the original unless a NUL byte comes right after the array. The same holds for a UUID of
exactly 37 bytes. -/
theorem label_uuid_filling_field_not_read_back (D : PartitionDecls)
    (createFilesystem : List Nat → Except ExcClass Filesystem) (mem : Beyond) (p q : Partition)
    (hl : ∀ b ∈ p._label, b ≠ 0) (hu : ∀ b ∈ p._uuid, b ≠ 0)
    (hq : Partition.ofPartInfo createFilesystem mem (p.createPartInfo D)._partition
      = .returned q) :
    (p._label.length = 28 →
        (p.createPartInfo D)._partition.label = p._label
          ∧ q._label = p._label ++ cstr mem.label
          ∧ (cstr mem.label ≠ [] → q._label ≠ p._label))
      ∧ (p._uuid.length = 37 →
        (p.createPartInfo D)._partition.uuid = p._uuid
          ∧ q._uuid = p._uuid ++ cstr mem.uuid
          ∧ (cstr mem.uuid ≠ [] → q._uuid ≠ p._uuid)) := by
  obtain ⟨_, _, _, _, _, h6, h7, _⟩ := ofPartInfo_returned createFilesystem mem _ q hq
  constructor
  · intro h
    have hf := (strncpy_fits p._label 28 hl (Nat.le_of_eq h)).1
    rw [h, Nat.sub_self, List.replicate_zero, List.append_nil] at hf
    have hr : q._label = p._label ++ cstr mem.label := by
      rw [h6]
      exact cstr_strncpy_filling p._label mem.label 28 hl h
    refine ⟨hf, hr, ?_⟩
    intro hne heq
    rw [hr] at heq
    exact hne (List.append_right_eq_self.1 heq)
  · intro h
    have hf := (strncpy_fits p._uuid 37 hu (Nat.le_of_eq h)).1
    rw [h, Nat.sub_self, List.replicate_zero, List.append_nil] at hf
    have hr : q._uuid = p._uuid ++ cstr mem.uuid := by
      rw [h7]
      exact cstr_strncpy_filling p._uuid mem.uuid 37 hu h
    refine ⟨hf, hr, ?_⟩
    intro hne heq
    rw [hr] at heq
    exact hne (List.append_right_eq_self.1 heq)

/-- The decoding of the descriptor of `longLabelPartition` returns. -/
theorem longLabelPartition_decoded :
    ∃ q, Partition.ofPartInfo exampleFactory
        (uuidAfterLabel (longLabelPartition.createPartInfo exampleDecls)._partition)
        (longLabelPartition.createPartInfo exampleDecls)._partition = .returned q := by
  have hf : exampleFactory (cstr ((longLabelPartition.createPartInfo exampleDecls)._partition.fsName
      ++ (uuidAfterLabel (longLabelPartition.createPartInfo exampleDecls)._partition).fsName))
      = .ok ext4Driver := rfl
  have g1 : f64GtOne (longLabelPartition.createPartInfo exampleDecls)._partition.start_pos
      = false := by
    norm_num [f64GtOne, f64Decode, Partition.createPartInfo, longLabelPartition,
      examplePartition]
  have g2 : f64GtOne (longLabelPartition.createPartInfo exampleDecls)._partition.used_part
      = false := by
    norm_num [f64GtOne, f64Decode, Partition.createPartInfo, longLabelPartition,
      examplePartition]
  simp only [Partition.ofPartInfo, hf, g1, g2, Bool.false_eq_true, if_false]
  exact ⟨_, rfl⟩

theorem label_uuid_filling_field_not_read_back_witness :
    ∃ q, Partition.ofPartInfo exampleFactory
          (uuidAfterLabel (longLabelPartition.createPartInfo exampleDecls)._partition)
          (longLabelPartition.createPartInfo exampleDecls)._partition = .returned q
      ∧ q._label = List.replicate 28 65 ++ [97, 98, 99, 100]
      ∧ q._label ≠ longLabelPartition._label := by
  obtain ⟨q, hq⟩ := longLabelPartition_decoded
  have h := (label_uuid_filling_field_not_read_back exampleDecls exampleFactory
    (uuidAfterLabel (longLabelPartition.createPartInfo exampleDecls)._partition)
    longLabelPartition q (by decide) (by decide) hq).1 (by decide)
  exact ⟨q, hq, h.2.1, h.2.2 (by decide)⟩

/-! ## Theorems on the command codes -/

/-- OR-ing one more code into a byte below 32 sets the bit of this code and no other. -/
theorem or_code_step : ∀ acc < 32, ∀ x ∈ commandCodes, ∀ c ∈ commandCodes,
    (acc ||| x) < 32 ∧ ((acc ||| x) &&& c ≠ 0 ↔ (acc &&& c ≠ 0 ∨ x = c)) := by
  decide

theorem foldl_or_codes (c : Nat) (hc : c ∈ commandCodes) (S : List Nat) :
    ∀ acc, acc < 32 → (∀ x ∈ S, x ∈ commandCodes) →
      ((S.foldl (fun a x => a ||| x) acc) &&& c ≠ 0 ↔ (acc &&& c ≠ 0 ∨ c ∈ S)) := by
  induction S with
  | nil => intro acc _ _; simp
  | cons x S ih =>
    intro acc hacc hS
    have hx : x ∈ commandCodes := hS x (List.mem_cons_self _ _)
    obtain ⟨h32, hstep⟩ := or_code_step acc hacc x hx c hc
    rw [List.foldl_cons, ih (acc ||| x) h32 (fun y hy => hS y (List.mem_cons_of_mem _ hy)),
      hstep, List.mem_cons]
    constructor
    · rintro ((h | h) | h)
      · exact Or.inl h
      · exact Or.inr (Or.inl h.symm)
      · exact Or.inr (Or.inr h)
    · rintro (h | h | h)
      · exact Or.inl (Or.inl h)
      · exact Or.inl (Or.inr h.symm)
      · exact Or.inr h

/-- C19: the command codes are one-byte bit flags. The five codes are `0x01`, `0x02`, `0x04`,
`0x08` and `0x10`; each fits in a byte and has exactly one bit set; two different codes have
no bit in common; and for every collection `S` of codes, the byte obtained by OR-ing `S` has
the code `c` set (`byte & c != 0`) exactly when `c` is in `S`. -/
theorem command_codes_bit_flags :
    commandCodes = [0x01, 0x02, 0x04, 0x08, 0x10]
      ∧ (∀ c ∈ commandCodes, c < 256 ∧ bitsSet c = 1)
      ∧ (∀ a ∈ commandCodes, ∀ b ∈ commandCodes, a ≠ b → a &&& b = 0)
      ∧ (∀ S : List Nat, (∀ x ∈ S, x ∈ commandCodes) →
          ∀ c ∈ commandCodes, (orAll S &&& c ≠ 0 ↔ c ∈ S)) := by
  refine ⟨by decide, by decide, by decide, ?_⟩
  intro S hS c hc
  have h := foldl_or_codes c hc S 0 (by decide) hS
  simp only [Nat.zero_and, ne_eq, not_true_eq_false, false_or] at h
  exact h

theorem command_codes_bit_flags_witness :
    (∀ x ∈ [C_LINK_SERVER_OK, C_NEXT_LINK_IP], x ∈ commandCodes)
      ∧ (orAll [C_LINK_SERVER_OK, C_NEXT_LINK_IP] &&& C_NEXT_LINK_IP ≠ 0
          ↔ C_NEXT_LINK_IP ∈ [C_LINK_SERVER_OK, C_NEXT_LINK_IP])
      ∧ (orAll [C_LINK_SERVER_OK, C_NEXT_LINK_IP] &&& C_LINK_CLIENT_OK ≠ 0
          ↔ C_LINK_CLIENT_OK ∈ [C_LINK_SERVER_OK, C_NEXT_LINK_IP]) :=
  ⟨by decide,
    command_codes_bit_flags.2.2.2 [C_LINK_SERVER_OK, C_NEXT_LINK_IP] (by decide)
      C_NEXT_LINK_IP (by decide),
    command_codes_bit_flags.2.2.2 [C_LINK_SERVER_OK, C_NEXT_LINK_IP] (by decide)
      C_LINK_CLIENT_OK (by decide)⟩

/-! ## Theorems on the length of the chain -/

theorem okAddrs_cons_ok (r : Reply) (rest : List Reply)
    (h : ¬ r.response &&& C_LINK_CLIENT_OK = 0) :
    okAddrs (r :: rest) = r.s_addr :: okAddrs rest := by
  simp [okAddrs, List.filter_cons, h]

theorem okAddrs_cons_drop (r : Reply) (rest : List Reply)
    (h : r.response &&& C_LINK_CLIENT_OK = 0) : okAddrs (r :: rest) = okAddrs rest := by
  simp [okAddrs, List.filter_cons, h]

/-- When the `select` loop ends, it has recorded the addresses of all the replies that carry
`C_LINK_CLIENT_OK`, from the index it started at, and their number does not exceed
`_linksNum`. -/
theorem scanLoop_records (L : Nat) (h0 : 0 < L) (h1 : L < 2 ^ 32) :
    ∀ (fuel : Nat) (replies : List Reply) (i : Nat) (links : List Nat) (i' : Nat)
      (links' : List Nat), i ≤ L → i ≤ links.length →
      scanLoop L fuel replies i links = .returned (i', links') →
      i' ≤ L ∧ i' = i + (okAddrs replies).length ∧ i' ≤ links'.length
        ∧ (∀ j, j < i → links'[j]? = links[j]?)
        ∧ (∀ k, k < (okAddrs replies).length → links'[i + k]? = (okAddrs replies)[k]?) := by
  intro fuel
  induction fuel with
  | zero => intro replies i links i' links' _ _ h; simp [scanLoop] at h
  | succ fuel ih =>
    intro replies i links i' links' hi hlen h
    cases replies with
    | nil =>
      simp only [scanLoop, Outcome.returned.injEq, Prod.mk.injEq] at h
      obtain ⟨rfl, rfl⟩ := h
      refine ⟨hi, by simp [okAddrs], hlen, fun j _ => rfl, ?_⟩
      intro k hk
      simp [okAddrs] at hk
    | cons r rest =>
      rw [scanLoop, linksNum_bound L h0 h1] at h
      by_cases hcap : i ≤ L - 1
      · simp only [hcap, if_true] at h
        by_cases hbit : r.response &&& C_LINK_CLIENT_OK = 0
        · simp only [hbit, if_true] at h
          have := ih rest i links i' links' hi hlen h
          rw [okAddrs_cons_drop r rest hbit]
          exact this
        · simp only [hbit, if_false] at h
          unfold arrSet at h
          by_cases hb1 : i < links.length
          · simp only [hb1, if_true] at h
            by_cases hb2 : i + 1 < (links.set i r.s_addr).length
            · simp only [hb2, if_true] at h
              have hb2' : i + 1 < links.length := by simpa using hb2
              obtain ⟨c1, c2, c3, c4, c5⟩ := ih rest (i + 1) _ i' links' (by omega)
                (by simp only [List.length_set]; omega) h
              rw [okAddrs_cons_ok r rest hbit]
              refine ⟨c1, by simp only [List.length_cons]; omega, c3, ?_, ?_⟩
              · intro j hj
                rw [c4 j (by omega), List.getElem?_set_ne (by omega),
                  List.getElem?_set_ne (by omega)]
              · intro k hk
                cases k with
                | zero =>
                  rw [Nat.add_zero, c4 i (by omega), List.getElem?_set_ne (by omega),
                    List.getElem?_set_eq_of_lt _ hb1]
                  simp
                | succ k =>
                  have := c5 k (by simpa using hk)
                  rw [show i + (k + 1) = i + 1 + k by omega, this]
                  simp
            · have hb2n : ¬ i + 1 < links.length := by simpa using hb2
              simp [hb2n] at h
          · simp [hb1] at h
      · simp only [hcap, if_false] at h
        exact ih (r :: rest) i links i' links' hi hlen h

theorem memBytes_length (e : Endian) (n v : Nat) : (memBytes e n v).length = n := by
  cases e with
  | little => exact bytesLE_length n v
  | big => exact bytesBE_length n v

theorem successorLinks_append (xs ys : List Sent) :
    successorLinks (xs ++ ys) = successorLinks xs ++ successorLinks ys := by
  simp [successorLinks]

theorem successorLinks_command (dst : Nat) :
    successorLinks [⟨dst, [C_NEXT_LINK_IP]⟩] = [dst] := by
  simp [successorLinks]

theorem successorLinks_address (e : Endian) (dst v : Nat) :
    successorLinks [⟨dst, memBytes e 4 v⟩] = [] := by
  have h : memBytes e 4 v ≠ [C_NEXT_LINK_IP] := by
    intro heq
    have := memBytes_length e 4 v
    rw [heq] at this
    simp at this
  simp [successorLinks, h]

/-- The links that the successor loop sends `C_NEXT_LINK_IP` to are the first ones of the
array, in order, as far as the loop gets. -/
theorem distribute_links (e : Endian) (env : NetEnv) (links : List Nat) :
    ∀ (n j k : Nat) (tr : List Sent),
      ∃ sent, successorLinks (distribute e env links n j k tr).1 = successorLinks tr ++ sent
        ∧ sent <+: (links.drop j).take n := by
  intro n
  induction n with
  | zero =>
    intro j k tr
    exact ⟨[], by simp [distribute], List.nil_prefix⟩
  | succ n ih =>
    intro j k tr
    rw [distribute]
    cases hj : arrGet links j with
    | none => exact ⟨[], by simp, List.nil_prefix⟩
    | some dst =>
      cases hj1 : arrGet links (j + 1) with
      | none => exact ⟨[], by simp, List.nil_prefix⟩
      | some nxt =>
        have hdrop : (links.drop j).take (n + 1) = dst :: (links.drop (j + 1)).take n := by
          unfold arrGet at hj
          obtain ⟨hlt, hget⟩ := List.getElem?_eq_some_iff.1 hj
          rw [List.drop_eq_getElem_cons hlt, List.take_succ_cons, hget]
        simp only
        by_cases hk : env.sendtoOk k = true
        · by_cases hk1 : env.sendtoOk (k + 1) = true
          · simp only [hk, hk1, Bool.not_true, Bool.false_eq_true, if_false]
            obtain ⟨sent, hs, hp⟩ := ih (j + 1) (k + 2)
              (tr ++ [⟨dst, [C_NEXT_LINK_IP]⟩] ++ [⟨dst, memBytes e 4 (htonl e nxt)⟩])
            refine ⟨dst :: sent, ?_, ?_⟩
            · rw [hs, successorLinks_append, successorLinks_append, successorLinks_command,
                successorLinks_address]
              simp
            · rw [hdrop]
              exact (List.prefix_cons_inj dst).2 hp
          · simp only [hk, hk1, Bool.not_true, Bool.false_eq_true, if_false, Bool.not_false,
              if_true]
            refine ⟨[dst], ?_, ?_⟩
            · rw [successorLinks_append, successorLinks_command]
            · rw [hdrop]
              exact (List.prefix_cons_inj dst).2 List.nil_prefix
        · simp only [hk, Bool.not_false, if_true]
          exact ⟨[], by simp, List.nil_prefix⟩

/-! ## Theorems on Link::answer -/

/-- A one-byte datagram replaces the byte of a one-byte buffer. -/
theorem recvInto_byte (old b : Nat) (d : Datagram) (hd : d.bytes = [b]) :
    (recvInto [old] d).headD 0 = b := by
  simp [recvInto, hd]

/-- The first loop of `answer` reads and drops the one-byte datagrams whose
`C_LINK_SERVER_OK` bit is clear. -/
theorem awaitServer_skips (pre : List Datagram)
    (hpre : ∀ x ∈ pre, ∃ b, x.bytes = [b] ∧ b &&& C_LINK_SERVER_OK = 0)
    (rest : List (Option Datagram)) :
    ∀ srv, ∃ srv1, awaitServer srv (pre.map some ++ rest) = awaitServer srv1 rest := by
  induction pre with
  | nil => intro srv; exact ⟨srv, rfl⟩
  | cons x xs ih =>
    intro srv
    obtain ⟨b, hx, hb⟩ := hpre x (List.mem_cons_self _ _)
    obtain ⟨srv1, h1⟩ := ih (fun y hy => hpre y (List.mem_cons_of_mem _ hy)) b
    refine ⟨srv1, ?_⟩
    simp only [List.map_cons, List.cons_append, awaitServer, recvInto_byte srv b x hx, hb,
      ne_eq, not_true_eq_false, if_false]
    exact h1

/-- The first loop of `answer` stops at a one-byte datagram whose `C_LINK_SERVER_OK` bit is
set, with the address of its sender in `udp`. -/
theorem awaitServer_accepts (srv : Nat) (d : Datagram) (b : Nat) (hd : d.bytes = [b])
    (hb : b &&& C_LINK_SERVER_OK ≠ 0) (rest : List (Option Datagram)) :
    awaitServer srv (some d :: rest) = .returned (⟨d.sin_port, d.s_addr⟩, rest) := by
  simp only [awaitServer, recvInto_byte srv b d hd, hb, ne_eq, not_false_eq_true, if_true]

/-- C21: the handshake of `answer`. With `socket`, `bind` and `sendto` succeeding, `answer`
reads and drops every one-byte datagram whose `C_LINK_SERVER_OK` bit is clear; at the first
byte `b` with `b & C_LINK_SERVER_OK != 0`, whatever its other bits, it goes on, and the only
datagram it sends in the whole call, however the call ends, is the single byte
`C_LINK_CLIENT_OK`, sent to the port and address the accepted datagram came from. While only
datagrams with the bit clear have arrived, nothing is sent and the call is still waiting. -/
theorem answer_handshake (e : Endian) (env : AnswerEnv) (hsock : env.socketOk = true)
    (hbind : env.bindOk = true) (hsend : env.sendtoOk = true) (pre : List Datagram)
    (hpre : ∀ x ∈ pre, ∃ b, x.bytes = [b] ∧ b &&& C_LINK_SERVER_OK = 0)
    (d : Datagram) (b : Nat) (hd : d.bytes = [b]) (hb : b &&& C_LINK_SERVER_OK ≠ 0)
    (rest : List (Option Datagram)) :
    (answer e env (pre.map some ++ some d :: rest)).1
        = [⟨⟨d.sin_port, d.s_addr⟩, [C_LINK_CLIENT_OK]⟩]
      ∧ answer e env (pre.map some) = ([], .noFuel) := by
  constructor
  · obtain ⟨srv1, h1⟩ := awaitServer_skips pre hpre (some d :: rest) 0
    simp only [answer, hsock, hbind, hsend, h1, awaitServer_accepts srv1 d b hd hb rest,
      Bool.not_true, Bool.false_eq_true, if_false]
    cases awaitNextLink rest with
    | returned r =>
      cases r with
      | nil => rfl
      | cons x xs => cases x <;> rfl
    | threw c => rfl
    | fault => rfl
    | noFuel => rfl
  · obtain ⟨srv1, h1⟩ := awaitServer_skips pre hpre [] 0
    rw [List.append_nil] at h1
    simp only [answer, hsock, hbind, h1, awaitServer, Bool.not_true, Bool.false_eq_true,
      if_false]

theorem answer_handshake_witness :
    (∀ x ∈ [(⟨[C_LINK_CLIENT_OK], 7772, 9⟩ : Datagram), ⟨[30], 7772, 11⟩],
        ∃ b, x.bytes = [b] ∧ b &&& C_LINK_SERVER_OK = 0)
      ∧ (31 : Nat) &&& C_LINK_SERVER_OK ≠ 0
      ∧ (answer .little answerOk
          ([(⟨[C_LINK_CLIENT_OK], 7772, 9⟩ : Datagram), ⟨[30], 7772, 11⟩].map some
            ++ some ⟨[31], 7772, 42⟩ :: [])).1
          = [⟨⟨7772, 42⟩, [C_LINK_CLIENT_OK]⟩] :=
  have h : ∀ x ∈ [(⟨[C_LINK_CLIENT_OK], 7772, 9⟩ : Datagram), ⟨[30], 7772, 11⟩],
      ∃ b, x.bytes = [b] ∧ b &&& C_LINK_SERVER_OK = 0 := by
    intro x hx
    simp only [List.mem_cons, List.mem_singleton, List.not_mem_nil, or_false] at hx
    rcases hx with rfl | rfl
    · exact ⟨C_LINK_CLIENT_OK, rfl, by decide⟩
    · exact ⟨30, rfl, by decide⟩
  ⟨h, by decide,
    (answer_handshake .little answerOk rfl rfl rfl _ h ⟨[31], 7772, 42⟩ 31 rfl (by decide)
      []).1⟩

/-! ## Theorems on Link::linkClient -/

/-- An `int` is 0 exactly when its conversion to `uint32_t` is 0. -/
theorem toUInt32_eq_zero (s : Int) (hlo : -2 ^ 31 ≤ s) (hhi : s < 2 ^ 31) :
    toUInt32 s = 0 ↔ s = 0 := by
  unfold toUInt32
  norm_num at hlo hhi ⊢
  omega

/-- The conversion of a `uint32_t` to `int` and back gives the value again. -/
theorem toUInt32_toInt32 (x : Nat) (hx : x < 2 ^ 32) : toUInt32 (toInt32 x) = x := by
  unfold toUInt32 toInt32
  norm_num at hx ⊢
  split <;> omega

/-- The value of a `uint32_t` converted to `int` is in the range of `int`. -/
theorem toInt32_range (x : Nat) : -2 ^ 31 ≤ toInt32 x ∧ toInt32 x < 2 ^ 31 := by
  unfold toInt32
  norm_num
  split <;> omega

/-- The calls of `linkClient` are always the first ones of the relay assembly, and all of them
when `linkClient` returns. -/
theorem linkClient_calls (env : ClientEnv) (s : Int) (hlo : -2 ^ 31 ≤ s) (hhi : s < 2 ^ 31) :
    (linkClient env (.returned s)).1 <+: relayAssembly env.fdo env.fdd s
      ∧ ((linkClient env (.returned s)).2 = .returned ()
          → (linkClient env (.returned s)).1 = relayAssembly env.fdo env.fdd s) := by
  have hz := toUInt32_eq_zero s hlo hhi
  unfold linkClient relayAssembly
  by_cases h1 : env.sock_sender < 0
  · simp [h1]
  by_cases h2 : env.bind < 0
  · simp [h1, h2]
  by_cases h3 : env.listen < 0
  · simp [h1, h2, h3]
  by_cases h4 : env.fdo < 0
  · simp [h1, h2, h3, h4]
  by_cases hs : s = 0
  · subst hs
    have h0 : toUInt32 0 = 0 := hz.2 rfl
    simp [h1, h2, h3, h4, h0]
  have hsn : toUInt32 s ≠ 0 := fun h => hs (hz.1 h)
  by_cases h5 : env.fdd < 0
  · simp [h1, h2, h3, h4, hs, hsn, h5]
  by_cases h6 : env.connect < 0
  · simp [h1, h2, h3, h4, hs, hsn, h5, h6]
  · simp [h1, h2, h3, h4, hs, hsn, h5, h6]

/-- When every call succeeds, `linkClient` returns. -/
theorem linkClient_returns (env : ClientEnv) (s : Int) (h1 : 0 ≤ env.sock_sender)
    (h2 : 0 ≤ env.bind) (h3 : 0 ≤ env.listen) (h4 : 0 ≤ env.fdo) (h5 : 0 ≤ env.fdd)
    (h6 : 0 ≤ env.connect) : (linkClient env (.returned s)).2 = .returned () := by
  unfold linkClient
  simp only [not_lt.2 h1, not_lt.2 h2, not_lt.2 h3, not_lt.2 h4, not_lt.2 h5, not_lt.2 h6,
    if_false]
  split <;> rfl

/-- In a list cut in two ways, what comes before an element `c` in the first part of one cut,
where `c` does not occur, comes before `c` in the other cut. -/
theorem mem_before_of_append_eq {α : Type} (l1 l2 pre post : List α) (c x : α)
    (h : l1 ++ l2 = pre ++ c :: post) (hc : c ∉ l1) (hx : x ∈ l1) : x ∈ pre := by
  rcases List.append_eq_append_iff.1 h with ⟨a, hpre, _⟩ | ⟨a, hl1, hcp⟩
  · rw [hpre]
    exact List.mem_append_left _ hx
  · cases a with
    | nil =>
      rw [List.append_nil] at hl1
      rw [← hl1]
      exact hx
    | cons y ys =>
      rw [List.cons_append] at hcp
      have hy : c = y := (List.cons.inj hcp).1
      exact absurd (by rw [hl1, hy]; simp) hc

/-- The relay assembly holds one call of `accept`. -/
theorem relayAssembly_accept (fdo fdd s : Int) :
    (relayAssembly fdo fdd s).count .accept = 1 := by
  unfold relayAssembly
  split <;> simp [List.count_cons]

/-- The relay assembly connects to a successor, and registers a sink, exactly when the
successor is not 0. -/
theorem relayAssembly_successor (fdo fdd s : Int) :
    ((∃ p a, NetCall.connect p a ∈ relayAssembly fdo fdd s) ↔ s ≠ 0)
      ∧ ((∃ fd a, NetCall.setFdd fd a ∈ relayAssembly fdo fdd s) ↔ s ≠ 0) := by
  unfold relayAssembly
  by_cases hs : s = 0
  · simp [hs]
  · simp [hs]

/-- C22: the relay assembly in `linkClient`, for every value `s` of the type `int` that
`answer` returns. The calls that `linkClient` makes are, in this order, `socket`, `bind` to
the data port, `listen`, `accept`, `setFdo` with the accepted descriptor, the event for the
views, and then, exactly when `s != 0`, `socket`, `sleep (1)`, `connect` to `s` on the data
port and `setFdd` with the new descriptor; a call that fails ends the list. So every run
accepts at most one connection, a run that returns has accepted exactly one and has made it
the source of the hub, it has connected to a successor and registered it as a sink if and only
if `s != 0`, the tail (`s = 0`) never connects, and whenever `connect` is called, `accept` has
been called before. When every call succeeds, `linkClient` returns. -/
theorem linkClient_relay_assembly (env : ClientEnv) (s : Int) (hlo : -2 ^ 31 ≤ s)
    (hhi : s < 2 ^ 31) :
    (linkClient env (.returned s)).1 <+: relayAssembly env.fdo env.fdd s
      ∧ (0 ≤ env.sock_sender → 0 ≤ env.bind → 0 ≤ env.listen → 0 ≤ env.fdo → 0 ≤ env.fdd
          → 0 ≤ env.connect → (linkClient env (.returned s)).2 = .returned ())
      ∧ (linkClient env (.returned s)).1.count .accept ≤ 1
      ∧ ((linkClient env (.returned s)).2 = .returned () →
          (linkClient env (.returned s)).1 = relayAssembly env.fdo env.fdd s
            ∧ (linkClient env (.returned s)).1.count .accept = 1
            ∧ NetCall.setFdo env.fdo ∈ (linkClient env (.returned s)).1
            ∧ ((∃ p a, NetCall.connect p a ∈ (linkClient env (.returned s)).1) ↔ s ≠ 0)
            ∧ ((∃ fd a, NetCall.setFdd fd a ∈ (linkClient env (.returned s)).1) ↔ s ≠ 0))
      ∧ (s = 0 → ∀ c ∈ (linkClient env (.returned s)).1,
          (∀ p a, c ≠ NetCall.connect p a) ∧ ∀ fd a, c ≠ NetCall.setFdd fd a)
      ∧ (∀ pre post p a, (linkClient env (.returned s)).1 = pre ++ NetCall.connect p a :: post →
          NetCall.accept ∈ pre) := by
  obtain ⟨hpre, hfull⟩ := linkClient_calls env s hlo hhi
  obtain ⟨t, ht⟩ := hpre
  refine ⟨⟨t, ht⟩, linkClient_returns env s, ?_, ?_, ?_, ?_⟩
  · have := List.Sublist.count_le (List.IsPrefix.sublist ⟨t, ht⟩) NetCall.accept
    rw [relayAssembly_accept] at this
    exact this
  · intro hret
    have hlog := hfull hret
    rw [hlog]
    refine ⟨rfl, relayAssembly_accept _ _ _, ?_, (relayAssembly_successor _ _ _).1,
      (relayAssembly_successor _ _ _).2⟩
    simp [relayAssembly]
  · intro hs c hc
    have hc1 : c ∈ relayAssembly env.fdo env.fdd s := by
      rw [← ht]
      exact List.mem_append_left _ hc
    constructor
    · intro p a hpa
      rw [hpa] at hc1
      exact ((relayAssembly_successor env.fdo env.fdd s).1.1 ⟨p, a, hc1⟩) hs
    · intro fd a hfa
      rw [hfa] at hc1
      exact ((relayAssembly_successor env.fdo env.fdd s).2.1 ⟨fd, a, hc1⟩) hs
  · intro pre post p a hlog
    rw [hlog] at ht
    by_cases hs : s = 0
    · have hmem : NetCall.connect p a ∈ relayAssembly env.fdo env.fdd s := by
        rw [← ht]
        simp
      exact absurd hs ((relayAssembly_successor env.fdo env.fdd s).1.1 ⟨p, a, hmem⟩)
    · have hcut : [NetCall.socket, .bind PORT_DATA 0, .listen 1, .accept, .setFdo env.fdo,
            .triggerEvent, .socket, .sleep 1]
          ++ [NetCall.connect PORT_DATA (toUInt32 s), .setFdd env.fdd (toUInt32 s)]
          = pre ++ NetCall.connect p a :: (post ++ t) := by
        rw [← List.cons_append, ← List.append_assoc, ht]
        simp [relayAssembly, hs]
      exact mem_before_of_append_eq _ _ pre (post ++ t) (.connect p a) .accept hcut
        (by simp) (by simp)

theorem linkClient_relay_assembly_witness :
    linkClient clientOk (.returned (-939524086))
        = ([.socket, .bind 7773 0, .listen 1, .accept, .setFdo 4, .triggerEvent, .socket,
            .sleep 1, .connect 7773 3355443210, .setFdd 5 3355443210], .returned ())
      ∧ (linkClient clientOk (.returned (-939524086))).1.count .accept ≤ 1 :=
  ⟨by decide,
    (linkClient_relay_assembly clientOk (-939524086) (by decide) (by decide)).2.2.1⟩

/-! ## Theorems on the address of the successor -/

/-- The value of a list of `n` bytes is below `256 ^ n`. -/
theorem ofBytesLE_lt (bs : List Nat) (h : ∀ b ∈ bs, b < 256) :
    ofBytesLE bs < 256 ^ bs.length := by
  induction bs with
  | nil => simp [ofBytesLE, ofBytesBE]
  | cons b bs ih =>
    have hb : b < 256 := h b (List.mem_cons_self _ _)
    have := ih (fun x hx => h x (List.mem_cons_of_mem _ hx))
    rw [ofBytesLE_cons, List.length_cons, pow_succ']
    omega

/-- Loading the bytes that an object of `n` bytes occupies gives its value. -/
theorem memLoad_memBytes (e : Endian) (n v : Nat) : memLoad e (memBytes e n v) = v % 256 ^ n := by
  cases e with
  | little => exact ofBytesLE_bytesLE n v
  | big =>
    simp only [memLoad, memBytes, bytesBE, ofBytesBE_eq, List.reverse_reverse]
    exact ofBytesLE_bytesLE n v

/-- The result of `htonl` is a value of `uint32_t`. -/
theorem htonl_lt (e : Endian) (v : Nat) : htonl e v < 2 ^ 32 := by
  cases e with
  | little =>
    have h := ofBytesLE_lt (bytesLE 4 v).reverse (by
      intro b hb
      exact bytesLE_lt 4 v b (by simpa using hb))
    simp only [List.length_reverse, bytesLE_length] at h
    simp only [htonl, bswap32, ofBytesBE_eq]
    exact h
  | big => exact Nat.mod_lt _ (by decide)

/-- On one host, `ntohl` undoes `htonl`. -/
theorem ntohl_htonl (e : Endian) (x : Nat) (hx : x < 2 ^ 32) : ntohl e (htonl e x) = x := by
  cases e with
  | little =>
    simp only [ntohl, htonl, bswap32]
    rw [ofBytesBE_bswap]
    exact Nat.mod_eq_of_lt hx
  | big =>
    simp only [ntohl, htonl]
    rw [Nat.mod_mod, Nat.mod_eq_of_lt hx]

/-- A datagram of 4 bytes fills a buffer of 4 bytes. -/
theorem recvInto_word (e : Endian) (old v : Nat) (d : Datagram)
    (hd : d.bytes = memBytes e 4 v) : recvInto (memBytes e 4 old) d = memBytes e 4 v := by
  have h1 := memBytes_length e 4 old
  have h2 := memBytes_length e 4 v
  unfold recvInto
  rw [hd, List.take_of_length_le (by omega), List.drop_eq_nil_of_le (by omega),
    List.append_nil]

/-- What the link reads from the two datagrams that the head sends it for the successor `x`:
`answer` returns `x`, converted to `int`. -/
theorem answer_successor (e : Endian) (env : AnswerEnv) (hsock : env.socketOk = true)
    (hbind : env.bindOk = true) (hsend : env.sendtoOk = true) (port head : Nat) (x : Nat)
    (hx : x < 2 ^ 32) :
    (answer e env (some ⟨[C_LINK_SERVER_OK], port, head⟩
        :: some ⟨[C_NEXT_LINK_IP], port, head⟩
        :: some ⟨memBytes e 4 (htonl e x), port, head⟩ :: [])).2 = .returned (toInt32 x) := by
  have h1 : awaitServer 0 (some ⟨[C_LINK_SERVER_OK], port, head⟩
        :: some ⟨[C_NEXT_LINK_IP], port, head⟩
        :: some ⟨memBytes e 4 (htonl e x), port, head⟩ :: [])
      = .returned (⟨port, head⟩, [some ⟨[C_NEXT_LINK_IP], port, head⟩,
          some ⟨memBytes e 4 (htonl e x), port, head⟩]) :=
    awaitServer_accepts 0 ⟨[C_LINK_SERVER_OK], port, head⟩ C_LINK_SERVER_OK rfl (by decide) _
  have h2 : awaitNextLink [some ⟨[C_NEXT_LINK_IP], port, head⟩,
        some ⟨memBytes e 4 (htonl e x), port, head⟩]
      = .returned [some ⟨memBytes e 4 (htonl e x), port, head⟩] := by
    have : (recvInto [0] ⟨[C_NEXT_LINK_IP], port, head⟩).headD 0 = C_NEXT_LINK_IP :=
      recvInto_byte 0 C_NEXT_LINK_IP _ rfl
    simp only [awaitNextLink, this]
    rfl
  have h3 := recvInto_word e env.indeterminate (htonl e x)
    ⟨memBytes e 4 (htonl e x), port, head⟩ rfl
  have h4 : memLoad e (memBytes e 4 (htonl e x)) = htonl e x := by
    rw [memLoad_memBytes]
    exact Nat.mod_eq_of_lt (htonl_lt e x)
  simp only [answer, hsock, hbind, hsend, h1, h2, h3, h4, ntohl_htonl e x hx, Bool.not_true,
    Bool.false_eq_true, if_false]

/-- What the successor loop of the head sends to the link `link` whose successor in the array
is `x`. -/
theorem distribute_one (e : Endian) (link x : Nat) :
    (distribute e netOk [link, x] 1 0 1 []).1
      = [⟨link, [C_NEXT_LINK_IP]⟩, ⟨link, memBytes e 4 (htonl e x)⟩] := by
  simp [distribute, arrGet, netOk]

/-- C27: the address of the successor, from the head to the link, on hosts of the same byte
order `e`. Let `x` be the 32-bit value that `netScan` holds in `links[j + 1]` for the link
`links[j]` (the `s_addr` of the next replier, or 0 for the tail). The successor loop sends
the link the command and the 4 bytes of `htonl (x)`; from these datagrams `answer` returns
`ntohl` of the word received, converted to `int`, which is `x` converted to `int`;
`linkClient` converts it back to `in_addr_t`, which gives `x` again: the address it connects
to, if it connects, is `x`, it does connect to `x` when `x` is not 0 and every call succeeds,
and for `x = 0` the value received is 0 and no connection is made. -/
theorem successor_address_round_trip (e : Endian) (x : Nat) (hx : x < 2 ^ 32)
    (link port head : Nat) (aenv : AnswerEnv) (hsock : aenv.socketOk = true)
    (hbind : aenv.bindOk = true) (hsend : aenv.sendtoOk = true) (env : ClientEnv) :
    (answer e aenv (some ⟨[C_LINK_SERVER_OK], port, head⟩
        :: delivered port head (distribute e netOk [link, x] 1 0 1 []).1)).2
        = .returned (toInt32 x)
      ∧ toUInt32 (toInt32 x) = x
      ∧ ntohl e (memLoad e (memBytes e 4 (htonl e x))) = x
      ∧ (∀ p a, NetCall.connect p a ∈ (linkClient env (answer e aenv
            (some ⟨[C_LINK_SERVER_OK], port, head⟩
              :: delivered port head (distribute e netOk [link, x] 1 0 1 []).1)).2).1
          → p = PORT_DATA ∧ a = x ∧ x ≠ 0)
      ∧ (x ≠ 0 → 0 ≤ env.sock_sender → 0 ≤ env.bind → 0 ≤ env.listen → 0 ≤ env.fdo
          → 0 ≤ env.fdd → 0 ≤ env.connect →
          NetCall.connect PORT_DATA x ∈ (linkClient env (answer e aenv
            (some ⟨[C_LINK_SERVER_OK], port, head⟩
              :: delivered port head (distribute e netOk [link, x] 1 0 1 []).1)).2).1)
      ∧ (x = 0 → toInt32 x = 0) := by
  have hans : (answer e aenv (some ⟨[C_LINK_SERVER_OK], port, head⟩
        :: delivered port head (distribute e netOk [link, x] 1 0 1 []).1)).2
        = .returned (toInt32 x) := by
    rw [distribute_one]
    exact answer_successor e aenv hsock hbind hsend port head x hx
  have hround := toUInt32_toInt32 x hx
  obtain ⟨hlo, hhi⟩ := toInt32_range x
  obtain ⟨hpre, hfull⟩ := linkClient_calls env (toInt32 x) hlo hhi
  have hzero : toInt32 x = 0 ↔ x = 0 := by
    rw [← toUInt32_eq_zero (toInt32 x) hlo hhi, hround]
  refine ⟨hans, hround, ?_, ?_, ?_, ?_⟩
  · rw [memLoad_memBytes, Nat.mod_eq_of_lt (by simpa using htonl_lt e x)]
    exact ntohl_htonl e x hx
  · intro p a hmem
    rw [hans] at hmem
    have hmem1 := (List.IsPrefix.sublist hpre).subset hmem
    by_cases hs : toInt32 x = 0
    · simp [relayAssembly, hs] at hmem1
    · have hx0 : x ≠ 0 := fun h => hs (hzero.2 h)
      simp only [relayAssembly, hs, if_false, hround] at hmem1
      simp at hmem1
      exact ⟨hmem1.1, hmem1.2, hx0⟩
  · intro hx0 h1 h2 h3 h4 h5 h6
    rw [hans]
    have hs : toInt32 x ≠ 0 := fun h => hx0 (hzero.1 h)
    rw [hfull (linkClient_returns env (toInt32 x) h1 h2 h3 h4 h5 h6)]
    simp [relayAssembly, hs, hround]
  · intro h
    exact hzero.2 h

theorem successor_address_round_trip_witness :
    (3355443210 : Nat) < 2 ^ 32
      ∧ (answer .little answerOk (some ⟨[C_LINK_SERVER_OK], 40000, 16777226⟩
          :: delivered 40000 16777226
              (distribute .little netOk [33554442, 3355443210] 1 0 1 []).1)).2
          = .returned (toInt32 3355443210)
      ∧ toUInt32 (toInt32 3355443210) = 3355443210 :=
  ⟨by decide,
    (successor_address_round_trip .little 3355443210 (by decide) 33554442 40000 16777226
      answerOk rfl rfl rfl clientOk).1,
    (successor_address_round_trip .little 3355443210 (by decide) 33554442 40000 16777226
      answerOk rfl rfl rfl clientOk).2.1⟩

/-! ## Theorems on the scratch directory -/

/-- When `mkdtemp` has created the scratch directory and the mount step fails, `doMount`
ends with `MountException`, with the directory created and the mount table as it was. -/
theorem doMount_mount_failure (env : SysEnv) (m : Machine) (p : Partition) (tmpDir : String)
    (hmtab : env.setmntent = true) (hsup : p._fs.mountSupport = true)
    (hnot : scanMtab env p._path p._uuid (uuidDevPathOf p) m.mtab = none)
    (hdir : env.mkdtemp = some tmpDir)
    (hfail : (p._fs.mountExternal = false ∧ env.mount = false)
      ∨ (p._fs.mountExternal = true ∧ env.spawnExit < 0)) :
    p.doMount env m
      = ({ m.log .doMount with dirs := tmpDir :: m.dirs }, p.setMountPoint tmpDir,
          .threw .MountException) := by
  unfold uuidDevPathOf at hnot
  have hnot1 : scanMtab env p._path p._uuid ("/dev/disk/by-uuid/" ++ bytesToString p._uuid)
      (m.log .doMount).mtab = none := hnot
  rcases hfail with ⟨hext, hmount⟩ | ⟨hext, hexit⟩
  · simp only [Partition.doMount, Partition.isMounted, hsup, hmtab, hnot1, hext, hdir, hmount,
      Bool.not_true, Bool.not_false, Bool.false_eq_true, if_false, if_true]
    rfl
  · have hne : ¬ env.spawnExit = 0 := by omega
    simp only [Partition.doMount, Partition.isMounted, Partition.externalMount, hsup, hmtab,
      hnot1, hext, hdir, hexit, hne, Bool.not_true, Bool.false_eq_true, if_false, if_true]
    rfl

/-- C23 (the code departs from the claim): the scratch directory after a failed mount. When
the partition is not in the mount table, `mkdtemp` creates the scratch directory `tmpDir` and
the mount step fails (the native `mount`, or the external command with a negative exit
value), `doMount` ends with `MountException` and adds no entry to the mount table, as claimed;
but the directory exists when `doMount` is left, and the call of `doUmount` that the
destructor makes returns without removing it, because `isMounted` finds no line for the
partition: the scratch directory still exists at the end of life of the `Partition`. -/
theorem doMount_failure_leaves_scratch_directory (env : SysEnv) (m : Machine) (p : Partition)
    (tmpDir : String) (hmtab : env.setmntent = true) (hsup : p._fs.mountSupport = true)
    (hnot : scanMtab env p._path p._uuid (uuidDevPathOf p) m.mtab = none)
    (hdir : env.mkdtemp = some tmpDir)
    (hfail : (p._fs.mountExternal = false ∧ env.mount = false)
      ∨ (p._fs.mountExternal = true ∧ env.spawnExit < 0)) :
    (p.doMount env m).2.2 = .threw .MountException
      ∧ tmpDir ∈ (p.doMount env m).1.dirs
      ∧ (p.doMount env m).1.mtab = m.mtab
      ∧ ((p.doMount env m).2.1.doUmount env (p.doMount env m).1).2.2 = .returned ()
      ∧ tmpDir ∈ ((p.doMount env m).2.1.doUmount env (p.doMount env m).1).1.dirs
      ∧ ((p.doMount env m).2.1.doUmount env (p.doMount env m).1).1.mtab = m.mtab := by
  rw [doMount_mount_failure env m p tmpDir hmtab hsup hnot hdir hfail]
  unfold uuidDevPathOf at hnot
  have hum : (p.setMountPoint tmpDir).doUmount env
        { m.log .doMount with dirs := tmpDir :: m.dirs }
      = (({ m.log .doMount with dirs := tmpDir :: m.dirs } : Machine).log .doUmount,
          p.setMountPoint tmpDir, .returned ()) := by
    have hnot1 : scanMtab env (p.setMountPoint tmpDir)._path (p.setMountPoint tmpDir)._uuid
        ("/dev/disk/by-uuid/" ++ bytesToString (p.setMountPoint tmpDir)._uuid)
        (({ m.log .doMount with dirs := tmpDir :: m.dirs } : Machine).log .doUmount).mtab
        = none := hnot
    simp only [Partition.doUmount, Partition.isMounted, hmtab, hnot1, Bool.not_true,
      Bool.not_false, Bool.false_eq_true, Bool.true_or, if_false, if_true]
  rw [hum]
  refine ⟨rfl, ?_, rfl, rfl, ?_, rfl⟩
  · exact List.mem_cons_self _ _
  · exact List.mem_cons_self _ _

theorem doMount_failure_leaves_scratch_directory_witness :
    examplePartition.doMount mountRefusedEnv emptyMachine
        = (⟨[], [], ["/tmp/doclone-x1"], [.doMount]⟩, mountedPartition,
            .threw .MountException)
      ∧ "/tmp/doclone-x1" ∈ ((examplePartition.doMount mountRefusedEnv emptyMachine).2.1.doUmount
          mountRefusedEnv (examplePartition.doMount mountRefusedEnv emptyMachine).1).1.dirs :=
  ⟨by decide,
    (doMount_failure_leaves_scratch_directory mountRefusedEnv emptyMachine examplePartition
      "/tmp/doclone-x1" rfl rfl rfl rfl (Or.inl ⟨rfl, rfl⟩)).2.2.2.2.1⟩

/-! ## Theorems on Partition::fitInDevice -/

theorem f64ToUInt64_examples :
    f64ToUInt64 0x41B0000000000000 = some 268435456 ∧ f64ToUInt64 0 = some 0 := by
  constructor
  · have h : f64Decode 0x41B0000000000000 = .finite 268435456 := by norm_num [f64Decode]
    have hf : ⌊(268435456 : ℚ)⌋₊ = 268435456 := Nat.floor_natCast 268435456
    simp only [f64ToUInt64, h, hf]
    norm_num
  · have h : f64Decode 0 = .finite 0 := by norm_num [f64Decode]
    simp only [f64ToUInt64, h]
    norm_num

/-- The conversion of a finite `double` to `uint64_t`, when it is defined, is the integer part
of its value. -/
theorem f64ToUInt64_finite (bits : Nat) (q : ℚ) (t : Nat) (h : f64Decode bits = .finite q)
    (ht : f64ToUInt64 bits = some t) : t = ⌊q⌋₊ := by
  simp only [f64ToUInt64, h] at ht
  split at ht
  · exact (Option.some.inj ht).symm
  · exact absurd ht (by simp)

/-- C24: the test of `fitInDevice`. The target is the product of the device size and
`_usedPart`, computed on `double` and converted to `uint64_t` (`t`, when this conversion is
defined), and `fitInDevice` returns true exactly when `_minSize < t`: a partition whose
`_minSize` equals the target, as with `_minSize = 0` and a target of 0, does not fit. With a
conversion and a product rounded to nearest, the target is the integer part of `D * x`
itself, for the device size `D` and the value `x` of `_usedPart`, whenever `D` and `D * x`
are values of `double`. -/
theorem fitInDevice_strict_target (fpu : FpuProduct) (D : Nat) (p : Partition) (t : Nat)
    (ht : f64ToUInt64 (fpu.mul (fpu.ofUInt64 D) p._usedPart) = some t) :
    p.fitInDevice fpu D = .returned (decide (p._minSize < t))
      ∧ (p.fitInDevice fpu D = .returned true ↔ p._minSize < t)
      ∧ (p._minSize = t → p.fitInDevice fpu D = .returned false)
      ∧ (p._minSize = 0 → t = 0 → p.fitInDevice fpu D = .returned false)
      ∧ (∀ x : ℚ, f64Decode p._usedPart = .finite x →
          f64Nearest (fpu.ofUInt64 D) D →
          (∀ a, f64Decode (fpu.ofUInt64 D) = .finite a →
            f64Nearest (fpu.mul (fpu.ofUInt64 D) p._usedPart) (a * x)) →
          (∃ b, f64Decode b = .finite D) → (∃ b, f64Decode b = .finite (D * x)) →
          t = ⌊(D : ℚ) * x⌋₊) := by
  have hfit : p.fitInDevice fpu D = .returned (decide (p._minSize < t)) := by
    simp only [Partition.fitInDevice, ht]
  refine ⟨hfit, ?_, ?_, ?_, ?_⟩
  · rw [hfit]
    simp
  · intro h
    rw [hfit]
    simp [h]
  · intro h0 ht0
    rw [hfit]
    simp [h0, ht0]
  · intro x _ hconv hmul ⟨b1, hb1⟩ ⟨b2, hb2⟩
    have hD := f64Nearest_representable _ b1 _ hconv hb1
    have hprod := f64Nearest_representable _ b2 _ (hmul D hD) hb2
    exact f64ToUInt64_finite _ _ t hprod ht

theorem fitInDevice_strict_target_witness :
    examplePartition.fitInDevice exampleFpuProduct 536870912 = .returned true
      ∧ emptyPartition.fitInDevice exampleFpuProduct 536870912 = .returned false :=
  ⟨((fitInDevice_strict_target exampleFpuProduct 536870912 examplePartition 268435456
      f64ToUInt64_examples.1).2.1).2 (by decide),
    (fitInDevice_strict_target exampleFpuProduct 536870912 emptyPartition 0
      f64ToUInt64_examples.2).2.2.2.1 rfl rfl⟩

/-! ## Theorems on Partition::initFlags -/

theorem initFlags_eq_list (F : PedPartitionFlag → Nat) (pPart : PedPartition) (p : Partition) :
    (p.initFlags F pPart)._flags = orFlagList F pPart flagOrder 0 := rfl

/-- The bits of the value that the statements of `initFlags` leave, when each constant is one
bit: those of the value at the start, and the bits of the flags that are set. -/
theorem orFlagList_testBit (F : PedPartitionFlag → Nat) (k : PedPartitionFlag → Nat)
    (hF : ∀ f, F f = 2 ^ k f) (pPart : PedPartition) (j : Nat) :
    ∀ (fs : List PedPartitionFlag) (flags : Nat),
      (orFlagList F pPart fs flags).testBit j
        = (flags.testBit j || decide (∃ f ∈ fs, pPart.flagState f = true ∧ k f = j)) := by
  intro fs
  induction fs with
  | nil => intro flags; simp [orFlagList]
  | cons f fs ih =>
    intro flags
    rw [orFlagList, ih]
    unfold orIfSet
    by_cases hs : pPart.flagState f = true
    · simp only [hs, if_true, Nat.testBit_or, hF f, Nat.testBit_two_pow]
      by_cases hk : k f = j
      · simp [hk, hs]
      · simp [hk]
    · simp [hs]

theorem exampleF_bit (f : PedPartitionFlag) : exampleF f = 2 ^ exampleBit f := by
  cases f <;> rfl

theorem exampleBit_injective : Function.Injective exampleBit := by
  intro a b h
  cases a <;> cases b <;> first | rfl | exact absurd h (by decide)

/-- C25: the flag bitset of `initFlags`. When the constants `F_...` are 14 different bits
(`F f = 2 ^ k f` with `k` injective), the bit of each of the 14 flags is set in `_flags` if
and only if the library reports the flag set, and every other bit is clear; whatever the
constants are, for a partition with the flag `boot` only, `_flags` is exactly `F_BOOT`. -/
theorem initFlags_bitset (F : PedPartitionFlag → Nat) (k : PedPartitionFlag → Nat)
    (hF : ∀ f, F f = 2 ^ k f) (hk : Function.Injective k) (pPart : PedPartition)
    (p : Partition) :
    (∀ f, (p.initFlags F pPart)._flags.testBit (k f) = pPart.flagState f)
      ∧ (∀ j, (∀ f, k f ≠ j) → (p.initFlags F pPart)._flags.testBit j = false)
      ∧ (∀ (G : PedPartitionFlag → Nat) (q : PedPartition),
          (∀ f, q.flagState f = decide (f = .BOOT)) → (p.initFlags G q)._flags = G .BOOT) := by
  refine ⟨?_, ?_, ?_⟩
  · intro f
    rw [initFlags_eq_list, orFlagList_testBit F k hF pPart (k f) flagOrder 0]
    simp only [Nat.zero_testBit, Bool.false_or]
    by_cases hs : pPart.flagState f = true
    · rw [hs, decide_eq_true_iff]
      exact ⟨f, flagOrder_complete f, hs, rfl⟩
    · have hs1 : pPart.flagState f = false := by simpa using hs
      rw [hs1, decide_eq_false_iff_not]
      rintro ⟨g, _, hg, hkg⟩
      rw [hk hkg] at hg
      exact hs hg
  · intro j hj
    rw [initFlags_eq_list, orFlagList_testBit F k hF pPart j flagOrder 0]
    simp only [Nat.zero_testBit, Bool.false_or]
    rw [decide_eq_false_iff_not]
    rintro ⟨g, _, _, hkg⟩
    exact hj g hkg
  · intro G q hq
    simp [Partition.initFlags, orIfSet, hq]

theorem initFlags_bitset_witness :
    (∀ f, (examplePartition.initFlags exampleF examplePedPartition)._flags.testBit
        (exampleBit f) = examplePedPartition.flagState f)
      ∧ (examplePartition.initFlags exampleF bootOnlyPedPartition)._flags = exampleF .BOOT :=
  ⟨(initFlags_bitset exampleF exampleBit exampleF_bit exampleBit_injective examplePedPartition
      examplePartition).1,
    (initFlags_bitset exampleF exampleBit exampleF_bit exampleBit_injective examplePedPartition
      examplePartition).2.2 exampleF bootOnlyPedPartition (fun f => by cases f <;> rfl)⟩

/-! ## Theorems on the bounds of the array of links -/

/-- When the replies that carry `C_LINK_CLIENT_OK` are enough to fill the array from the
index `i`, the loop writes the terminator of the last element outside the array, whatever
other datagrams arrive in between. -/
theorem scanLoop_faults_when_full (L : Nat) (h0 : 0 < L) (h1 : L < 2 ^ 32) :
    ∀ (replies : List Reply) (fuel i : Nat) (links : List Nat), links.length = L → i < L →
      L ≤ i + (okAddrs replies).length → replies.length < fuel →
      scanLoop L fuel replies i links = .fault := by
  intro replies
  induction replies with
  | nil =>
    intro fuel i links _ hi hfull _
    simp [okAddrs] at hfull
    omega
  | cons r rest ih =>
    intro fuel i links hl hi hfull hf
    simp only [List.length_cons] at hf
    obtain ⟨f, rfl⟩ : ∃ f, fuel = f + 1 := ⟨fuel - 1, by omega⟩
    rw [scanLoop, linksNum_bound L h0 h1, if_pos (by omega)]
    by_cases hbit : r.response &&& C_LINK_CLIENT_OK = 0
    · rw [if_pos hbit]
      rw [okAddrs_cons_drop r rest hbit] at hfull
      exact ih f i links hl hi hfull (by omega)
    · rw [if_neg hbit]
      rw [okAddrs_cons_ok r rest hbit, List.length_cons] at hfull
      have hi1 : i < links.length := by omega
      simp only [arrSet, hi1, if_true, List.length_set]
      by_cases hi2 : i + 1 < links.length
      · simp only [hi2, if_true]
        exact ih f (i + 1) _ (by simp only [List.length_set]; exact hl) (by omega) (by omega)
          (by omega)
      · simp only [hi2, if_false]

/-- When the replies that carry `C_LINK_CLIENT_OK` leave room for a terminator, the loop
returns with their number added to the index, and the array keeps its length. -/
theorem scanLoop_returns_below (L : Nat) (h0 : 0 < L) (h1 : L < 2 ^ 32) :
    ∀ (replies : List Reply) (fuel i : Nat) (links : List Nat), links.length = L →
      i + (okAddrs replies).length < L → replies.length < fuel →
      ∃ links1, scanLoop L fuel replies i links
          = .returned (i + (okAddrs replies).length, links1) ∧ links1.length = L := by
  intro replies
  induction replies with
  | nil =>
    intro fuel i links hl _ hf
    obtain ⟨f, rfl⟩ : ∃ f, fuel = f + 1 := ⟨fuel - 1, by simp at hf; omega⟩
    exact ⟨links, by simp [scanLoop, okAddrs], hl⟩
  | cons r rest ih =>
    intro fuel i links hl hroom hf
    simp only [List.length_cons] at hf
    obtain ⟨f, rfl⟩ : ∃ f, fuel = f + 1 := ⟨fuel - 1, by omega⟩
    rw [scanLoop, linksNum_bound L h0 h1, if_pos (by omega)]
    by_cases hbit : r.response &&& C_LINK_CLIENT_OK = 0
    · rw [if_pos hbit, okAddrs_cons_drop r rest hbit]
      rw [okAddrs_cons_drop r rest hbit] at hroom
      exact ih f i links hl hroom (by omega)
    · rw [if_neg hbit, okAddrs_cons_ok r rest hbit, List.length_cons]
      rw [okAddrs_cons_ok r rest hbit, List.length_cons] at hroom
      have hi1 : i < links.length := by omega
      have hi2 : i + 1 < links.length := by omega
      simp only [arrSet, hi1, hi2, if_true, List.length_set]
      obtain ⟨links1, hrun, hlen⟩ := ih f (i + 1) ((links.set i r.s_addr).set (i + 1) 0)
        (by simp only [List.length_set]; exact hl) (by omega) (by omega)
      exact ⟨links1, by rw [hrun, show i + 1 + (okAddrs rest).length
        = i + ((okAddrs rest).length + 1) by omega], hlen⟩

/-- The successor loop reads inside the array as long as the element after the last link is
inside it. -/
theorem distribute_in_bounds (e : Endian) (env : NetEnv) (links : List Nat) :
    ∀ (n j k : Nat) (tr : List Sent), j + n < links.length →
      (distribute e env links n j k tr).2 ≠ .fault
        ∧ (distribute e env links n j k tr).2 ≠ .noFuel := by
  intro n
  induction n with
  | zero => intro j k tr _; simp [distribute]
  | succ n ih =>
    intro j k tr hj
    have hj0 : j < links.length := by omega
    have hj1 : j + 1 < links.length := by omega
    rw [distribute]
    simp only [arrGet, List.getElem?_eq_getElem hj0, List.getElem?_eq_getElem hj1]
    by_cases hk : env.sendtoOk k = true
    · by_cases hk1 : env.sendtoOk (k + 1) = true
      · simp only [hk, hk1, Bool.not_true, Bool.false_eq_true, if_false]
        exact ih (j + 1) (k + 2) _ (by omega)
      · simp [hk, hk1]
    · simp [hk]

/-- C26 (the code departs from the claim): the bounds of the array `links`. With
`_linksNum = L` and a discovery that reads every datagram, `netScan` accesses the array
`links` of `L` elements outside its bounds if and only if at least `L` of the datagrams
received carry `C_LINK_CLIENT_OK`: the `L`-th of them is stored in `links[L - 1]`, the last
element, and its terminator is written to `links[L]`, which is not an element of the array.
With fewer than `L` such replies every access is inside the array. -/
theorem netScan_links_index_out_of_bounds (e : Endian) (L : Nat) (h0 : 0 < L)
    (h1 : L < 2 ^ 32) (env : NetEnv) (hsock : env.socketOk = true)
    (hsend : env.sendtoOk 0 = true) (replies : List Reply) (fuel : Nat)
    (hfuel : replies.length < fuel) :
    ((netScan e L env fuel replies).2 = .fault ↔ L ≤ (okAddrs replies).length)
      ∧ (∀ (links : List Nat) (v : Nat), links.length = L →
          (arrSet links (L - 1) v).isSome = true ∧ arrSet links (L - 1 + 1) 0 = none) := by
  constructor
  · by_cases hfull : L ≤ (okAddrs replies).length
    · have hscan := scanLoop_faults_when_full L h0 h1 replies fuel 0
        ((List.range L).map env.indeterminate) (by simp) h0 (by omega) hfuel
      simp only [netScan, hsock, hsend, hscan, Bool.not_true, Bool.false_eq_true, if_false,
        hfull]
    · obtain ⟨links1, hscan, hlen⟩ := scanLoop_returns_below L h0 h1 replies fuel 0
        ((List.range L).map env.indeterminate) (by simp) (by omega) hfuel
      rw [Nat.zero_add] at hscan
      have hd := distribute_in_bounds e env links1 (okAddrs replies).length 0 1
        [⟨multicastGroup e, [C_LINK_SERVER_OK]⟩] (by omega)
      obtain ⟨first, hget⟩ : ∃ first, arrGet links1 0 = some first := by
        unfold arrGet
        exact ⟨_, List.getElem?_eq_getElem (by omega)⟩
      simp only [netScan, hsock, hsend, hscan, Bool.not_true, Bool.false_eq_true, if_false,
        hfull, iff_false]
      by_cases hz : (okAddrs replies).length = 0
      · simp [hz]
      · simp only [hz, if_false]
        rcases hrun : distribute e env links1 (okAddrs replies).length 0 1
            [⟨multicastGroup e, [C_LINK_SERVER_OK]⟩] with ⟨tr, o⟩
        rw [hrun] at hd
        cases o with
        | returned u => simp [hget]
        | threw c => simp
        | fault => exact absurd rfl hd.1
        | noFuel => simp
  · intro links v hl
    constructor
    · simp [arrSet, hl, h0]
    · simp [arrSet, hl]
      omega


theorem netScan_links_index_out_of_bounds_witness :
    LINKS_NUM ≤ (okAddrs (⟨0, 99⟩ :: okReplies 64)).length
      ∧ (netScan .little LINKS_NUM netOk 66 (⟨0, 99⟩ :: okReplies 64)).2 = .fault :=
  ⟨by decide,
    (netScan_links_index_out_of_bounds .little LINKS_NUM (by decide) (by decide) netOk rfl rfl
      (⟨0, 99⟩ :: okReplies 64) 66 (by decide)).1.2 (by decide)⟩

/-! ## Theorems on Link::netScan in the memory of the compiled code -/

/-- On a memory of `_linksNum` words, which is the array alone, `netScanIn` is `netScan`. -/
theorem netScanIn_array (e : Endian) (L : Nat) (env : NetEnv) (fuel : Nat)
    (replies : List Reply) :
    netScanIn e L env fuel replies ((List.range L).map env.indeterminate)
      = netScan e L env fuel replies := rfl

/-- While the guard `i <= _linksNum - 1` lets them in and the memory holds the address and
its terminator, the loop stores every reply that carries `C_LINK_CLIENT_OK`. -/
theorem scanLoop_stores_in (L : Nat) (h0 : 0 < L) (h1 : L < 2 ^ 32) (replies : List Reply)
    (hok : ∀ r ∈ replies, r.response &&& C_LINK_CLIENT_OK ≠ 0) :
    ∀ (fuel i : Nat) (links : List Nat), i + replies.length ≤ L →
      i + replies.length < links.length → replies.length < fuel →
      scanLoop L fuel replies i links
        = .returned (i + replies.length, stored links i (replies.map Reply.s_addr)) := by
  induction replies with
  | nil =>
    intro fuel i links _ _ hf
    obtain ⟨f, rfl⟩ : ∃ f, fuel = f + 1 := ⟨fuel - 1, by simp at hf; omega⟩
    simp [scanLoop, stored]
  | cons r rest ih =>
    intro fuel i links hi hmem hf
    simp only [List.length_cons] at hi hmem hf
    obtain ⟨f, rfl⟩ : ∃ f, fuel = f + 1 := ⟨fuel - 1, by omega⟩
    have hr : r.response &&& C_LINK_CLIENT_OK ≠ 0 := hok r (List.mem_cons_self _ _)
    have hrest : ∀ r ∈ rest, r.response &&& C_LINK_CLIENT_OK ≠ 0 :=
      fun x hx => hok x (List.mem_cons_of_mem _ hx)
    have hi1 : i < links.length := by omega
    have hi2 : i + 1 < (links.set i r.s_addr).length := by simp; omega
    simp only [scanLoop, linksNum_bound L h0 h1, arrSet, hr, hi1, hi2, if_true, if_false]
    rw [if_pos (by omega)]
    simp only [List.map_cons, stored, List.length_cons]
    rw [ih hrest f (i + 1) _ (by omega) (by simp; omega) (by omega)]
    rw [show i + 1 + rest.length = i + (rest.length + 1) by omega]

/-- The chain that the compiled code computes from replies that all carry
`C_LINK_CLIENT_OK`, not more than `_linksNum`, when the memory holds the terminator of the
last address. -/
theorem netScanIn_chain (e : Endian) (L : Nat) (h0 : 0 < L) (h1 : L < 2 ^ 32)
    (env : NetEnv) (hsock : env.socketOk = true) (hsend : ∀ k, env.sendtoOk k = true)
    (r : Reply) (rest : List Reply)
    (hok : ∀ x ∈ r :: rest, x.response &&& C_LINK_CLIENT_OK ≠ 0)
    (hN : (r :: rest).length ≤ L) (memory : List Nat)
    (hmem : (r :: rest).length < memory.length) (fuel : Nat)
    (hfuel : (r :: rest).length < fuel) :
    netScanIn e L env fuel (r :: rest) memory
      = (⟨multicastGroup e, [C_LINK_SERVER_OK]⟩ :: chainTrace e ((r :: rest).map Reply.s_addr),
         .returned (toInt32 r.s_addr)) := by
  have hscan := scanLoop_stores_in L h0 h1 (r :: rest) hok fuel 0 memory (by omega) (by omega)
    hfuel
  have hlen : 0 + ((r :: rest).map Reply.s_addr).length < memory.length := by
    simp only [List.length_map]; omega
  have hdist := distribute_chain e env hsend
    (stored memory 0 ((r :: rest).map Reply.s_addr))
    ((r :: rest).map Reply.s_addr) 0 1 [⟨multicastGroup e, [C_LINK_SERVER_OK]⟩] (by simp)
    (fun m hm => stored_at _ _ 0 m hlen hm)
    (stored_end _ _ 0 hlen (by simp))
  have hfirst : (stored memory 0 ((r :: rest).map Reply.s_addr))[0]? = some r.s_addr := by
    have := stored_at ((r :: rest).map Reply.s_addr) memory 0 0 hlen (by simp)
    simpa using this
  simp only [List.length_map] at hdist
  simp only [netScanIn, hsock, hsend, hscan, Bool.not_true, Bool.false_eq_true, if_false,
    Nat.zero_add]
  rw [if_neg (by simp)]
  simp only [hdist, arrGet, hfirst]
  rfl

/-- Once the replies that carry `C_LINK_CLIENT_OK` are more than `_linksNum`, and the memory
holds the word after the array, the loop does not end: when `i` has reached `_linksNum` the
next datagram is never read, and `select` reports it again and again. -/
theorem scanLoop_spins (L : Nat) (h0 : 0 < L) (h1 : L < 2 ^ 32) :
    ∀ (fuel : Nat) (replies : List Reply) (i : Nat) (links : List Nat), i ≤ L →
      L < links.length → L < i + (okAddrs replies).length →
      scanLoop L fuel replies i links = .noFuel := by
  intro fuel
  induction fuel with
  | zero => intro replies i links _ _ _; simp [scanLoop]
  | succ fuel ih =>
    intro replies i links hi hmem hmore
    cases replies with
    | nil =>
      simp [okAddrs] at hmore
      omega
    | cons r rest =>
      rw [scanLoop, linksNum_bound L h0 h1]
      by_cases hcap : i ≤ L - 1
      · rw [if_pos hcap]
        by_cases hbit : r.response &&& C_LINK_CLIENT_OK = 0
        · rw [if_pos hbit]
          rw [okAddrs_cons_drop r rest hbit] at hmore
          exact ih rest i links hi hmem hmore
        · rw [if_neg hbit]
          rw [okAddrs_cons_ok r rest hbit, List.length_cons] at hmore
          have hi1 : i < links.length := by omega
          have hi2 : i + 1 < links.length := by omega
          simp only [arrSet, hi1, hi2, if_true, List.length_set]
          exact ih rest (i + 1) _ (by omega) (by simp only [List.length_set]; exact hmem)
            (by omega)
      · rw [if_neg hcap]
        exact ih (r :: rest) i links hi hmem hmore

/-- The links of the chain are those that are sent `C_NEXT_LINK_IP`. -/
theorem successorLinks_chainTrace (e : Endian) : ∀ as : List Nat,
    successorLinks (chainTrace e as) = as := by
  intro as
  induction as with
  | nil => rfl
  | cons a as ih =>
    cases as with
    | nil =>
      have h := successorLinks_append [⟨a, [C_NEXT_LINK_IP]⟩] [⟨a, memBytes e 4 (htonl e 0)⟩]
      simp only [List.singleton_append] at h
      simp only [chainTrace, h, successorLinks_command, successorLinks_address]
      rfl
    | cons b bs =>
      have h := successorLinks_append [⟨a, [C_NEXT_LINK_IP]⟩]
        (⟨a, memBytes e 4 (htonl e b)⟩ :: chainTrace e (b :: bs))
      have h2 := successorLinks_append [⟨a, memBytes e 4 (htonl e b)⟩] (chainTrace e (b :: bs))
      simp only [List.singleton_append] at h h2
      simp only [chainTrace, h, h2, successorLinks_command, successorLinks_address, ih]
      rfl

/-- When all the replies carry `C_LINK_CLIENT_OK`, their addresses are the recorded ones. -/
theorem okAddrs_all (replies : List Reply)
    (hok : ∀ x ∈ replies, x.response &&& C_LINK_CLIENT_OK ≠ 0) :
    okAddrs replies = replies.map Reply.s_addr := by
  induction replies with
  | nil => rfl
  | cons r rest ih =>
    rw [okAddrs_cons_ok r rest (hok r (List.mem_cons_self _ _)),
      ih (fun x hx => hok x (List.mem_cons_of_mem _ hx))]
    rfl

/-- C1: the chain discovery, with `_linksNum = L`, for `N` replies that all carry
`C_LINK_CLIENT_OK`, `1 <= N <= L` (`L = LINKS_NUM = 64` in the claim). The compiled code,
whose frame holds at least one word after the array `links`, announces itself to the group,
sends each replier, in arrival order, `C_NEXT_LINK_IP` and then the address of the next
replier, sends the last one the successor 0, and returns the address of the first replier.
For `N < L` every access is inside the array, and `netScan`, in which an access outside the
array is a fault, gives the same result. For `N = L` the terminator of the last address is the
word after the array (the access outside the bounds that the claim on the bounds is about):
the compiled code writes it and reads it back, so that the tail is sent 0. -/
theorem netScan_chain_discovery (e : Endian) (L : Nat) (h0 : 0 < L) (h1 : L < 2 ^ 32)
    (env : NetEnv) (hsock : env.socketOk = true) (hsend : ∀ k, env.sendtoOk k = true)
    (r : Reply) (rest : List Reply)
    (hok : ∀ x ∈ r :: rest, x.response &&& C_LINK_CLIENT_OK ≠ 0)
    (hN : (r :: rest).length ≤ L) (fuel : Nat) (hfuel : (r :: rest).length < fuel) :
    (∀ memory : List Nat, L < memory.length →
        netScanIn e L env fuel (r :: rest) memory
          = (⟨multicastGroup e, [C_LINK_SERVER_OK]⟩
              :: chainTrace e ((r :: rest).map Reply.s_addr),
             .returned (toInt32 r.s_addr))
          ∧ successorLinks (netScanIn e L env fuel (r :: rest) memory).1
              = (r :: rest).map Reply.s_addr)
      ∧ ((r :: rest).length < L →
          netScan e L env fuel (r :: rest)
            = (⟨multicastGroup e, [C_LINK_SERVER_OK]⟩
                :: chainTrace e ((r :: rest).map Reply.s_addr),
               .returned (toInt32 r.s_addr))) := by
  have hann : successorLinks [(⟨multicastGroup e, [C_LINK_SERVER_OK]⟩ : Sent)] = [] := by
    simp [successorLinks, C_LINK_SERVER_OK, C_NEXT_LINK_IP]
  constructor
  · intro memory hmem
    have h := netScanIn_chain e L h0 h1 env hsock hsend r rest hok hN memory (by omega) fuel
      hfuel
    refine ⟨h, ?_⟩
    rw [h]
    have happ := successorLinks_append [(⟨multicastGroup e, [C_LINK_SERVER_OK]⟩ : Sent)]
      (chainTrace e ((r :: rest).map Reply.s_addr))
    simp only [List.singleton_append] at happ
    rw [happ, hann, successorLinks_chainTrace, List.nil_append]
  · intro hlt
    rw [← netScanIn_array]
    exact netScanIn_chain e L h0 h1 env hsock hsend r rest hok hN _
      (by simp only [List.length_map, List.length_range]; exact hlt) fuel hfuel

theorem netScan_chain_discovery_witness :
    (∀ x ∈ (⟨C_LINK_CLIENT_OK, 1⟩ : Reply)
          :: (List.range 63).map (fun k => (⟨C_LINK_CLIENT_OK, k + 2⟩ : Reply)),
        x.response &&& C_LINK_CLIENT_OK ≠ 0)
      ∧ ((⟨C_LINK_CLIENT_OK, 1⟩ : Reply)
          :: (List.range 63).map (fun k => (⟨C_LINK_CLIENT_OK, k + 2⟩ : Reply))).length
          = LINKS_NUM
      ∧ netScanIn .little LINKS_NUM netOk 65
          (⟨C_LINK_CLIENT_OK, 1⟩
            :: (List.range 63).map (fun k => (⟨C_LINK_CLIENT_OK, k + 2⟩ : Reply)))
          (List.replicate 65 0)
        = (⟨multicastGroup .little, [C_LINK_SERVER_OK]⟩
            :: chainTrace .little (((⟨C_LINK_CLIENT_OK, 1⟩ : Reply)
                :: (List.range 63).map (fun k => (⟨C_LINK_CLIENT_OK, k + 2⟩ : Reply))).map
                  Reply.s_addr),
           .returned (toInt32 1)) :=
  ⟨by decide, by decide,
    ((netScan_chain_discovery .little LINKS_NUM (by decide) (by decide) netOk rfl
      (fun _ => rfl) ⟨C_LINK_CLIENT_OK, 1⟩
      ((List.range 63).map (fun k => (⟨C_LINK_CLIENT_OK, k + 2⟩ : Reply))) (by decide)
      (by decide) 65 (by decide)).1 (List.replicate 65 0) (by decide)).1⟩

/-! ## Theorems on the cap of the chain -/

/-- C18: the cap on the length of the chain, with `_linksNum = L`, in the compiled code, on
every memory (the array `links` and whatever words follow it). However many replies arrive,
and however the run of `netScan` ends, the links to which it sends `C_NEXT_LINK_IP` are at
most `L`, and they are among the first `L` repliers that carry `C_LINK_CLIENT_OK`, in arrival
order: a later reply never enters the chain. When the `select` loop ends, the addresses it
has recorded are those of the replies that carry `C_LINK_CLIENT_OK`, and they are at most
`L`. So the chain has at most `LINKS_NUM = 64` links whenever `_linksNum` is at most
`LINKS_NUM`. The bound is reached: `L` replies make a chain of `L` links. With more than `L`
such replies the loop never ends (the datagram that arrives once `L` addresses are recorded is
never read), and nothing but the announcement is sent. -/
theorem netScan_chain_length_cap (e : Endian) (L : Nat) (h0 : 0 < L) (h1 : L < 2 ^ 32)
    (env : NetEnv) (fuel : Nat) (replies : List Reply) (memory : List Nat) :
    successorLinks (netScanIn e L env fuel replies memory).1 <+: (okAddrs replies).take L
      ∧ (successorLinks (netScanIn e L env fuel replies memory).1).length ≤ L
      ∧ (∀ (i' : Nat) (links' : List Nat),
          scanLoop L fuel replies 0 memory = .returned (i', links') →
          i' ≤ L ∧ links'.take i' = okAddrs replies)
      ∧ (L ≤ LINKS_NUM →
          (successorLinks (netScanIn e L env fuel replies memory).1).length ≤ LINKS_NUM)
      ∧ (env.socketOk = true → env.sendtoOk 0 = true → L < memory.length →
          L < (okAddrs replies).length →
          netScanIn e L env fuel replies memory
            = ([⟨multicastGroup e, [C_LINK_SERVER_OK]⟩], .noFuel))
      ∧ (env.socketOk = true → (∀ k, env.sendtoOk k = true) →
          (∀ x ∈ replies, x.response &&& C_LINK_CLIENT_OK ≠ 0) → replies ≠ [] →
          replies.length ≤ L → replies.length < memory.length → replies.length < fuel →
          successorLinks (netScanIn e L env fuel replies memory).1 = okAddrs replies) := by
  have hrec : ∀ (i' : Nat) (links' : List Nat),
      scanLoop L fuel replies 0 memory = .returned (i', links') →
      i' ≤ L ∧ links'.take i' = okAddrs replies := by
    intro i' links' h
    obtain ⟨c1, c2, c3, _, c5⟩ := scanLoop_records L h0 h1 fuel
      replies 0 memory i' links' (Nat.zero_le _) (Nat.zero_le _) h
    refine ⟨c1, ?_⟩
    rw [Nat.zero_add] at c2
    apply List.ext_getElem?
    intro k
    by_cases hk : k < i'
    · rw [List.getElem?_take_of_lt hk]
      have := c5 k (by omega)
      rw [Nat.zero_add] at this
      exact this
    · rw [List.getElem?_eq_none (by simp only [List.length_take]; omega),
        List.getElem?_eq_none (by omega)]
  have hpre : successorLinks (netScanIn e L env fuel replies memory).1
      <+: (okAddrs replies).take L := by
    have nil_ok : ∀ tr : List Sent, successorLinks tr = [] →
        successorLinks tr <+: (okAddrs replies).take L := by
      intro tr h
      rw [h]
      exact List.nil_prefix
    have h0 : successorLinks [(⟨multicastGroup e, [C_LINK_SERVER_OK]⟩ : Sent)] = [] := by
      simp [successorLinks, C_LINK_SERVER_OK, C_NEXT_LINK_IP]
    unfold netScanIn
    by_cases hsock : env.socketOk = true
    · by_cases hsend : env.sendtoOk 0 = true
      · simp only [hsock, hsend, Bool.not_true, Bool.false_eq_true, if_false]
        cases hscan : scanLoop L fuel replies 0
            memory with
        | noFuel => exact nil_ok _ h0
        | fault => exact nil_ok _ h0
        | threw c => exact nil_ok _ h0
        | returned r =>
          obtain ⟨i, links⟩ := r
          obtain ⟨hi, htake⟩ := hrec i links hscan
          simp only
          by_cases hz : i = 0
          · simp only [hz, if_true]
            exact nil_ok _ h0
          · simp only [hz, if_false]
            obtain ⟨sent, hs, hp⟩ := distribute_links e env links i 0 1
              [⟨multicastGroup e, [C_LINK_SERVER_OK]⟩]
            rw [h0, List.nil_append] at hs
            rw [List.drop_zero, htake] at hp
            have hlen : (okAddrs replies).length ≤ L := by
              rw [← htake, List.length_take]
              omega
            rw [List.take_of_length_le hlen]
            have key : successorLinks (distribute e env links i 0 1
                [⟨multicastGroup e, [C_LINK_SERVER_OK]⟩]).1 <+: okAddrs replies := by
              rw [hs]
              exact hp
            rcases hd : distribute e env links i 0 1
                [⟨multicastGroup e, [C_LINK_SERVER_OK]⟩] with ⟨tr, o⟩
            rw [hd] at key
            cases o with
            | returned u =>
              cases arrGet links 0 <;> exact key
            | threw c => exact key
            | fault => exact key
            | noFuel => exact key
      · simp only [hsock, hsend, Bool.not_true, Bool.false_eq_true, if_false, Bool.not_false,
          if_true]
        exact nil_ok _ rfl
    · simp only [hsock, Bool.not_false, if_true]
      exact nil_ok _ rfl
  have hlen : (successorLinks (netScanIn e L env fuel replies memory).1).length ≤ L := by
    have := List.IsPrefix.length_le hpre
    rw [List.length_take] at this
    omega
  refine ⟨hpre, hlen, hrec, fun hL => Nat.le_trans hlen hL, ?_, ?_⟩
  · intro hsock hsend hmem hmore
    have hspin := scanLoop_spins L h0 h1 fuel replies 0 memory (Nat.zero_le _) hmem
      (by omega)
    simp only [netScanIn, hsock, hsend, hspin, Bool.not_true, Bool.false_eq_true, if_false]
  · intro hsock hsend hok hne hN hmem hfuel
    cases replies with
    | nil => exact absurd rfl hne
    | cons r rest =>
      have h := netScanIn_chain e L h0 h1 env hsock hsend r rest hok hN memory hmem fuel hfuel
      rw [h]
      have hann : successorLinks [(⟨multicastGroup e, [C_LINK_SERVER_OK]⟩ : Sent)] = [] := by
        simp [successorLinks, C_LINK_SERVER_OK, C_NEXT_LINK_IP]
      have happ := successorLinks_append [(⟨multicastGroup e, [C_LINK_SERVER_OK]⟩ : Sent)]
        (chainTrace e ((r :: rest).map Reply.s_addr))
      simp only [List.singleton_append] at happ
      rw [happ, hann, successorLinks_chainTrace, List.nil_append, okAddrs_all _ hok]

theorem netScan_chain_length_cap_witness :
    (successorLinks (netScanIn .little LINKS_NUM netOk 70 (okReplies 66)
        (List.replicate 65 0)).1).length ≤ LINKS_NUM
      ∧ successorLinks (netScanIn .little LINKS_NUM netOk 70 (okReplies 66)
          (List.replicate 65 0)).1 <+: (okAddrs (okReplies 66)).take LINKS_NUM :=
  ⟨(netScan_chain_length_cap .little LINKS_NUM (by decide) (by decide) netOk 70 (okReplies 66)
      (List.replicate 65 0)).2.1,
    (netScan_chain_length_cap .little LINKS_NUM (by decide) (by decide) netOk 70 (okReplies 66)
      (List.replicate 65 0)).1⟩

/-! ## Theorems on the range of the fractions -/

/-- The conversion of a NaN to `uint64_t` is undefined. -/
theorem f64ToUInt64_nan (bits : Nat) (h : f64Decode bits = .nan) : f64ToUInt64 bits = none := by
  simp [f64ToUInt64, h]

/-- C3 (the code departs from the claim): the range tests of the decoding constructor. Its
only tests are `_startPos > 1` and `_usedPart > 1`: a descriptor for which both are false is
accepted, with the two patterns unchanged, also when it does not satisfy the range invariant,
because a fraction is negative or a NaN, or because the sum of the fractions exceeds 1. So
descriptors outside the range are accepted without `InvalidImageException`, and an accepted
`_usedPart` whose product with the device size is a NaN reaches the undefined conversion of
`fitInDevice`. -/
theorem ofPartInfo_accepts_out_of_range_fractions
    (createFilesystem : List Nat → Except ExcClass Filesystem)
    (hnofs : ∃ fs, createFilesystem nofsName = .ok fs) (mem : Beyond) (d : partInfo)
    (hs : f64GtOne d.start_pos = false) (hu : f64GtOne d.used_part = false)
    (hout : ¬ d.fractionsInRange) :
    ∃ q, Partition.ofPartInfo createFilesystem mem d = .returned q
      ∧ q._startPos = d.start_pos ∧ q._usedPart = d.used_part
      ∧ ¬ q._partition.fractionsInRange
      ∧ (∀ (fpu : FpuProduct) (D : Nat),
          f64Decode (fpu.mul (fpu.ofUInt64 D) q._usedPart) = .nan →
          q.fitInDevice fpu D = .fault) := by
  obtain ⟨fs, hfs⟩ := ofPartInfo_driver createFilesystem hnofs (cstr (d.fsName ++ mem.fsName))
  have hr : ∃ q, Partition.ofPartInfo createFilesystem mem d = .returned q
      ∧ q._startPos = d.start_pos ∧ q._usedPart = d.used_part ∧ q._partition = d := by
    simp only [Partition.ofPartInfo, hfs, hs, hu, Bool.false_eq_true, if_false]
    exact ⟨_, rfl, rfl, rfl, rfl⟩
  obtain ⟨q, hq, h1, h2, h3⟩ := hr
  refine ⟨q, hq, h1, h2, by rw [h3]; exact hout, ?_⟩
  · intro fpu D hnan
    simp only [Partition.fitInDevice, f64ToUInt64_nan _ hnan]

theorem ofPartInfo_accepts_out_of_range_fractions_witness :
    (∃ q, Partition.ofPartInfo exampleFactory noBeyond negativeStartInfo = .returned q
        ∧ q._startPos = 0xBFF0000000000000)
      ∧ f64Decode 0xBFF0000000000000 = .finite (-1)
      ∧ (∃ q, Partition.ofPartInfo exampleFactory noBeyond nanUsedInfo = .returned q
        ∧ q._usedPart = 0x7FF8000000000000)
      ∧ f64Decode 0x7FF8000000000000 = .nan := by
  have hneg : f64Decode negativeStartInfo.start_pos = .finite (-1) := by
    norm_num [f64Decode, negativeStartInfo]
  have hzero : f64Decode 0 = .finite 0 := by norm_num [f64Decode]
  have hnan : f64Decode nanUsedInfo.used_part = .nan := by
    rfl
  have g0 : f64GtOne 0 = false := by
    rw [f64GtOne_finite _ _ hzero]; norm_num
  have g1 : f64GtOne negativeStartInfo.start_pos = false := by
    rw [f64GtOne_finite _ _ hneg]; norm_num
  have g2 : f64GtOne nanUsedInfo.used_part = false := by
    simp [f64GtOne, hnan]
  obtain ⟨q1, h1, h1s, _, _, _⟩ := ofPartInfo_accepts_out_of_range_fractions exampleFactory
    ⟨nofsDriver, rfl⟩ noBeyond negativeStartInfo g1 g0 (by
      rintro ⟨x, y, hx, _, h0, _⟩
      rw [hneg] at hx
      injection hx with hx
      rw [← hx] at h0
      norm_num at h0)
  obtain ⟨q2, h2, _, h2u, _, _⟩ := ofPartInfo_accepts_out_of_range_fractions exampleFactory
    ⟨nofsDriver, rfl⟩ noBeyond nanUsedInfo g0 g2 (by
      rintro ⟨x, y, _, hy, _⟩
      rw [hnan] at hy
      exact absurd hy (by simp))
  exact ⟨⟨q1, h1, h1s⟩, hneg, ⟨q2, h2, h2u⟩, hnan⟩

/-! ## Theorems on the external mount command -/

/-- When the external mount command ends with a positive exit value, which is a failure of
the command, `doMount` returns as after a mount: the scratch directory is the mount point,
and a line is added to the mount table, but nothing is mounted. -/
theorem doMount_helper_failure (env : SysEnv) (m : Machine) (p : Partition) (tmpDir : String)
    (hmtab : env.setmntent = true) (hsup : p._fs.mountSupport = true)
    (hext : p._fs.mountExternal = true)
    (hnot : scanMtab env p._path p._uuid (uuidDevPathOf p) m.mtab = none)
    (hdir : env.mkdtemp = some tmpDir) (hexit : 0 < env.spawnExit) :
    p.doMount env m
      = (addMtabEntry { m.log .doMount with dirs := tmpDir :: m.dirs } p._path tmpDir,
          p.setMountPoint tmpDir, .returned ()) := by
  unfold uuidDevPathOf at hnot
  have hnot1 : scanMtab env p._path p._uuid ("/dev/disk/by-uuid/" ++ bytesToString p._uuid)
      (m.log .doMount).mtab = none := hnot
  have hne : ¬ env.spawnExit = 0 := by omega
  have hnl : ¬ env.spawnExit < 0 := by omega
  simp only [Partition.doMount, Partition.isMounted, Partition.externalMount, hsup, hmtab,
    hnot1, hext, hdir, hnl, hne, Bool.not_true, Bool.false_eq_true, if_false, if_true]
  rfl

/-- C13 (the code departs from the claim): the minimum occupied bytes when the external mount
command fails. For a partition that is neither extended nor without filesystem, whose driver
mounts with an external command, `externalMount` tests `exitValue < 0` only: when the command
ends with a positive exit value, `doMount` returns although nothing is mounted on the scratch
directory, and a line for the partition is added to the mount table. `initMinSize` then
returns with `_minSize` computed from what `statvfs` answers for the scratch directory, on
which no filesystem is mounted: the numbers are not those of the filesystem of the
partition. -/
theorem initMinSize_helper_failure_takes_scratch_directory (H : Hierarchy)
    (D : PartitionDecls) (env : SysEnv) (m : Machine) (p : Partition) (tmpDir : String)
    (info : StatVfs) (ht : p._type ≠ D.PARTITION_EXTENDED) (hn : p._fs.typeIsNone = false)
    (hmtab : env.setmntent = true) (hsup : p._fs.mountSupport = true)
    (hext : p._fs.mountExternal = true)
    (hnot : scanMtab env p._path p._uuid (uuidDevPathOf p) m.mtab = none)
    (hdir : env.mkdtemp = some tmpDir) (hexit : 0 < env.spawnExit)
    (hfree : tmpDir ∉ m.mounts) (hstat : env.statvfs tmpDir = some info) :
    (∃ m1 p1, p.doMount env m = (m1, p1, .returned ()) ∧ p1._fs.mountPoint = tmpDir
        ∧ m1.mounts = m.mounts ∧ tmpDir ∉ m1.mounts ∧ ⟨p._path, tmpDir⟩ ∈ m1.mtab)
      ∧ (∃ m3 p3, p.initMinSize H D env m = (m3, p3, .returned ())
        ∧ p3._minSize
          = (info.f_blocks + 2 ^ 64 - info.f_bfree % 2 ^ 64) % 2 ^ 64 * info.f_bsize
            % 2 ^ 64) := by
  have hm := doMount_helper_failure env m p tmpDir hmtab hsup hext hnot hdir hexit
  constructor
  · refine ⟨_, _, hm, rfl, rfl, hfree, ?_⟩
    simp [addMtabEntry, Machine.log]
  · obtain ⟨m3, p3, hu, _⟩ := usedSpace_returns H env m _ p _ info hm hstat
    refine ⟨m3, { p3 with _minSize := _ }, ?_, rfl⟩
    simp only [Partition.initMinSize, ht, hn, hu, decide_False, Bool.or_self,
      Bool.false_eq_true, if_false]

theorem initMinSize_helper_failure_takes_scratch_directory_witness :
    (∃ m1 p1, externalPartition.doMount helperFailureEnv emptyMachine = (m1, p1, .returned ())
        ∧ p1._fs.mountPoint = "/tmp/doclone-x1" ∧ m1.mounts = []
        ∧ ⟨"/dev/sdb1", "/tmp/doclone-x1"⟩ ∈ m1.mtab)
      ∧ (∃ m3 p3, externalPartition.initMinSize specHierarchy exampleDecls helperFailureEnv
            emptyMachine = (m3, p3, .returned ())
        ∧ p3._minSize = 2457600) := by
  obtain ⟨⟨m1, p1, h1, h2, h3, _, h5⟩, ⟨m3, p3, h6, h7⟩⟩ :=
    initMinSize_helper_failure_takes_scratch_directory specHierarchy exampleDecls
      helperFailureEnv emptyMachine externalPartition "/tmp/doclone-x1" ⟨1000, 400, 4096⟩
      (by decide) rfl rfl rfl rfl rfl rfl (by decide) (by decide) rfl
  exact ⟨⟨m1, p1, h1, h2, h3, h5⟩, ⟨m3, p3, h6, by rw [h7]; decide⟩⟩

end Doclone
